import Mathlib

/-!
Verification development for the ai-ext extension platform.

The TypeScript sources under packages/schema, packages/core, packages/compiler
and packages/runtime are shallowly embedded below.  JavaScript strings are
modelled by Lean `String` (the data handled by this code is ASCII, so the
UTF-16 / codepoint distinction is immaterial), `undefined`-able values by
`Option`, thrown exceptions by `Except String`, insertion-ordered JS `Map`s
and plain objects by association lists, and the two external effectful
collaborators (the regular-expression engine and child-process spawning) by
explicit oracle functions passed as parameters.
-/

set_option maxRecDepth 100000

namespace AiExt

/-! ## JavaScript string and value helpers -/

instance {α β : Type} [DecidableEq α] [DecidableEq β] : DecidableEq (Except α β) := fun x y =>
  match x, y with
  | .ok a, .ok b =>
    if h : a = b then isTrue (by rw [h]) else isFalse (by intro hh; cases hh; exact h rfl)
  | .error a, .error b =>
    if h : a = b then isTrue (by rw [h]) else isFalse (by intro hh; cases hh; exact h rfl)
  | .ok _, .error _ => isFalse (by intro hh; cases hh)
  | .error _, .ok _ => isFalse (by intro hh; cases hh)

/-- Truthiness of a possibly-undefined JS string (`undefined` and `""` are falsy). -/
def truthyStr : Option String → Bool
  | none => false
  | some s => s ≠ ""

/-- JS `a || b` on possibly-undefined strings. -/
def jsOrStr (a b : Option String) : Option String :=
  if truthyStr a then a else b

/-- JS `a || b` on plain strings (`""` is falsy). -/
def jsOrS (a b : String) : String :=
  if a = "" then b else a

/-- JS `a || b || c` on plain strings. -/
def jsOr3 (a b c : String) : String :=
  jsOrS a (jsOrS b c)

/-- JS `a ?? b` (nullish coalescing) on possibly-undefined values. -/
def jsNullish {α : Type} (a b : Option α) : Option α :=
  match a with
  | some v => some v
  | none => b

/-- String interpolation of a possibly-undefined JS value (`${undefined}` prints `undefined`). -/
def jsShow (o : Option String) : String :=
  o.getD "undefined"

/-- ASCII lower-casing of a character (models JS `toLowerCase` on the ASCII data in play). -/
def asciiLowerC (c : Char) : Char :=
  if 'A' ≤ c ∧ c ≤ 'Z' then Char.ofNat (c.toNat + 32) else c

/-- ASCII upper-casing of a character (models JS `toUpperCase` on the ASCII data in play). -/
def asciiUpperC (c : Char) : Char :=
  if 'a' ≤ c ∧ c ≤ 'z' then Char.ofNat (c.toNat - 32) else c

/-- ASCII lower-casing of a string. -/
def asciiLower (s : String) : String :=
  String.mk (s.data.map asciiLowerC)

/-- ASCII upper-casing of a string. -/
def asciiUpper (s : String) : String :=
  String.mk (s.data.map asciiUpperC)

/-- Whitespace characters recognised by the model (the ASCII fragment of regex `\s`
and of JS `trim`; all data in play is ASCII). -/
def isWsC (c : Char) : Bool :=
  c = ' ' ∨ c = '\t' ∨ c = '\n' ∨ c = '\r'

/-- JS `String.prototype.trim` (ASCII fragment). -/
def jsTrim (s : String) : String :=
  String.mk (((s.data.dropWhile isWsC).reverse.dropWhile isWsC).reverse)

/-- Core of `split(/\s+/).filter(Boolean)`: the maximal runs of non-whitespace
characters, collected with an accumulator of the (reversed) current run. -/
def splitWsAux (acc : List Char) : List Char → List String
  | [] => if acc.isEmpty then [] else [String.mk acc.reverse]
  | c :: cs =>
    if isWsC c then
      (if acc.isEmpty then [] else [String.mk acc.reverse]) ++ splitWsAux [] cs
    else splitWsAux (c :: acc) cs

/-- JS `s.split(/\s+/).filter(Boolean)`. -/
def splitWs (s : String) : List String :=
  splitWsAux [] s.data

/-- JS `Array.prototype.join(sep)` over plain strings. -/
def joinSep (sep : String) : List String → String
  | [] => ""
  | [x] => x
  | x :: xs => x ++ sep ++ joinSep sep xs

/-- JS `split(sep)` for a single-character separator (used for `"/"`, `"-"` and `"\n"` splits). -/
def splitOnC (sep : Char) (s : String) : List String :=
  (go s.data).map String.mk
where
  go : List Char → List (List Char)
  | [] => [[]]
  | c :: cs =>
    if c = sep then [] :: go cs
    else
      match go cs with
      | [] => [[c]]
      | r :: rs => (c :: r) :: rs

/-- Character-list lexicographic order by code point; models the UTF-16 code-unit
order used by JS `Array.prototype.sort()` on the ASCII paths in play. -/
def chLe : List Char → List Char → Bool
  | [], _ => true
  | _ :: _, [] => false
  | x :: xs, y :: ys =>
    if x.toNat < y.toNat then true
    else if y.toNat < x.toNat then false
    else chLe xs ys

/-- String order used by `Array.prototype.sort()` (lexicographic by code unit). -/
def strLe (a b : String) : Bool :=
  chLe a.data b.data

/-- Insertion of a string into a sorted list (helper of the sort model). -/
def sortInsert (x : String) : List String → List String
  | [] => [x]
  | y :: ys => if strLe x y then x :: y :: ys else y :: sortInsert x ys

/-- Model of `Array.prototype.sort()` on string arrays.  String sorting has a
unique result (equal keys are interchangeable), so the choice of algorithm is
immaterial; an insertion sort keeps the definition kernel-evaluable. -/
def jsSort : List String → List String
  | [] => []
  | x :: xs => sortInsert x (jsSort xs)

/-- JS `String.prototype.startsWith` over character lists. -/
def chIsPfx : List Char → List Char → Bool
  | [], _ => true
  | _ :: _, [] => false
  | p :: ps, c :: cs => p = c && chIsPfx ps cs

/-- First occurrence test: does `pat` occur at the head of `s`? -/
def strStartsWith (s pat : String) : Bool :=
  chIsPfx pat.data s.data

/-- JS `String.prototype.replace(pat, repl)` with a plain-string pattern:
replaces only the first occurrence, leaves the string unchanged when absent. -/
def replaceFirstCh (s pat repl : List Char) : List Char :=
  match s with
  | [] => if pat = [] then repl else []
  | c :: cs =>
    if chIsPfx pat (c :: cs) then repl ++ (c :: cs).drop pat.length
    else c :: replaceFirstCh cs pat repl

/-- JS `String.prototype.replace` (first occurrence, plain-string pattern). -/
def replaceFirstStr (s pat repl : String) : String :=
  String.mk (replaceFirstCh s.data pat.data repl.data)

/-- JS `w.charAt(0).toUpperCase() + w.slice(1)`. -/
def capFirst (w : String) : String :=
  match w.data with
  | [] => ""
  | c :: cs => String.mk (asciiUpperC c :: cs)

/-- Test of the regex `/^[a-z][a-z0-9-]*$/` (`NAME_PATTERN` in validator.ts). -/
def namePatternTest (s : String) : Bool :=
  match s.data with
  | [] => false
  | c :: cs =>
    ('a' ≤ c ∧ c ≤ 'z') ∧
    cs.all (fun d => ('a' ≤ d ∧ d ≤ 'z') ∨ ('0' ≤ d ∧ d ≤ '9') ∨ d = '-')

/-- Decimal digit test. -/
def isDigitC (c : Char) : Bool :=
  '0' ≤ c ∧ c ≤ '9'

/-- Test of the regex `/^\d+(\.\d+)?$/` used by the KiloCode YAML renderer. -/
def looksNumeric (s : String) : Bool :=
  match s.data.span isDigitC with
  | (ds, rest) =>
    !ds.isEmpty &&
    (rest.isEmpty ||
      (match rest with
       | '.' :: more => !more.isEmpty && more.all isDigitC
       | _ => false))

/-- JSON string escaping as performed by `JSON.stringify` on the ASCII data in play. -/
def jsonEscape (s : String) : String :=
  String.mk (s.data.flatMap escC)
where
  escC (c : Char) : List Char :=
    if c = '"' then ['\\', '"']
    else if c = '\\' then ['\\', '\\']
    else if c = '\n' then ['\\', 'n']
    else if c = '\t' then ['\\', 't']
    else if c = '\r' then ['\\', 'r']
    else [c]

/-- `JSON.stringify` of a string array (compact form, as used inside YAML rendering). -/
def jsonStrArr (xs : List String) : String :=
  "[" ++ joinSep "," (xs.map (fun x => "\"" ++ jsonEscape x ++ "\"")) ++ "]"

/-- Lookup in an insertion-ordered association list (JS `Map.prototype.get`). -/
def mapGet {α : Type} : List (String × α) → String → Option α
  | [], _ => none
  | (k, v) :: rest, key => if k = key then some v else mapGet rest key

/-- JS `Map.prototype.set`: updates an existing key in place (keeping its
position in iteration order) or appends a new binding at the end. -/
def mapSet {α : Type} : List (String × α) → String → α → List (String × α)
  | [], key, v => [(key, v)]
  | (k, w) :: rest, key, v =>
    if k = key then (k, v) :: rest else (k, w) :: mapSet rest key v

/-! ## Canonical schema types (packages/schema/src/types.ts)

Enumerated string unions (`HookEvent`, `PermissionMode`, severities, …) are
modelled as plain `String`s: the parsers install raw frontmatter values by
unchecked cast, so at run time these fields really do carry arbitrary strings
and only the validators constrain them.  Optional fields become `Option`;
free-form `Record<string, unknown>` metadata is modelled by its
`JSON.stringify` serialization, the only operation ever applied to it. -/

structure ComponentMetadata where
  name : Option String
  description : Option String
  license : Option String
  compatibility : Option String
  metadata : Option String
  tags : Option (List String)
  deriving DecidableEq, Repr

structure ToolAccess where
  allowed : Option (List String)
  disallowed : Option (List String)
  deriving DecidableEq, Repr

structure ExtensionManifest where
  name : Option String
  version : Option String
  description : Option String
  author : Option String
  license : Option String
  skills : Option String
  agents : Option String
  hooks : Option String
  tools : Option String
  policies : Option String
  rules : Option String
  deriving DecidableEq, Repr

structure SkillInvocation where
  userInvocable : Option Bool
  modelInvocable : Option Bool
  argumentHint : Option String
  deriving DecidableEq, Repr

structure SkillContext where
  mode : Option String
  agent : Option String
  model : Option String
  deriving DecidableEq, Repr

structure HookHandler where
  htype : Option String
  command : Option String
  prompt : Option String
  model : Option String
  timeout : Option Int
  statusMessage : Option String
  async : Option Bool
  once : Option Bool
  deriving DecidableEq, Repr

structure HookFallback where
  strategy : Option String
  description : Option String
  deriving DecidableEq, Repr

structure HookDefinition where
  metadata : ComponentMetadata
  event : Option String
  matcher : Option String
  handlers : List HookHandler
  fallback : Option HookFallback
  instructions : Option String
  deriving DecidableEq, Repr

structure SkillDefinition where
  metadata : ComponentMetadata
  invocation : Option SkillInvocation
  tools : Option ToolAccess
  context : Option SkillContext
  resources : Option (List String)
  instructions : String
  hooks : Option (List HookDefinition)
  deriving DecidableEq, Repr

structure McpServerRef where
  name : Option String
  command : Option String
  args : Option (List String)
  env : Option (List (String × String))
  deriving DecidableEq, Repr

structure AgentDefinition where
  metadata : ComponentMetadata
  model : Option String
  maxTurns : Option Int
  tools : Option ToolAccess
  permissionMode : Option String
  skills : Option (List String)
  mcpServers : Option (List (String ⊕ McpServerRef))
  memory : Option String
  instructions : String
  hooks : Option (List HookDefinition)
  toolGroups : Option (List String)
  whenToUse : Option String
  deriving DecidableEq, Repr

structure ToolParameterProperty where
  ptype : Option String
  description : Option String
  deriving DecidableEq, Repr

structure ToolParameters where
  ptype : Option String
  properties : List (String × ToolParameterProperty)
  required : Option (List String)
  deriving DecidableEq, Repr

structure McpProxyRef where
  server : Option String
  tool : Option String
  deriving DecidableEq, Repr

structure ToolImplementation where
  itype : Option String
  command : Option String
  script : Option String
  mcpProxy : Option McpProxyRef
  deriving DecidableEq, Repr

structure ToolExposure where
  mcp : Option Bool
  native : Option Bool
  deriving DecidableEq, Repr

structure ToolDefinition where
  metadata : ComponentMetadata
  parameters : ToolParameters
  implementation : ToolImplementation
  exposure : Option ToolExposure
  instructions : Option String
  deriving DecidableEq, Repr

structure PermissionRules where
  deny : Option (List String)
  ask : Option (List String)
  allow : Option (List String)
  deriving DecidableEq, Repr

structure NetworkConfig where
  allowedDomains : Option (List String)
  allowUnixSockets : Option (List String)
  allowLocalBinding : Option Bool
  deriving DecidableEq, Repr

structure SandboxConfig where
  enabled : Option Bool
  excludedCommands : Option (List String)
  network : Option NetworkConfig
  deriving DecidableEq, Repr

structure PolicyDefinition where
  metadata : ComponentMetadata
  permissions : Option PermissionRules
  sandbox : Option SandboxConfig
  instructions : Option String
  deriving DecidableEq, Repr

structure ExtensionIR where
  manifest : ExtensionManifest
  skills : List SkillDefinition
  agents : List AgentDefinition
  hooks : List HookDefinition
  tools : List ToolDefinition
  policies : List PolicyDefinition
  rules : List (String × String)
  deriving DecidableEq, Repr

structure BuildWarning where
  component : String
  message : String
  severity : String
  deriving DecidableEq, Repr

structure RuntimeRequirement where
  feature : String
  reason : String
  component : String
  deriving DecidableEq, Repr

structure TargetOutput where
  files : List (String × String)
  warnings : List BuildWarning
  runtimeRequirements : List RuntimeRequirement
  deriving DecidableEq, Repr

structure BuildResult where
  target : String
  files : List (String × String)
  warnings : List BuildWarning
  runtimeRequired : List RuntimeRequirement
  deriving DecidableEq, Repr

/-! ## Validation (packages/schema/src/validator.ts)

The validators receive data already shaped by the parsers (the resolver calls
them on spreads of parser output), so the `typeof` guards that can only fire
on untyped input are unreachable in the typed model and are noted where they
occur. -/

structure ValidationError where
  path : String
  message : String
  severity : String
  deriving DecidableEq, Repr

structure ValidationResult where
  valid : Bool
  errors : List ValidationError
  warnings : List ValidationError
  deriving DecidableEq, Repr

def vok : ValidationResult := ⟨true, [], []⟩

def vfail (errors : List ValidationError) : ValidationResult :=
  let errs := errors.filter (fun e => e.severity = "error")
  let warns := errors.filter (fun e => e.severity = "warning")
  ⟨errs.length = 0, errs, warns⟩

def verror (path message : String) : ValidationError := ⟨path, message, "error"⟩

def vwarning (path message : String) : ValidationError := ⟨path, message, "warning"⟩

def VALID_HOOK_EVENTS : List String :=
  ["SessionStart", "SessionEnd", "UserPromptSubmit",
   "PreToolUse", "PostToolUse", "PostToolUseFailure", "PermissionRequest",
   "SubagentStart", "SubagentStop", "Notification", "Stop", "TaskCompleted",
   "PreCompact", "FileEdited", "FileWatcherUpdated"]

def VALID_HOOK_HANDLER_TYPES : List String := ["command", "prompt", "agent"]

def VALID_FALLBACK_STRATEGIES : List String := ["mcp-tool", "skill-injection", "ignore"]

def VALID_PERMISSION_MODES : List String :=
  ["default", "acceptEdits", "dontAsk", "plan", "delegate", "bypassPermissions"]

def VALID_MEMORY_SCOPES : List String := ["user", "project", "local", "session"]

def VALID_TOOL_IMPL_TYPES : List String := ["command", "script", "mcp-proxy"]

/-- Shared metadata checks (`validateMetadata` in validator.ts).  String lengths
are codepoint counts, which agree with JS `length` on the ASCII data in play. -/
def validateMetadata (name description : Option String) (pre : String) :
    List ValidationError :=
  (if ¬ truthyStr name then
    [verror (pre ++ ".name") "name is required and must be a string"]
  else
    (if (name.getD "").data.length > 64 then
      [verror (pre ++ ".name") "name must be <= 64 chars"]
    else []) ++
    (if ¬ namePatternTest (name.getD "") then
      [verror (pre ++ ".name")
        "name must be lowercase alphanumeric with hyphens, starting with a letter"]
    else [])) ++
  (if ¬ truthyStr description then
    [verror (pre ++ ".description") "description is required and must be a string"]
  else if (description.getD "").data.length > 1024 then
    [vwarning (pre ++ ".description") "description exceeds 1024 chars"]
  else [])

def validateManifest (d : ExtensionManifest) : ValidationResult :=
  let errors :=
    (if ¬ truthyStr d.name then [verror "manifest.name" "name is required"] else []) ++
    (if ¬ truthyStr d.version then [verror "manifest.version" "version is required"] else []) ++
    (if ¬ truthyStr d.description then [verror "manifest.description" "description is required"] else [])
  if errors.length > 0 then vfail errors else vok

/-- Input of `validateSkill`: the resolver passes
`{...skill.metadata, invocation, context, tools}`; only the fields the
validator reads are modelled. -/
structure SkillValInput where
  name : Option String
  description : Option String
  invocation : Option SkillInvocation
  context : Option SkillContext
  tools : Option ToolAccess
  deriving DecidableEq, Repr

def validateSkill (d : SkillValInput) : ValidationResult :=
  -- the invocation boolean `typeof` checks cannot fire on typed parser output
  let errors :=
    validateMetadata d.name d.description "skill" ++
    (match d.context with
     | some ctx =>
       if truthyStr ctx.mode ∧ ¬ ((ctx.mode.getD "") ∈ (["fork", "inline"] : List String)) then
         [verror "skill.context.mode" "must be \x27fork\x27 or \x27inline\x27"]
       else []
     | none => [])
  if errors.length > 0 then vfail errors else vok

structure AgentValInput where
  name : Option String
  description : Option String
  permissionMode : Option String
  memory : Option String
  maxTurns : Option Int
  deriving DecidableEq, Repr

def validateAgent (d : AgentValInput) : ValidationResult :=
  let errors :=
    validateMetadata d.name d.description "agent" ++
    (if truthyStr d.permissionMode ∧ ¬ ((d.permissionMode.getD "") ∈ VALID_PERMISSION_MODES) then
      [verror "agent.permissionMode"
        ("must be one of: " ++ joinSep ", " VALID_PERMISSION_MODES)]
    else []) ++
    (if truthyStr d.memory ∧ ¬ ((d.memory.getD "") ∈ VALID_MEMORY_SCOPES) then
      [verror "agent.memory" ("must be one of: " ++ joinSep ", " VALID_MEMORY_SCOPES)]
    else []) ++
    (match d.maxTurns with
     | some n => if n < 1 then [verror "agent.maxTurns" "must be a positive number"] else []
     | none => [])
  if errors.length > 0 then vfail errors else vok

structure HookValInput where
  name : Option String
  description : Option String
  event : Option String
  handlers : List HookHandler
  fallback : Option HookFallback
  deriving DecidableEq, Repr

def validateHookHandlerAt (i : Nat) (h : HookHandler) : List ValidationError :=
  (if ¬ truthyStr h.htype ∨ ¬ ((h.htype.getD "") ∈ VALID_HOOK_HANDLER_TYPES) then
    [verror ("hook.handlers[" ++ toString i ++ "].type")
      ("must be one of: " ++ joinSep ", " VALID_HOOK_HANDLER_TYPES)]
  else []) ++
  (if h.htype = some "command" ∧ ¬ truthyStr h.command then
    [verror ("hook.handlers[" ++ toString i ++ "].command")
      "command is required for type \x27command\x27"]
  else []) ++
  (if (h.htype = some "prompt" ∨ h.htype = some "agent") ∧ ¬ truthyStr h.prompt then
    [verror ("hook.handlers[" ++ toString i ++ "].prompt")
      ("prompt is required for type \x27" ++ jsShow h.htype ++ "\x27")]
  else [])

def validateHook (d : HookValInput) : ValidationResult :=
  -- `handlers` arrives as a (possibly empty) array from the parser, so the
  -- `!d.handlers || !Array.isArray` half of the guard reduces to the length test
  let errors :=
    validateMetadata d.name d.description "hook" ++
    (if ¬ truthyStr d.event ∨ ¬ ((d.event.getD "") ∈ VALID_HOOK_EVENTS) then
      [verror "hook.event"
        ("event is required and must be one of: " ++ joinSep ", " VALID_HOOK_EVENTS)]
    else []) ++
    (if d.handlers.length = 0 then
      [verror "hook.handlers" "at least one handler is required"]
    else (d.handlers.enum.flatMap (fun p => validateHookHandlerAt p.1 p.2))) ++
    (match d.fallback with
     | some fb =>
       if ¬ truthyStr fb.strategy ∨ ¬ ((fb.strategy.getD "") ∈ VALID_FALLBACK_STRATEGIES) then
         [verror "hook.fallback.strategy"
           ("must be one of: " ++ joinSep ", " VALID_FALLBACK_STRATEGIES)]
       else []
     | none => [])
  if errors.length > 0 then vfail errors else vok

structure ToolValInput where
  name : Option String
  description : Option String
  parameters : ToolParameters
  implementation : ToolImplementation
  deriving DecidableEq, Repr

def validateTool (d : ToolValInput) : ValidationResult :=
  -- parser output always carries parameters/implementation objects, so the
  -- `!d.parameters` / `!d.implementation` guards are unreachable here
  let errors :=
    validateMetadata d.name d.description "tool" ++
    (if d.parameters.ptype ≠ some "object" then
      [verror "tool.parameters.type" "parameters type must be \x27object\x27"]
    else []) ++
    (if ¬ truthyStr d.implementation.itype ∨
        ¬ ((d.implementation.itype.getD "") ∈ VALID_TOOL_IMPL_TYPES) then
      [verror "tool.implementation.type"
        ("must be one of: " ++ joinSep ", " VALID_TOOL_IMPL_TYPES)]
    else []) ++
    (if d.implementation.itype = some "command" ∧ ¬ truthyStr d.implementation.command then
      [verror "tool.implementation.command" "command is required for type \x27command\x27"]
    else []) ++
    (if d.implementation.itype = some "script" ∧ ¬ truthyStr d.implementation.script then
      [verror "tool.implementation.script" "script is required for type \x27script\x27"]
    else []) ++
    (if d.implementation.itype = some "mcp-proxy" ∧ d.implementation.mcpProxy = none then
      [verror "tool.implementation.mcpProxy" "mcpProxy is required for type \x27mcp-proxy\x27"]
    else [])
  if errors.length > 0 then vfail errors else vok

structure PolicyValInput where
  name : Option String
  description : Option String
  permissions : Option PermissionRules
  deriving DecidableEq, Repr

def validatePolicy (d : PolicyValInput) : ValidationResult :=
  -- the per-key `Array.isArray` checks cannot fire on typed parser output
  let errors := validateMetadata d.name d.description "policy"
  if errors.length > 0 then vfail errors else vok

/-! ## Raw frontmatter and component parsers (packages/core/src/parser.ts)

`RawFM` models the untyped YAML frontmatter record at the granularity the
parser distinguishes values: each field carries the type the parser casts it
to, `Option` marking absence.  Raw handler / fallback / implementation /
permission records are field-for-field copies of the canonical shapes, so the
canonical structures are reused for them. -/

structure RawCtxObj where
  mode : Option String
  agent : Option String
  model : Option String
  deriving DecidableEq, Repr

structure RawTools where
  allowed : Option (List String)
  disallowed : Option (List String)
  deriving DecidableEq, Repr

structure RawInlineEntry where
  matcher : Option String
  hooks : Option (List HookHandler)
  deriving DecidableEq, Repr

inductive RawInlineCfg where
  | notArr
  | arr (entries : List RawInlineEntry)
  deriving DecidableEq, Repr

structure RawFM where
  name : Option String := none
  description : Option String := none
  license : Option String := none
  compatibility : Option String := none
  metadata : Option String := none
  tags : Option (List String) := none
  allowedToolsKebab : Option String := none
  allowedToolsCamel : Option String := none
  tools : Option RawTools := none
  userInvocableKebab : Option Bool := none
  userInvocableCamel : Option Bool := none
  disableModelInvocation : Option Bool := none
  modelInvocable : Option Bool := none
  argumentHintKebab : Option String := none
  argumentHintCamel : Option String := none
  context : Option (String ⊕ RawCtxObj) := none
  agent : Option String := none
  model : Option String := none
  hooks : Option (List (String × RawInlineCfg)) := none
  resources : Option (List String) := none
  mcpServers : Option (List (String ⊕ McpServerRef)) := none
  maxTurns : Option Int := none
  permissionMode : Option String := none
  skills : Option (List String) := none
  memory : Option String := none
  toolGroups : Option (List String) := none
  whenToUse : Option String := none
  event : Option String := none
  matcher : Option String := none
  handlers : Option (List HookHandler) := none
  fallback : Option HookFallback := none
  parameters : Option ToolParameters := none
  implementation : Option ToolImplementation := none
  exposure : Option ToolExposure := none
  permissions : Option PermissionRules := none
  sandbox : Option SandboxConfig := none
  deriving DecidableEq, Repr

structure ParsedComponent where
  frontmatter : RawFM
  body : String
  sourcePath : String
  deriving DecidableEq, Repr

def extractMetadata (fm : RawFM) : ComponentMetadata :=
  ⟨fm.name, fm.description, fm.license, fm.compatibility, fm.metadata, fm.tags⟩

def extractToolAccess (fm : RawFM) : Option ToolAccess :=
  let allowedTools := jsOrStr fm.allowedToolsKebab fm.allowedToolsCamel
  if truthyStr allowedTools then
    some ⟨some (splitWs (allowedTools.getD "")), none⟩
  else
    match fm.tools with
    | some t => some ⟨t.allowed, t.disallowed⟩
    | none => none

def parseInlineHooks (hooksData : List (String × RawInlineCfg)) : List HookDefinition :=
  hooksData.flatMap (fun p =>
    match p.2 with
    | .notArr => []
    | .arr entries =>
      entries.map (fun entry =>
        { metadata :=
            { name := some (asciiLower (p.1 ++ "-" ++
                (if truthyStr entry.matcher then entry.matcher.getD "" else "all"))),
              description := some ("Inline hook for " ++ p.1),
              license := none, compatibility := none, metadata := none, tags := none },
          event := some p.1,
          matcher := entry.matcher,
          handlers := entry.hooks.getD [],
          fallback := none,
          instructions := none }))

def parseSkill (component : ParsedComponent) : SkillDefinition :=
  let fm := component.frontmatter
  let body := component.body
  let ui := jsNullish fm.userInvocableKebab fm.userInvocableCamel
  let mi : Option Bool :=
    match fm.disableModelInvocation with
    | some b => some (!b)
    | none => fm.modelInvocable
  let ahRaw := jsOrStr fm.argumentHintKebab fm.argumentHintCamel
  let ah := if truthyStr ahRaw then ahRaw else none
  let invocation : Option SkillInvocation :=
    if ui.isSome ∨ mi.isSome ∨ ah.isSome then some ⟨ui, mi, ah⟩ else none
  -- the context record accumulates keys exactly as the source assigns them;
  -- in the object branch the three keys are always assigned (possibly to
  -- undefined values), which is what makes the record non-empty
  let c1 : SkillContext :=
    match fm.context with
    | some (.inl s) => if s ≠ "" then ⟨some s, none, none⟩ else ⟨none, none, none⟩
    | some (.inr o) => ⟨o.mode, o.agent, o.model⟩
    | none => ⟨none, none, none⟩
  let c2 := if truthyStr fm.agent then { c1 with agent := fm.agent } else c1
  let c3 := if truthyStr fm.model then { c2 with model := fm.model } else c2
  let ctxHasKeys : Bool :=
    (match fm.context with
     | some (.inl s) => s ≠ ""
     | some (.inr _) => true
     | none => false) || truthyStr fm.agent || truthyStr fm.model
  let hooks := fm.hooks.map parseInlineHooks
  { metadata := extractMetadata fm,
    invocation := invocation,
    tools := extractToolAccess fm,
    context := if ctxHasKeys then some c3 else none,
    resources := fm.resources,
    instructions := body,
    hooks := hooks }

def parseAgent (component : ParsedComponent) : AgentDefinition :=
  let fm := component.frontmatter
  let body := component.body
  let hooks := fm.hooks.map parseInlineHooks
  { metadata := extractMetadata fm,
    model := fm.model,
    maxTurns := fm.maxTurns,
    tools := extractToolAccess fm,
    permissionMode := fm.permissionMode,
    skills := fm.skills,
    mcpServers := fm.mcpServers,
    memory := fm.memory,
    instructions := body,
    hooks := hooks,
    toolGroups := fm.toolGroups,
    whenToUse := fm.whenToUse }

def parseHook (component : ParsedComponent) : HookDefinition :=
  let fm := component.frontmatter
  let body := component.body
  { metadata := extractMetadata fm,
    event := fm.event,
    matcher := fm.matcher,
    handlers := fm.handlers.getD [],
    fallback := fm.fallback,
    instructions := if body ≠ "" then some body else none }

def parseTool (component : ParsedComponent) : ToolDefinition :=
  let fm := component.frontmatter
  let body := component.body
  { metadata := extractMetadata fm,
    parameters := fm.parameters.getD ⟨some "object", [], none⟩,
    implementation := fm.implementation.getD ⟨some "command", none, none, none⟩,
    exposure := fm.exposure,
    instructions := if body ≠ "" then some body else none }

def parsePolicy (component : ParsedComponent) : PolicyDefinition :=
  let fm := component.frontmatter
  let body := component.body
  { metadata := extractMetadata fm,
    permissions := fm.permissions,
    sandbox := fm.sandbox,
    instructions := if body ≠ "" then some body else none }

/-! ## Loader (packages/core/src/loader.ts)

The filesystem is modelled as a tree whose leaves carry both the raw file
text (read by the rules scanner) and the gray-matter parse outcome of that
text (an oracle for the external YAML/frontmatter library, with a second
outcome for the text after the `fixYamlDescriptions` rewrite).  `readdirSync`
enumeration order is the order of the `entries` list.  Path resolution is
modelled by `"/"`-joining; the data in play never uses `..` or absolute
overrides. -/

structure FileNode where
  raw : String
  parsed : Except String (RawFM × String)
  parsedFixed : Except String (RawFM × String)

mutual
inductive FsTree where
  | file (node : FileNode)
  | dir (entries : FsEntries)
inductive FsEntries where
  | nil
  | cons (name : String) (child : FsTree) (rest : FsEntries)
end

/-- Convenience constructor for directory-entry chains (used only to state
concrete instances). -/
def entriesOf : List (String × FsTree) → FsEntries
  | [] => .nil
  | (nm, t) :: rest => .cons nm t (entriesOf rest)

/-- Recursive scan of `scanDirectory` in loader.ts: directories are entered
depth-first in enumeration order, and a file is collected when its entry name
matches the fixed component filename case-insensitively. -/
def scanDirEntries (filename dirPath : String) : FsEntries → List String
  | .nil => []
  | .cons nm (.dir es) rest =>
    scanDirEntries filename (dirPath ++ "/" ++ nm) es ++ scanDirEntries filename dirPath rest
  | .cons nm (.file _) rest =>
    (if nm = filename ∨ asciiUpper nm = asciiUpper filename then [dirPath ++ "/" ++ nm]
     else []) ++
    scanDirEntries filename dirPath rest

/-- First entry with the given name (filesystem name lookup). -/
def findEntry : FsEntries → String → Option FsTree
  | .nil, _ => none
  | .cons nm t rest, seg => if nm = seg then some t else findEntry rest seg

/-- Walk a relative path (already split into segments) down the tree. -/
def subtreeAt (t : FsTree) : List String → Option FsTree
  | [] => some t
  | seg :: rest =>
    match t with
    | .file _ => none
    | .dir es =>
      match findEntry es seg with
      | some t' => subtreeAt t' rest
      | none => none

def readByPath (root : FsTree) (segs : List String) : Option FileNode :=
  match subtreeAt root segs with
  | some (.file n) => some n
  | _ => none

/-- Segments of `path` relative to `dir` (the discovered paths always extend
the base directory). -/
def relSegs (dir path : String) : Option (List String) :=
  if strStartsWith path (dir ++ "/") then
    some (splitOnC '/' (String.mk (path.data.drop (dir.data.length + 1))))
  else none

/-- Model of `readFileSync` on a discovered path. -/
def readFileAt (dir : String) (root : FsTree) (path : String) : Option FileNode :=
  (relSegs dir path).bind (readByPath root)

/-- `parseMarkdownFile` in loader.ts: gray-matter parsing is the oracle stored
in the file node (per-text, so re-reading the same file gives the same
outcome); a missing file models the `readFileSync` ENOENT throw, which the
resolver catches per component. -/
def parseMarkdownFile (fixYaml : Bool) (node : Option FileNode) (path : String) :
    Except String ParsedComponent :=
  match node with
  | none => .error "ENOENT: no such file or directory"
  | some n =>
    match (if fixYaml then n.parsedFixed else n.parsed) with
    | .error e => .error e
    | .ok pr => .ok ⟨pr.1, jsTrim pr.2, path⟩

/-- Outcome of probing and reading the manifest file, as decided by the real
filesystem: no `extension.yaml`/`extension.yml` exists, YAML parsing threw,
the YAML parsed to something that is not an object, or a parsed manifest. -/
inductive ManifestLoad where
  | missing
  | parseError (msg : String)
  | notObject (path : String)
  | parsed (m : ExtensionManifest)

/-- `loadManifest` in loader.ts. -/
def loadManifest (dir : String) (load : ManifestLoad) : Except String ExtensionManifest :=
  match load with
  | .missing =>
    .error ("No extension.yaml found in " ++ dir ++ ". Run \x27ai-ext init\x27 to create one.")
  | .parseError msg => .error msg
  | .notObject path => .error ("Invalid extension manifest at " ++ path)
  | .parsed m => .ok m

/-- `discoverComponents` in loader.ts: an empty/undefined component dir or a
missing path yields `[]`; a path that names a file passes the `existsSync`
probe, and then `readdirSync` in `scanDirectory` (which has no try/catch)
throws `ENOTDIR`; a directory is scanned recursively and the result sorted by
path. -/
def discoverComponents (baseDir : String) (componentDir : Option String)
    (filename : String) (root : FsTree) : Except String (List String) :=
  if ¬ truthyStr componentDir then .ok []
  else
    let sub := componentDir.getD ""
    let dirPath := baseDir ++ "/" ++ sub
    match subtreeAt root (splitOnC '/' sub) with
    | none => .ok []
    | some (.file _) =>
      .error ("ENOTDIR: not a directory, scandir \x27" ++ dirPath ++ "\x27")
    | some (.dir es) => .ok (jsSort (scanDirEntries filename dirPath es))

/-- JS `String.prototype.endsWith`. -/
def endsWithStr (s pat : String) : Bool :=
  chIsPfx pat.data.reverse s.data.reverse

/-- Recursive scan of `scanRules` in loader.ts: collects every `*.md` file with
its path relative to the rules root, in enumeration order. -/
def scanRulesEntries (rel : String) : FsEntries → List (String × String)
  | .nil => []
  | .cons nm (.dir es) rest =>
    scanRulesEntries (if rel = "" then nm else rel ++ "/" ++ nm) es ++
    scanRulesEntries rel rest
  | .cons nm (.file n) rest =>
    (if endsWithStr nm ".md" then [(if rel = "" then nm else rel ++ "/" ++ nm, n.raw)]
     else []) ++
    scanRulesEntries rel rest

/-- `discoverRules` in loader.ts (the ok result models the insertion-ordered
Map): like the component scan, a rules path that names a file makes
`readdirSync` in `scanRules` throw `ENOTDIR`. -/
def discoverRules (baseDir : String) (rulesDir : Option String) (root : FsTree) :
    Except String (List (String × String)) :=
  match rulesDir with
  | none => .ok []
  | some sub =>
    match subtreeAt root (splitOnC '/' sub) with
    | none => .ok []
    | some (.file _) =>
      .error ("ENOTDIR: not a directory, scandir \x27" ++ baseDir ++ "/" ++ sub ++ "\x27")
    | some (.dir es) =>
      .ok ((scanRulesEntries "" es).foldl (fun m p => mapSet m p.1 p.2) [])

/-! ## Resolver (packages/core/src/resolver.ts) -/

structure ResolveError where
  component : String
  file : String
  message : String
  severity : String
  deriving DecidableEq, Repr

structure ResolveResult where
  ir : ExtensionIR
  errors : List ResolveError
  valid : Bool
  deriving DecidableEq, Repr

/-- `collectErrors` in resolver.ts. -/
def collectErrors (component file : String) (validation : ValidationResult) :
    List ResolveError :=
  validation.errors.map (fun err => ⟨component, file, err.path ++ ": " ++ err.message, "error"⟩) ++
  validation.warnings.map (fun w => ⟨component, file, w.path ++ ": " ++ w.message, "warning"⟩)

/-- The per-kind ingredients of the five structurally identical
discover/parse/validate loops in `resolveExtension`. -/
structure KindProc (C : Type) where
  tag : String
  parseF : ParsedComponent → C
  validateF : C → ValidationResult
  errLabel : C → String
  extraErrs : String → C → List ResolveError

/-- One component-kind loop of `resolveExtension`: each discovered file is
processed independently inside a try/catch — a parse exception records an
error finding and skips that file only, while a component that parses is
validated, its findings are recorded, and it is pushed regardless. -/
def processFiles {C : Type} (read : String → Except String ParsedComponent)
    (kp : KindProc C) : List String → List C × List ResolveError
  | [] => ([], [])
  | file :: rest =>
    let tailRes := processFiles read kp rest
    match read file with
    | .error e =>
      (tailRes.1, ⟨kp.tag, file, "Failed to parse: " ++ e, "error"⟩ :: tailRes.2)
    | .ok parsed =>
      let c := kp.parseF parsed
      let v := kp.validateF c
      (c :: tailRes.1,
       kp.extraErrs file c ++ collectErrors (kp.errLabel c) file v ++ tailRes.2)

/-- The skill-only directory/name check (a warning, not an error). -/
def skillDirWarning (file : String) (skill : SkillDefinition) : List ResolveError :=
  let skillDir := (fun p =>
    let segs := splitOnC '/' p
    if segs.length ≤ 1 then "." else joinSep "/" segs.dropLast) file
  let skillNameFromPath := (splitOnC '/' skillDir).getLast?.getD ""
  if skill.metadata.name ≠ some skillNameFromPath then
    [⟨"skill", file,
      "Skill name \"" ++ jsShow skill.metadata.name ++ "\" does not match directory name \"" ++
        skillNameFromPath ++
        "\". In KiloCode, the name field must match the parent directory name.",
      "warning"⟩]
  else []

def skillKP : KindProc SkillDefinition :=
  { tag := "skill",
    parseF := parseSkill,
    validateF := fun s =>
      validateSkill ⟨s.metadata.name, s.metadata.description, s.invocation, s.context, s.tools⟩,
    errLabel := fun s => "skill:" ++ jsShow s.metadata.name,
    extraErrs := skillDirWarning }

def agentKP : KindProc AgentDefinition :=
  { tag := "agent",
    parseF := parseAgent,
    validateF := fun a =>
      validateAgent ⟨a.metadata.name, a.metadata.description, a.permissionMode, a.memory, a.maxTurns⟩,
    errLabel := fun a => "agent:" ++ jsShow a.metadata.name,
    extraErrs := fun _ _ => [] }

def hookKP : KindProc HookDefinition :=
  { tag := "hook",
    parseF := parseHook,
    validateF := fun h =>
      validateHook ⟨h.metadata.name, h.metadata.description, h.event, h.handlers, h.fallback⟩,
    errLabel := fun h => "hook:" ++ jsShow h.metadata.name,
    extraErrs := fun _ _ => [] }

def toolKP : KindProc ToolDefinition :=
  { tag := "tool",
    parseF := parseTool,
    validateF := fun t =>
      validateTool ⟨t.metadata.name, t.metadata.description, t.parameters, t.implementation⟩,
    errLabel := fun t => "tool:" ++ jsShow t.metadata.name,
    extraErrs := fun _ _ => [] }

def policyKP : KindProc PolicyDefinition :=
  { tag := "policy",
    parseF := parsePolicy,
    validateF := fun p =>
      validatePolicy ⟨p.metadata.name, p.metadata.description, p.permissions⟩,
    errLabel := fun p => "policy:" ++ jsShow p.metadata.name,
    extraErrs := fun _ _ => [] }

/-- The extension source directory as seen by the resolver: the manifest-file
probe outcome plus the directory tree. -/
structure ExtSource where
  manifestLoad : ManifestLoad
  root : FsTree

/-- `resolveExtension` in resolver.ts.  Throws (`Except.error`) when
`loadManifest` throws and when any of the six discovery scans throws
(`ENOTDIR` for a component or rules path naming a file) — those calls sit
outside the per-file `try` — while every per-component parse or validation
problem becomes a finding. -/
def resolveExtension (dir : String) (src : ExtSource) (fixYaml : Bool) :
    Except String ResolveResult :=
  match loadManifest dir src.manifestLoad with
  | .error e => .error e
  | .ok manifest =>
    let errs0 := collectErrors "manifest" "extension.yaml" (validateManifest manifest)
    let read := fun (p : String) => parseMarkdownFile fixYaml (readFileAt dir src.root p) p
    match discoverComponents dir manifest.skills "SKILL.md" src.root with
    | .error e => .error e
    | .ok skillFiles =>
    match discoverComponents dir manifest.agents "AGENT.md" src.root with
    | .error e => .error e
    | .ok agentFiles =>
    match discoverComponents dir manifest.hooks "HOOK.md" src.root with
    | .error e => .error e
    | .ok hookFiles =>
    match discoverComponents dir manifest.tools "TOOL.md" src.root with
    | .error e => .error e
    | .ok toolFiles =>
    match discoverComponents dir manifest.policies "POLICY.md" src.root with
    | .error e => .error e
    | .ok policyFiles =>
    match discoverRules dir manifest.rules src.root with
    | .error e => .error e
    | .ok rules =>
      let skillsRes := processFiles read skillKP skillFiles
      let agentsRes := processFiles read agentKP agentFiles
      let hooksRes := processFiles read hookKP hookFiles
      let toolsRes := processFiles read toolKP toolFiles
      let policiesRes := processFiles read policyKP policyFiles
      let errors := errs0 ++ skillsRes.2 ++ agentsRes.2 ++ hooksRes.2 ++ toolsRes.2 ++
        policiesRes.2
      let hasErrors := errors.any (fun e => e.severity = "error")
      .ok { ir := { manifest := manifest, skills := skillsRes.1, agents := agentsRes.1,
                    hooks := hooksRes.1, tools := toolsRes.1, policies := policiesRes.1,
                    rules := rules },
            errors := errors,
            valid := !hasErrors }

/-! ## KiloCode target (packages/compiler/src/targets/kilocode.ts)

Frontmatter records under construction are association lists of possibly-
undefined values (`undefined` entries are filtered out by the renderer, as in
the source).  `agentToMode` calls `.split` on the agent name, so an agent
without a name makes the adapter throw; the adapter is therefore `Except`-
valued like every JS function that can raise. -/

inductive FmVal where
  | s (v : String)
  | b (v : Bool)
  | n (v : Int)
  | arrS (v : List String)
  | mjson (v : String)
  deriving DecidableEq, Repr

/-- Quoting test of `renderMarkdownWithFrontmatter` in kilocode.ts. -/
def needsQuoting (v : String) : Bool :=
  (match v.data with
   | c :: _ =>
     c = '[' ∨ c = ']' ∨ c = '\x7b' ∨ c = '\x7d' ∨ c = '|' ∨ c = '>' ∨ c = '&' ∨
     c = '*' ∨ c = '!' ∨ c = '%' ∨ c = '@' ∨ c = '\x60' ∨ c = '$'
   | [] => false) ||
  (match v.data.reverse with
   | c :: _ => isWsC c
   | [] => false) ||
  (v = "true" || v = "false" || v = "yes" || v = "no" || v = "null" || v = "~") ||
  looksNumeric v

def renderFmVal : FmVal → String
  | .s v => if needsQuoting v then "\"" ++ v ++ "\"" else v
  | .b v => if v then "true" else "false"
  | .n v => toString v
  | .arrS v => jsonStrArr v
  | .mjson v => v

/-- `renderMarkdownWithFrontmatter` in kilocode.ts. -/
def renderMarkdownWithFrontmatter (fm : List (String × Option FmVal)) (body : String) :
    String :=
  let yaml := joinSep "\n"
    ((fm.filterMap (fun p => p.2.map (fun v => (p.1, v)))).map
      (fun p => p.1 ++ ": " ++ renderFmVal p.2))
  "---\n" ++ yaml ++ "\n---\n\n" ++ body ++ "\n"

/-- Shorthand for a conditionally assigned frontmatter entry. -/
def fmIf (cond : Bool) (k : String) (v : FmVal) : List (String × Option FmVal) :=
  if cond then [(k, some v)] else []

/-- `emitSkill` in kilocode.ts. -/
def emitSkill (skill : SkillDefinition) : String :=
  let fm : List (String × Option FmVal) :=
    [("name", skill.metadata.name.map .s),
     ("description", skill.metadata.description.map .s)] ++
    fmIf (truthyStr skill.metadata.license) "license" (.s (skill.metadata.license.getD "")) ++
    fmIf (truthyStr skill.metadata.compatibility) "compatibility"
      (.s (skill.metadata.compatibility.getD "")) ++
    (match skill.metadata.metadata with
     | some m => [("metadata", some (.mjson m))]
     | none => []) ++
    (match skill.metadata.tags with
     | some tg => [("tags", some (.arrS tg))]
     | none => []) ++
    (match skill.tools.bind (·.allowed) with
     | some al => [("allowed-tools", some (.s (joinSep " " al)))]
     | none => []) ++
    (match skill.invocation with
     | some inv =>
       fmIf (truthyStr inv.argumentHint) "argument-hint" (.s (inv.argumentHint.getD "")) ++
       (match inv.userInvocable with
        | some u => [("user-invocable", some (.b u))]
        | none => []) ++
       (match inv.modelInvocable with
        | some m => [("disable-model-invocation", some (.b (!m)))]
        | none => [])
     | none => []) ++
    (match skill.context with
     | some ctx =>
       fmIf (truthyStr ctx.mode) "context" (.s (ctx.mode.getD "")) ++
       fmIf (truthyStr ctx.agent) "agent" (.s (ctx.agent.getD "")) ++
       fmIf (truthyStr ctx.model) "model" (.s (ctx.model.getD ""))
     | none => []) ++
    (match skill.resources with
     | some r => [("resources", some (.arrS r))]
     | none => [])
  renderMarkdownWithFrontmatter fm skill.instructions

inductive KGroup where
  | plain (g : String)
  | withOpts (g : String) (fileRegex : Option String) (gdescription : Option String)
  deriving DecidableEq, Repr

structure KiloMode where
  slug : Option String
  name : String
  description : Option String
  roleDefinition : String
  whenToUse : Option String
  groups : List KGroup
  deriving DecidableEq, Repr

/-- `mapToolGroups` in kilocode.ts. -/
def mapToolGroups (agent : AgentDefinition) : List KGroup :=
  let allowedOpt := agent.tools.bind (·.allowed)
  let disallowedOpt := agent.tools.bind (·.disallowed)
  if allowedOpt.isNone ∧ disallowedOpt.isNone then
    [.plain "read", .plain "edit", .plain "browser", .plain "command", .plain "mcp"]
  else
    let allowed := allowedOpt.getD []
    let disallowed := disallowedOpt.getD []
    let readTools : List String := ["Read", "Grep", "Glob"]
    let editTools : List String := ["Edit", "Write"]
    (if readTools.any (fun t => allowed.contains t) ∨
        ¬ readTools.any (fun t => disallowed.contains t) then [KGroup.plain "read"] else []) ++
    (if editTools.any (fun t => allowed.contains t) ∧
        ¬ editTools.any (fun t => disallowed.contains t) then [KGroup.plain "edit"] else []) ++
    (if allowed.contains "Bash" ∨ (¬ disallowed.contains "Bash" ∧ allowed.isEmpty) then
      [KGroup.plain "command"] else []) ++
    [.plain "mcp"]

/-- `agentToMode` in kilocode.ts; `agent.metadata.name.split("-")` throws when
the name is undefined. -/
def agentToMode (agent : AgentDefinition) :
    Except String (KiloMode × List BuildWarning) :=
  match agent.metadata.name with
  | none => .error "TypeError: Cannot read properties of undefined (reading \x27split\x27)"
  | some nm =>
    let groups := mapToolGroups agent
    let warns :=
      match agent.hooks with
      | some hs =>
        if hs.length > 0 then
          [⟨"agent:" ++ jsShow agent.metadata.name,
            "Agent-scoped hooks are not supported in KiloCode. " ++ toString hs.length ++
              " hook(s) will require runtime bridge.",
            "warn"⟩]
        else []
      | none => []
    .ok ({ slug := agent.metadata.name,
           name := joinSep " " ((splitOnC '-' nm).map capFirst),
           description := agent.metadata.description,
           roleDefinition := agent.instructions,
           whenToUse := agent.whenToUse,
           groups := groups }, warns)

/-- `emitModes` in kilocode.ts. -/
def emitModes (modes : List KiloMode) : String :=
  let lines :=
    ["customModes:"] ++
    modes.flatMap (fun mode =>
      ["  - slug: " ++ jsShow mode.slug,
       "    name: \"" ++ mode.name ++ "\"",
       "    description: \"" ++ jsShow mode.description ++ "\"",
       "    roleDefinition: |"] ++
      (splitOnC '\n' mode.roleDefinition).map (fun line => "      " ++ line) ++
      (if truthyStr mode.whenToUse then
        ["    whenToUse: \"" ++ mode.whenToUse.getD "" ++ "\""] else []) ++
      ["    groups:"] ++
      mode.groups.flatMap (fun g =>
        match g with
        | .plain s => ["      - " ++ s]
        | .withOpts s fr gd =>
          ["      - - " ++ s] ++
          (if truthyStr fr then ["        - fileRegex: \"" ++ fr.getD "" ++ "\""] else []) ++
          (if truthyStr gd then ["          description: \"" ++ gd.getD "" ++ "\""] else [])))
  joinSep "\n" lines ++ "\n"

/-- `emitPolicyAsRules` in kilocode.ts. -/
def emitPolicyAsRules (policy : PolicyDefinition) : String :=
  let nonEmptyL (o : Option (List String)) : Bool :=
    match o with
    | some l => l.length ≠ 0
    | none => false
  let parts :=
    ["# Policy: " ++ jsShow policy.metadata.name ++ "\n"] ++
    (if truthyStr policy.instructions then [policy.instructions.getD ""] else []) ++
    (match policy.permissions with
     | some perms =>
       ["\n## Permission Rules\n"] ++
       (if nonEmptyL perms.deny then
         ["### NEVER do the following:"] ++ (perms.deny.getD []).map (fun p => "- " ++ p)
       else []) ++
       (if nonEmptyL perms.ask then
         ["\n### Always ask before:"] ++ (perms.ask.getD []).map (fun p => "- " ++ p)
       else []) ++
       (if nonEmptyL perms.allow then
         ["\n### Pre-approved actions:"] ++ (perms.allow.getD []).map (fun p => "- " ++ p)
       else [])
     | none => [])
  joinSep "\n" parts ++ "\n"

/-- `JSON.stringify(config, null, 2)` of the constant MCP-bridge config built
by `emitTools` in kilocode.ts. -/
def kiloMcpJson : String :=
  "\x7b\n  \"mcpServers\": \x7b\n    \"ai-ext-runtime\": \x7b\n      \"command\": \"ai-ext\",\n      \"args\": [\n        \"serve\"\n      ],\n      \"env\": \x7b\x7d\n    \x7d\n  \x7d\n\x7d"

/-- `emitTools` in kilocode.ts: the returned config (already stringified) and
the appended runtime requirement. -/
def emitTools (tools : List ToolDefinition) : Option String × List RuntimeRequirement :=
  let mcpTools := tools.filter (fun t => ¬ (t.exposure.bind (·.mcp) = some false))
  if mcpTools.length = 0 then (none, [])
  else
    (some kiloMcpJson,
     [⟨"tool-server", toString mcpTools.length ++ " tool(s) require MCP server exposure",
       "tools"⟩])

/-- The agent-mapping step of `KiloCodeTarget.compile` (left-to-right `map`
accumulating warnings; a thrown `agentToMode` aborts the compile). -/
def kiloAgentsStep : List AgentDefinition → Except String (List KiloMode × List BuildWarning)
  | [] => .ok ([], [])
  | a :: rest =>
    match agentToMode a with
    | .error e => .error e
    | .ok pr =>
      match kiloAgentsStep rest with
      | .error e => .error e
      | .ok prs => .ok (pr.1 :: prs.1, pr.2 ++ prs.2)

def kiloHookWarning : BuildWarning :=
  ⟨"hooks",
   "KiloCode does not support hooks natively. Hooks with fallback strategy \x27mcp-tool\x27 will be bridged via the ai-ext runtime MCP server. Hooks with \x27skill-injection\x27 will be added as skill instructions. Hooks with \x27ignore\x27 will be skipped.",
   "warn"⟩

def kiloHookRequirement (count : Nat) : RuntimeRequirement :=
  ⟨"hook-engine",
   toString count ++ " hook(s) require runtime emulation (KiloCode has no native hook support)",
   "hooks"⟩

def kiloPolicyWarning (policy : PolicyDefinition) : BuildWarning :=
  ⟨"policy:" ++ jsShow policy.metadata.name,
   "KiloCode does not support granular permission patterns. Policies are emitted as rule instructions. Tool restrictions are mapped to mode groups where possible.",
   "warn"⟩

/-- Step 1 of `KiloCodeTarget.compile`: skill artifacts. -/
def kiloSkillFiles (ir : ExtensionIR) : List (String × String) :=
  ir.skills.foldl
    (fun fs skill =>
      mapSet fs (".kilocode/skills/" ++ jsShow skill.metadata.name ++ "/SKILL.md")
        (emitSkill skill)) []

/-- Step 2: the Custom Modes file, when there are agents. -/
def kiloModeFiles (ir : ExtensionIR) (modes : List KiloMode) : List (String × String) :=
  if ir.agents.length > 0 then mapSet (kiloSkillFiles ir) ".kilocodemodes" (emitModes modes)
  else kiloSkillFiles ir

/-- Step 3: rule files. -/
def kiloRuleFiles (ir : ExtensionIR) (modes : List KiloMode) : List (String × String) :=
  ir.rules.foldl (fun fs p => mapSet fs (".kilocode/rules/" ++ p.1) p.2)
    (kiloModeFiles ir modes)

/-- Step 5: policy artifacts and warnings (step 4, hooks, emits no file). -/
def kiloPolicyStep (ir : ExtensionIR) (modes : List KiloMode) :
    List (String × String) × List BuildWarning :=
  ir.policies.foldl
    (fun (acc : List (String × String) × List BuildWarning) policy =>
      let fs1 :=
        if truthyStr policy.instructions then
          mapSet acc.1 (".kilocode/rules/policy-" ++ jsShow policy.metadata.name ++ ".md")
            (emitPolicyAsRules policy)
        else acc.1
      let ws1 :=
        if policy.permissions.isSome then acc.2 ++ [kiloPolicyWarning policy] else acc.2
      (fs1, ws1))
    (kiloRuleFiles ir modes, [])

/-- Step 6: the MCP bridge config file, when any tool has MCP exposure. -/
def kiloAllFiles (ir : ExtensionIR) (modes : List KiloMode) : List (String × String) :=
  match (emitTools ir.tools).1 with
  | some cfg => mapSet (kiloPolicyStep ir modes).1 ".kilocode/mcp.json" cfg
  | none => (kiloPolicyStep ir modes).1

/-- `KiloCodeTarget.compile` in kilocode.ts, assembled from the numbered steps. -/
def kilocodeCompile (ir : ExtensionIR) : Except String TargetOutput :=
  match kiloAgentsStep ir.agents with
  | .error e => .error e
  | .ok agentsRes =>
    .ok { files := kiloAllFiles ir agentsRes.1,
          warnings := agentsRes.2 ++
            (if ir.hooks.length > 0 then [kiloHookWarning] else []) ++
            (kiloPolicyStep ir agentsRes.1).2,
          runtimeRequirements :=
            (if ir.hooks.length > 0 then [kiloHookRequirement ir.hooks.length] else []) ++
            (emitTools ir.tools).2 }

/-! ## Compiler orchestrator (packages/compiler: `compile` in src/compiler.ts,
whose full source is quoted in the package README)

The registry holds the three adapters keyed by host name.  The Claude and
OpenCode adapters are not needed by any claim and their sources are not fully
present; per the adapter contract they are pure `IR → output` functions, so
they enter the model as parameters.  `compile` returns the thrown-or-returned
outcome together with the trace of `writeFileSync` calls it performed. -/

def getSupportedTargets : List String := ["claude", "kilocode", "opencode"]

/-- The own string-keyed members of `Object.prototype`.  A plain-object
bracket lookup `targets[name]` returns these inherited (and truthy) values
for the corresponding names instead of `undefined`. -/
def objectProtoNames : List String :=
  ["constructor", "hasOwnProperty", "isPrototypeOf", "propertyIsEnumerable",
   "toLocaleString", "toString", "valueOf", "__defineGetter__", "__defineSetter__",
   "__lookupGetter__", "__lookupSetter__", "__proto__"]

/-- Outcome of the JS lookup `targets[targetName]`: a registered adapter, a
truthy member inherited from `Object.prototype` (which passes the
`if (!target)` check but has no `compile` method), or `undefined`. -/
inductive TargetLookup where
  | adapter (t : ExtensionIR → Except String TargetOutput)
  | protoMember
  | absent

def targetsRegistry (claudeC opencodeC : ExtensionIR → Except String TargetOutput)
    (name : String) : TargetLookup :=
  if name = "claude" then .adapter claudeC
  else if name = "kilocode" then .adapter kilocodeCompile
  else if name = "opencode" then .adapter opencodeC
  else if objectProtoNames.contains name then .protoMember
  else .absent

/-- `compile` in compiler.ts.  The second component is the list of files
written to disk (empty on every thrown path and under `dryRun`).  A lookup
that yields an inherited `Object.prototype` member passes the unknown-target
check, so resolution and the validity check still run, and the call
`target.compile(ir)` then throws the `TypeError`
`target.compile is not a function`. -/
def compile (claudeC opencodeC : ExtensionIR → Except String TargetOutput)
    (targetName sourceDir : String) (outDir : Option String) (dryRun fixYaml : Bool)
    (src : ExtSource) : Except String BuildResult × List (String × String) :=
  match targetsRegistry claudeC opencodeC targetName with
  | .absent =>
    (.error ("Unknown target \"" ++ targetName ++ "\". Supported targets: " ++
      joinSep ", " getSupportedTargets), [])
  | lk =>
    match resolveExtension sourceDir src fixYaml with
    | .error e => (.error e, [])
    | .ok res =>
      if ¬ res.valid then
        let errorMessages := joinSep "\n"
          ((res.errors.filter (fun e => e.severity = "error")).map
            (fun e => "  " ++ e.component ++ " (" ++ e.file ++ "): " ++ e.message))
        (.error ("Extension validation failed:\n" ++ errorMessages), [])
      else
        let resolveWarnings := res.errors.filter (fun e => e.severity = "warning")
        match lk with
        | .adapter target =>
          (match target res.ir with
           | .error e => (.error e, [])
           | .ok out =>
             let outputBase := (jsOrStr outDir (some (sourceDir ++ "/dist/" ++ targetName))).getD ""
             let writes :=
               if dryRun then []
               else out.files.map (fun p => (outputBase ++ "/" ++ p.1, p.2))
             (.ok { target := targetName,
                    files := out.files,
                    warnings :=
                      resolveWarnings.map (fun w => ⟨w.component, w.message, "warn"⟩) ++
                      out.warnings,
                    runtimeRequired := out.runtimeRequirements }, writes))
        | _ => (.error "target.compile is not a function", [])

/-! ## Hook compensation engine (packages/runtime/src/hook-engine.ts)

The regular-expression engine (`new RegExp(m).test(s)`) and child-process
spawning (`Bun.spawn`) are external effects, modelled by oracle parameters:
`RegexTest` decides a match, `Exec` gives the outcome of running a shell
command (its exit code and captured output channels, or a thrown error). -/

structure HookExecutionResult where
  allowed : Bool
  reason : Option String
  context : Option String
  deriving DecidableEq, Repr

structure PropSpec where
  ptype : Option String
  pdescription : Option String
  deriving DecidableEq, Repr

/-- Shape of the `inputSchema` objects built by `buildToolSchema` (they are
flat: a type tag, named properties, and an optional required list). -/
structure ToolSchemaO where
  otype : String
  properties : List (String × PropSpec)
  required : Option (List String)
  deriving DecidableEq, Repr

structure EmulationTool where
  name : String
  description : String
  inputSchema : ToolSchemaO
  deriving DecidableEq, Repr

inductive ProcOutcome where
  | exited (code : Int) (stdout stderr : String)
  | threw (msg : String)

def RegexTest : Type := String → String → Bool

def Exec : Type := String → ProcOutcome

/-- `buildToolSchema` in hook-engine.ts. -/
def buildToolSchema (event : String) : ToolSchemaO :=
  if event = "PreToolUse" ∨ event = "PostToolUse" ∨ event = "PostToolUseFailure" then
    { otype := "object",
      properties :=
        [("toolName", ⟨some "string", some "Name of the tool being called"⟩),
         ("toolInput", ⟨none, some "Input arguments to the tool"⟩)],
      required := some ["toolName"] }
  else if event = "UserPromptSubmit" then
    { otype := "object",
      properties := [("prompt", ⟨some "string", some "The user prompt being submitted"⟩)],
      required := none }
  else
    { otype := "object",
      properties := [("context", ⟨some "string", some "Contextual information for the hook"⟩)],
      required := none }

/-- `buildToolDescription` in hook-engine.ts (`filter(Boolean)` drops undefined
and empty descriptions; `join` renders an undefined name as the empty string). -/
def buildToolDescription (event : String) (hooks : List HookDefinition) : String :=
  let descriptions := hooks.filterMap (fun h =>
    match h.metadata.description with
    | some d => if d ≠ "" then some d else none
    | none => none)
  let hookNames := joinSep ", " (hooks.map (fun h => h.metadata.name.getD ""))
  "[ai-ext hook emulation] Call this BEFORE " ++ event ++ " to check: " ++
    jsOrS (joinSep "; " descriptions) hookNames ++
    ". Returns \x7ballowed: boolean, reason?: string\x7d."

/-- The event-name slug: a dash is inserted before every capital (the global
replace of `([A-Z])` by dash-capture), the whole string is lower-cased, and a
single leading dash is stripped. -/
def eventSlug (event : String) : String :=
  let dashed := event.data.flatMap (fun c => if 'A' ≤ c ∧ c ≤ 'Z' then ['-', c] else [c])
  let lowered := dashed.map asciiLowerC
  String.mk (match lowered with
    | '-' :: rest => rest
    | l => l)

/-- `slugToEvent` in hook-engine.ts (kebab-case back to PascalCase). -/
def slugToEvent (slug : String) : String :=
  joinSep "" ((splitOnC '-' slug).map capFirst)

/-- Appending a hook to its event group (`eventGroups.get(...) || []` then
`push` then `set`): an existing key keeps its position, a new key is appended.
The key is the raw `hook.event` value, which may be undefined. -/
def optMapPush (m : List (Option String × List HookDefinition)) (k : Option String)
    (v : HookDefinition) : List (Option String × List HookDefinition) :=
  match m with
  | [] => [(k, [v])]
  | (k', vs) :: rest =>
    if k' = k then (k', vs ++ [v]) :: rest else (k', vs) :: optMapPush rest k v

/-- The grouping loop of `getEmulationTools`: hooks whose fallback strategy is
`ignore` or `skill-injection` are skipped, the rest are grouped by event in
first-occurrence order. -/
def buildEventGroups (hooks : List HookDefinition) :
    List (Option String × List HookDefinition) :=
  hooks.foldl
    (fun groups hook =>
      if hook.fallback.bind (·.strategy) = some "ignore" then groups
      else if hook.fallback.bind (·.strategy) = some "skill-injection" then groups
      else optMapPush groups hook.event hook)
    []

/-- Per-group tool synthesis of `getEmulationTools`; a group keyed by an
undefined event makes `event.replace` throw. -/
def emitGroupTools : List (Option String × List HookDefinition) →
    Except String (List EmulationTool)
  | [] => .ok []
  | (none, _) :: _ =>
    .error "TypeError: Cannot read properties of undefined (reading \x27replace\x27)"
  | (some event, hs) :: rest =>
    match emitGroupTools rest with
    | .error e => .error e
    | .ok tools =>
      .ok ({ name := "ai-ext_hook_" ++ eventSlug event,
             description := buildToolDescription event hs,
             inputSchema := buildToolSchema event } :: tools)

/-- `getEmulationTools` in hook-engine.ts. -/
def getEmulationTools (hooks : List HookDefinition) : Except String (List EmulationTool) :=
  emitGroupTools (buildEventGroups hooks)

/-- The call arguments of an emulated hook invocation; only `toolName` is ever
consulted by the engine (the full record is serialized onto the child process
standard input, which the `Exec` oracle abstracts). -/
structure HookArgs where
  toolName : Option String
  deriving DecidableEq, Repr

/-- `executeHandler` in hook-engine.ts. -/
def executeHandler (exec : Exec) (handler : HookHandler) : HookExecutionResult :=
  if handler.htype = some "command" ∧ truthyStr handler.command then
    match exec (handler.command.getD "") with
    | .threw msg =>
      { allowed := true, reason := some ("Hook execution error: " ++ msg), context := none }
    | .exited code stdout stderr =>
      if code = 0 then
        { allowed := true, reason := none,
          context := if stdout = "" then none else some stdout }
      else if code = 2 then
        { allowed := false,
          reason := some (jsOr3 stderr stdout "Hook blocked the action"), context := none }
      else
        { allowed := true, reason := some ("Hook warning: exit code " ++ toString code),
          context := none }
  else
    { allowed := true, reason := some "Hook type not yet supported in runtime", context := none }

/-- The per-hook filter of `executeEmulatedHook`: event equality plus the
optional regex matcher, which is consulted only when both the matcher and the
caller-supplied `toolName` are truthy. -/
def hookMatchesCall (regexTest : RegexTest) (event : String) (args : Option HookArgs)
    (h : HookDefinition) : Bool :=
  if h.event ≠ some event then false
  else if truthyStr h.matcher ∧ truthyStr (args.bind (·.toolName)) then
    regexTest (h.matcher.getD "") ((args.bind (·.toolName)).getD "")
  else true

/-- Sequential handler execution with short-circuit on the first deny; the
second component is the trace of handlers that were actually executed. -/
def runHandlers (exec : Exec) : List HookHandler → Option HookExecutionResult × List HookHandler
  | [] => (none, [])
  | h :: rest =>
    let r := executeHandler exec h
    if r.allowed then
      let tailRes := runHandlers exec rest
      (tailRes.1, h :: tailRes.2)
    else (some r, [h])

/-- Sequential execution across the matched hooks (outer loop of
`executeEmulatedHook`). -/
def runHookList (exec : Exec) : List HookDefinition → Option HookExecutionResult × List HookHandler
  | [] => (none, [])
  | hk :: rest =>
    match runHandlers exec hk.handlers with
    | (some r, tr) => (some r, tr)
    | (none, tr) =>
      let tailRes := runHookList exec rest
      (tailRes.1, tr ++ tailRes.2)

/-- `executeEmulatedHook` in hook-engine.ts, instrumented with the trace of
executed handlers (the source returns only the first component). -/
def executeEmulatedHookRun (regexTest : RegexTest) (exec : Exec)
    (hooks : List HookDefinition) (toolName : String) (args : Option HookArgs) :
    HookExecutionResult × List HookHandler :=
  let slugEvent := replaceFirstStr toolName "ai-ext_hook_" ""
  let event := slugToEvent slugEvent
  let matchingHooks := hooks.filter (hookMatchesCall regexTest event args)
  if matchingHooks.length = 0 then
    ({ allowed := true, reason := some "No matching hooks", context := none }, [])
  else
    match runHookList exec matchingHooks with
    | (some r, tr) => (r, tr)
    | (none, tr) => ({ allowed := true, reason := none, context := none }, tr)

/-- The result returned to the caller by `executeEmulatedHook`. -/
def executeEmulatedHook (regexTest : RegexTest) (exec : Exec)
    (hooks : List HookDefinition) (toolName : String) (args : Option HookArgs) :
    HookExecutionResult :=
  (executeEmulatedHookRun regexTest exec hooks toolName args).1

/-! ## Claim C2: command-handler exit-code semantics -/

/-- C2: for every command-type hook handler, the child process outcome fully
determines the decision: exit code 0 allows and attaches any standard output
as context; exit code 2 denies with reason = stderr, falling back to stdout,
falling back to the generic message; any other exit code allows with a
warning reason; and a thrown handler execution is caught and converted to an
allow decision with a warning reason — the engine never propagates the
failure to the caller. -/
theorem c2_command_handler_exit_semantics
    (handler : HookHandler) (cmd : String)
    (hty : handler.htype = some "command") (hcmd : handler.command = some cmd)
    (hne : cmd ≠ "") :
    (∀ exec : Exec, ∀ stdout stderr : String, exec cmd = .exited 0 stdout stderr →
      executeHandler exec handler =
        { allowed := true, reason := none,
          context := if stdout = "" then none else some stdout }) ∧
    (∀ exec : Exec, ∀ stdout stderr : String, exec cmd = .exited 2 stdout stderr →
      executeHandler exec handler =
        { allowed := false,
          reason := some (if stderr ≠ "" then stderr
                          else if stdout ≠ "" then stdout
                          else "Hook blocked the action"),
          context := none }) ∧
    (∀ exec : Exec, ∀ code : Int, ∀ stdout stderr : String,
      exec cmd = .exited code stdout stderr → code ≠ 0 → code ≠ 2 →
      executeHandler exec handler =
        { allowed := true, reason := some ("Hook warning: exit code " ++ toString code),
          context := none }) ∧
    (∀ exec : Exec, ∀ msg : String, exec cmd = .threw msg →
      executeHandler exec handler =
        { allowed := true, reason := some ("Hook execution error: " ++ msg),
          context := none }) := by
  have htr : truthyStr (some cmd) = true := by
    simp [truthyStr, hne]
  refine ⟨?_, ?_, ?_, ?_⟩
  · intro exec stdout stderr hx
    simp [executeHandler, hty, htr, hcmd, hx]
  · intro exec stdout stderr hx
    by_cases he : stderr = "" <;> by_cases ho : stdout = "" <;>
      simp [executeHandler, hty, htr, hcmd, hx, jsOr3, jsOrS, he, ho]
  · intro exec code stdout stderr hx h0 h2
    simp [executeHandler, hty, htr, hcmd, hx, h0, h2]
  · intro exec msg hx
    simp [executeHandler, hty, htr, hcmd, hx]

/-- Witness for C2 at a concrete handler and oracles. -/
theorem c2_command_handler_exit_semantics_witness :
    executeHandler (fun _ => .exited 2 "out" "blocked")
      { htype := some "command", command := some "lint", prompt := none, model := none,
        timeout := none, statusMessage := none, async := none, once := none } =
      { allowed := false, reason := some "blocked", context := none } := by
  have h := c2_command_handler_exit_semantics
    { htype := some "command", command := some "lint", prompt := none, model := none,
      timeout := none, statusMessage := none, async := none, once := none }
    "lint" rfl rfl (by decide)
  have h2 := h.2.1 (fun _ => .exited 2 "out" "blocked") "out" "blocked" rfl
  simpa using h2

/-! ## Execution lemmas for the hook engine -/

theorem runHandlers_none_allows (exec : Exec) (hs : List HookHandler)
    (h : (runHandlers exec hs).1 = none) :
    ∀ p ∈ (runHandlers exec hs).2, (executeHandler exec p).allowed = true := by
  induction hs with
  | nil => intro p hp; simp [runHandlers] at hp
  | cons hd rest ih =>
    by_cases ha : (executeHandler exec hd).allowed = true
    · simp only [runHandlers, ha, if_true] at h ⊢
      intro p hp
      rcases List.mem_cons.mp hp with h1 | h2
      · rw [h1]; exact ha
      · exact ih h p h2
    · exfalso
      have hb : (executeHandler exec hd).allowed = false := by
        simpa using ha
      simp [runHandlers, hb] at h

theorem runHandlers_all_allow (exec : Exec) (hs : List HookHandler)
    (h : ∀ p ∈ hs, (executeHandler exec p).allowed = true) :
    runHandlers exec hs = (none, hs) := by
  induction hs with
  | nil => rfl
  | cons hd rest ih =>
    have ha := h hd (List.mem_cons_self _ _)
    have ih' := ih (fun p hp => h p (List.mem_cons_of_mem _ hp))
    simp [runHandlers, ha, ih']

theorem runHandlers_trace_subset (exec : Exec) (hs : List HookHandler) :
    ∀ p ∈ (runHandlers exec hs).2, p ∈ hs := by
  induction hs with
  | nil => intro p hp; simp [runHandlers] at hp
  | cons hd rest ih =>
    intro p hp
    by_cases ha : (executeHandler exec hd).allowed = true
    · simp only [runHandlers, ha, if_true] at hp
      rcases List.mem_cons.mp hp with h1 | h2
      · exact h1 ▸ List.mem_cons_self _ _
      · exact List.mem_cons_of_mem _ (ih p h2)
    · simp only [runHandlers, ha] at hp
      simp at ha
      simp [ha] at hp
      exact hp ▸ List.mem_cons_self _ _

theorem runHandlers_deny (exec : Exec) (hs : List HookHandler) (r : HookExecutionResult)
    (h : (runHandlers exec hs).1 = some r) :
    ∃ pre d, (runHandlers exec hs).2 = pre ++ [d] ∧
      (∀ p ∈ pre, (executeHandler exec p).allowed = true) ∧
      executeHandler exec d = r ∧ r.allowed = false := by
  induction hs with
  | nil => simp [runHandlers] at h
  | cons hd rest ih =>
    by_cases ha : (executeHandler exec hd).allowed = true
    · simp only [runHandlers, ha, if_true] at h ⊢
      rcases ih h with ⟨pre, d, htr, hpre, hd', hr⟩
      refine ⟨hd :: pre, d, by simp [htr], ?_, hd', hr⟩
      intro p hp
      rcases List.mem_cons.mp hp with h1 | h2
      · exact h1 ▸ ha
      · exact hpre p h2
    · simp at ha
      simp only [runHandlers, ha] at h ⊢
      simp at h
      refine ⟨[], hd, by simp, by simp, ?_, ?_⟩
      · rw [h]
      · rw [← h, ha]

theorem runHookList_trace (exec : Exec) (hks : List HookDefinition) :
    ∀ p ∈ (runHookList exec hks).2, ∃ hk, hk ∈ hks ∧ p ∈ hk.handlers := by
  induction hks with
  | nil => intro p hp; simp [runHookList] at hp
  | cons hk rest ih =>
    intro p hp
    simp only [runHookList] at hp
    rcases hrun : runHandlers exec hk.handlers with ⟨o, tr⟩
    rw [hrun] at hp
    match o, hp with
    | some r, hp =>
      exact ⟨hk, List.mem_cons_self _ _,
        runHandlers_trace_subset exec hk.handlers p (by rw [hrun]; exact hp)⟩
    | none, hp =>
      rcases List.mem_append.mp hp with h1 | h2
      · exact ⟨hk, List.mem_cons_self _ _,
          runHandlers_trace_subset exec hk.handlers p (by rw [hrun]; exact h1)⟩
      · rcases ih p h2 with ⟨hk', hmem, hph⟩
        exact ⟨hk', List.mem_cons_of_mem _ hmem, hph⟩

theorem runHookList_all_allow (exec : Exec) (hks : List HookDefinition)
    (h : ∀ hk ∈ hks, ∀ p ∈ hk.handlers, (executeHandler exec p).allowed = true) :
    runHookList exec hks = (none, hks.flatMap (·.handlers)) := by
  induction hks with
  | nil => rfl
  | cons hk rest ih =>
    have h1 := runHandlers_all_allow exec hk.handlers (h hk (List.mem_cons_self _ _))
    have ih' := ih (fun hk' hm => h hk' (List.mem_cons_of_mem _ hm))
    simp [runHookList, h1, ih']

theorem runHookList_deny (exec : Exec) (hks : List HookDefinition) (r : HookExecutionResult)
    (h : (runHookList exec hks).1 = some r) :
    ∃ pre d, (runHookList exec hks).2 = pre ++ [d] ∧
      (∀ p ∈ pre, (executeHandler exec p).allowed = true) ∧
      executeHandler exec d = r ∧ r.allowed = false := by
  induction hks with
  | nil => simp [runHookList] at h
  | cons hk rest ih =>
    rcases hrun : runHandlers exec hk.handlers with ⟨o, tr⟩
    cases o with
    | some r0 =>
      have h' : r0 = r := by
        simp only [runHookList, hrun] at h
        simpa using h
      subst h'
      rcases runHandlers_deny exec hk.handlers r0 (by rw [hrun]) with
        ⟨pre, d, htr, hpre, hd', hr⟩
      rw [hrun] at htr
      refine ⟨pre, d, ?_, hpre, hd', hr⟩
      simp only [runHookList, hrun]
      exact htr
    | none =>
      have h' : (runHookList exec rest).1 = some r := by
        simp only [runHookList, hrun] at h
        exact h
      rcases ih h' with ⟨pre, d, htr, hpre, hd', hr⟩
      refine ⟨tr ++ pre, d, ?_, ?_, hd', hr⟩
      · simp only [runHookList, hrun]
        simp [htr]
      · intro p hp
        rcases List.mem_append.mp hp with h1 | h2
        · exact runHandlers_none_allows exec hk.handlers (by rw [hrun]) p
            (by rw [hrun]; exact h1)
        · exact hpre p h2

/-- Spelled-out form of the per-hook selection test. -/
theorem hookMatchesCall_iff (regexTest : RegexTest) (event : String)
    (args : Option HookArgs) (h : HookDefinition) :
    hookMatchesCall regexTest event args h = true ↔
      (h.event = some event ∧
        ∀ m s, h.matcher = some m → m ≠ "" → args.bind (·.toolName) = some s → s ≠ "" →
          regexTest m s = true) := by
  constructor
  · intro hc
    unfold hookMatchesCall at hc
    by_cases he : h.event = some event
    · refine ⟨he, ?_⟩
      intro m s hm hmn hs hsn
      rw [if_neg (by simp [he])] at hc
      have hb : truthyStr h.matcher = true ∧ truthyStr (args.bind (·.toolName)) = true := by
        constructor
        · rw [hm]; simp [truthyStr, hmn]
        · rw [hs]; simp [truthyStr, hsn]
      rw [if_pos hb] at hc
      rw [hm, hs] at hc
      simpa using hc
    · rw [if_pos (by simpa using he)] at hc
      cases hc
  · rintro ⟨he, hall⟩
    unfold hookMatchesCall
    rw [if_neg (by simp [he])]
    by_cases hb : truthyStr h.matcher = true ∧ truthyStr (args.bind (·.toolName)) = true
    · rw [if_pos hb]
      rcases hb with ⟨hm, hs⟩
      rcases hmm : h.matcher with _ | m
      · rw [hmm] at hm; simp [truthyStr] at hm
      · rcases hss : args.bind (·.toolName) with _ | s
        · rw [hss] at hs; simp [truthyStr] at hs
        · rw [hmm] at hm
          rw [hss] at hs
          simp only [truthyStr, ne_eq, decide_eq_true_eq] at hm hs
          simpa using hall m s hmm hm hss hs
    · rw [if_neg hb]

/-- Unfolding lemma for `executeEmulatedHookRun`. -/
theorem executeEmulatedHookRun_eq (regexTest : RegexTest) (exec : Exec)
    (hooks : List HookDefinition) (toolName : String) (args : Option HookArgs) :
    executeEmulatedHookRun regexTest exec hooks toolName args =
      (if (hooks.filter (hookMatchesCall regexTest
            (slugToEvent (replaceFirstStr toolName "ai-ext_hook_" "")) args)).length = 0 then
        ({ allowed := true, reason := some "No matching hooks", context := none }, [])
      else
        match runHookList exec (hooks.filter (hookMatchesCall regexTest
            (slugToEvent (replaceFirstStr toolName "ai-ext_hook_" "")) args)) with
        | (some r, tr) => (r, tr)
        | (none, tr) => ({ allowed := true, reason := none, context := none }, tr)) := rfl

/-! ## Claim C7: probe-invocation filtering, sequencing and the no-match result -/

/-- C7 counterexample: when no hook matches, the engine's reason string is
`"No matching hooks"` (capitalised), not `"no matching hooks"` as the claim
quotes it. -/
theorem c7_counterexample :
    (executeEmulatedHook (fun _ _ => true) (fun _ => .exited 0 "" "") []
        "ai-ext_hook_pre-tool-use" (some { toolName := some "Write" })).reason ≠
      some "no matching hooks" ∧
    (executeEmulatedHook (fun _ _ => true) (fun _ => .exited 0 "" "") []
        "ai-ext_hook_pre-tool-use" (some { toolName := some "Write" })).reason =
      some "No matching hooks" := by
  constructor
  · decide
  · decide

/-- C7 (amended): for every probe invocation, (1) every executed handler
belongs to a hook on the matching event whose matcher — when present and when
a subject name was supplied — matched the subject under the regex oracle;
(2) when no handler denies, exactly the surviving hooks' handlers run, in
order; (3) a deny outcome is the first denying handler's result, all handlers
before it having allowed (short-circuit); and (4) when no hook matches, the
result is allow with reason "No matching hooks" (the code capitalises the
reason; otherwise as the claim states). -/
theorem c7_probe_filtering_and_short_circuit (regexTest : RegexTest) (exec : Exec)
    (hooks : List HookDefinition) (toolName : String) (args : Option HookArgs)
    (ev : String) (hev : ev = slugToEvent (replaceFirstStr toolName "ai-ext_hook_" "")) :
    (∀ hd ∈ (executeEmulatedHookRun regexTest exec hooks toolName args).2,
      ∃ h, h ∈ hooks ∧ hd ∈ h.handlers ∧ h.event = some ev ∧
        (∀ m s, h.matcher = some m → m ≠ "" → args.bind (·.toolName) = some s → s ≠ "" →
          regexTest m s = true)) ∧
    ((∀ hk ∈ hooks, ∀ p ∈ hk.handlers, (executeHandler exec p).allowed = true) →
      (executeEmulatedHookRun regexTest exec hooks toolName args).2 =
        (hooks.filter (hookMatchesCall regexTest ev args)).flatMap (·.handlers)) ∧
    ((executeEmulatedHookRun regexTest exec hooks toolName args).1.allowed = false →
      ∃ pre d, (executeEmulatedHookRun regexTest exec hooks toolName args).2 = pre ++ [d] ∧
        (∀ p ∈ pre, (executeHandler exec p).allowed = true) ∧
        executeHandler exec d = (executeEmulatedHookRun regexTest exec hooks toolName args).1) ∧
    (hooks.filter (hookMatchesCall regexTest ev args) = [] →
      (executeEmulatedHookRun regexTest exec hooks toolName args).1 =
        { allowed := true, reason := some "No matching hooks", context := none }) := by
  subst hev
  set ev := slugToEvent (replaceFirstStr toolName "ai-ext_hook_" "") with hev
  set mh := hooks.filter (hookMatchesCall regexTest ev args) with hmh
  refine ⟨?_, ?_, ?_, ?_⟩
  · intro hd hmem
    rw [executeEmulatedHookRun_eq] at hmem
    by_cases hemp : mh.length = 0
    · rw [← hmh, if_pos hemp] at hmem
      simp at hmem
    · rw [← hmh, if_neg hemp] at hmem
      rcases hr : runHookList exec mh with ⟨o, tr⟩
      rw [hr] at hmem
      have htr : hd ∈ tr := by cases o <;> simpa using hmem
      have := runHookList_trace exec mh hd (by rw [hr]; exact htr)
      rcases this with ⟨hk, hkmem, hdh⟩
      rw [hmh] at hkmem
      have := List.mem_filter.mp hkmem
      rcases this with ⟨hkhooks, hkpass⟩
      have := (hookMatchesCall_iff regexTest ev args hk).mp hkpass
      exact ⟨hk, hkhooks, hdh, this.1, this.2⟩
  · intro hall
    rw [executeEmulatedHookRun_eq, ← hmh]
    by_cases hemp : mh.length = 0
    · rw [if_pos hemp]
      have : mh = [] := List.length_eq_zero.mp hemp
      simp [this]
    · rw [if_neg hemp]
      have hall' : ∀ hk ∈ mh, ∀ p ∈ hk.handlers, (executeHandler exec p).allowed = true := by
        intro hk hkm
        exact hall hk (List.mem_filter.mp (hmh ▸ hkm)).1
      rw [runHookList_all_allow exec mh hall']
  · intro hfalse
    rw [executeEmulatedHookRun_eq, ← hmh] at hfalse ⊢
    by_cases hemp : mh.length = 0
    · rw [if_pos hemp] at hfalse
      simp at hfalse
    · rw [if_neg hemp] at hfalse ⊢
      rcases hr : runHookList exec mh with ⟨o, tr⟩
      cases o with
      | some r =>
        rcases runHookList_deny exec mh r (by rw [hr]) with ⟨pre, d, htr, hpre, hd', _⟩
        rw [hr] at htr
        exact ⟨pre, d, htr, hpre, hd'⟩
      | none => exact absurd hfalse (by simp [hr])
  · intro hfil
    rw [executeEmulatedHookRun_eq, ← hmh]
    rw [if_pos (by rw [hfil]; rfl)]

def c7wHandlerA : HookHandler :=
  { htype := some "command", command := some "check-a", prompt := none, model := none,
    timeout := none, statusMessage := none, async := none, once := none }

def c7wHandlerB : HookHandler :=
  { htype := some "command", command := some "check-b", prompt := none, model := none,
    timeout := none, statusMessage := none, async := none, once := none }

def c7wMatchHook : HookDefinition :=
  { metadata := { name := some "match-hook", description := some "matches writes",
                  license := none, compatibility := none, metadata := none, tags := none },
    event := some "PreToolUse", matcher := some "Write", handlers := [c7wHandlerA],
    fallback := some ⟨some "mcp-tool", none⟩, instructions := none }

def c7wOtherHook : HookDefinition :=
  { metadata := { name := some "other-hook", description := some "matches reads",
                  license := none, compatibility := none, metadata := none, tags := none },
    event := some "PreToolUse", matcher := some "Read", handlers := [c7wHandlerB],
    fallback := some ⟨some "mcp-tool", none⟩, instructions := none }

/-- A concrete regex oracle: the matcher matches subjects it is a prefix of. -/
def c7wRegex : RegexTest := fun m s => strStartsWith s m

def c7wExec : Exec := fun _ => .exited 0 "" ""

/-- Witness for C7: with two hooks on the same event, one whose matcher
matches the subject `Write` and one whose matcher does not, exactly the
matching hook's handler runs. -/
theorem c7_probe_filtering_and_short_circuit_witness :
    (executeEmulatedHookRun c7wRegex c7wExec [c7wMatchHook, c7wOtherHook]
        "ai-ext_hook_pre-tool-use" (some { toolName := some "Write" })).2 =
      [c7wHandlerA] := by
  have h := c7_probe_filtering_and_short_circuit c7wRegex c7wExec
    [c7wMatchHook, c7wOtherHook] "ai-ext_hook_pre-tool-use"
    (some { toolName := some "Write" }) "PreToolUse" (by decide)
  rw [h.2.1 (by decide)]
  decide

/-! ## Claim C10: execution never consults the fallback strategy -/

theorem runHookList_map_handlers (exec : Exec) (g : HookDefinition → HookDefinition)
    (hg : ∀ h, (g h).handlers = h.handlers) (l : List HookDefinition) :
    runHookList exec (l.map g) = runHookList exec l := by
  induction l with
  | nil => rfl
  | cons hk rest ih =>
    simp only [List.map_cons, runHookList, hg, ih]

/-- C10: the hook compensation engine selects hooks for execution by event
name and matcher only — replacing every hook's fallback policy by anything at
all leaves the probe-invocation outcome and executed-handler trace unchanged;
a hook whose fallback strategy is `ignore` or `skill-injection` generates no
probe surface of its own, yet when the probe operation for its event fires
(and its matcher passes) its handlers are still executed. -/
theorem c10_execution_ignores_fallback (regexTest : RegexTest) (exec : Exec)
    (hooks : List HookDefinition) (toolName : String) (args : Option HookArgs)
    (ev : String) (hev : ev = slugToEvent (replaceFirstStr toolName "ai-ext_hook_" "")) :
    (∀ f : HookDefinition → Option HookFallback,
      executeEmulatedHookRun regexTest exec
          (hooks.map (fun h => { h with fallback := f h })) toolName args =
        executeEmulatedHookRun regexTest exec hooks toolName args) ∧
    (∀ h : HookDefinition,
      (h.fallback.bind (·.strategy) = some "ignore" ∨
        h.fallback.bind (·.strategy) = some "skill-injection") →
      getEmulationTools [h] = .ok []) ∧
    (∀ h ∈ hooks,
      (h.fallback.bind (·.strategy) = some "ignore" ∨
        h.fallback.bind (·.strategy) = some "skill-injection") →
      hookMatchesCall regexTest ev args h = true →
      (∀ hk ∈ hooks, ∀ p ∈ hk.handlers, (executeHandler exec p).allowed = true) →
      ∀ hd ∈ h.handlers,
        hd ∈ (executeEmulatedHookRun regexTest exec hooks toolName args).2) := by
  subst hev
  refine ⟨?_, ?_, ?_⟩
  · intro f
    rw [executeEmulatedHookRun_eq, executeEmulatedHookRun_eq]
    have hfil : (hooks.map (fun h => { h with fallback := f h })).filter
        (hookMatchesCall regexTest (slugToEvent (replaceFirstStr toolName "ai-ext_hook_" "")) args) =
        (hooks.filter (hookMatchesCall regexTest
          (slugToEvent (replaceFirstStr toolName "ai-ext_hook_" "")) args)).map
          (fun h => { h with fallback := f h }) := by
      rw [List.filter_map]
      rfl
    rw [hfil]
    rw [List.length_map]
    rw [runHookList_map_handlers exec (fun h => { h with fallback := f h }) (fun _ => rfl)]
  · intro h hstrat
    rcases hstrat with hs | hs <;>
      simp [getEmulationTools, buildEventGroups, hs, emitGroupTools]
  · intro h hmem _ hpass hall hd hdh
    have hfil : h ∈ hooks.filter (hookMatchesCall regexTest
        (slugToEvent (replaceFirstStr toolName "ai-ext_hook_" "")) args) :=
      List.mem_filter.mpr ⟨hmem, hpass⟩
    have h2 := (c7_probe_filtering_and_short_circuit regexTest exec hooks toolName args _
      rfl).2.1 hall
    rw [h2]
    exact List.mem_flatMap.mpr ⟨h, hfil, hdh⟩

def c10wIgnoreHook : HookDefinition :=
  { metadata := { name := some "quiet-hook", description := some "ignored on kilo",
                  license := none, compatibility := none, metadata := none, tags := none },
    event := some "PreToolUse", matcher := none, handlers := [c7wHandlerB],
    fallback := some ⟨some "ignore", none⟩, instructions := none }

/-- Witness for C10: the `ignore`-fallback hook contributes no probe surface,
yet its handler executes when the PreToolUse probe (generated for a sibling
`mcp-tool` hook) is invoked. -/
theorem c10_execution_ignores_fallback_witness :
    getEmulationTools [c10wIgnoreHook] = .ok [] ∧
    c7wHandlerB ∈ (executeEmulatedHookRun c7wRegex c7wExec [c7wMatchHook, c10wIgnoreHook]
        "ai-ext_hook_pre-tool-use" (some { toolName := some "Write" })).2 := by
  have h := c10_execution_ignores_fallback c7wRegex c7wExec [c7wMatchHook, c10wIgnoreHook]
    "ai-ext_hook_pre-tool-use" (some { toolName := some "Write" }) "PreToolUse" (by decide)
  refine ⟨h.2.1 c10wIgnoreHook (Or.inl (by decide)), ?_⟩
  exact h.2.2 c10wIgnoreHook (by decide) (Or.inl (by decide)) (by decide) (by decide)
    c7wHandlerB (by decide)

/-! ## Claim C6: surface generation (grouping, naming, schemas) -/

/-- The hooks that survive the fallback-strategy exclusion (matches the two
`continue` guards of the grouping loop). -/
def includedHooks (hooks : List HookDefinition) : List HookDefinition :=
  hooks.filter (fun h =>
    decide (h.fallback.bind (·.strategy) ≠ some "ignore" ∧
            h.fallback.bind (·.strategy) ≠ some "skill-injection"))

/-- First-occurrence deduplication (the key order of an insertion-ordered map). -/
def firstDedup {α : Type} [DecidableEq α] : List α → List α
  | [] => []
  | x :: xs => x :: (firstDedup xs).filter (fun y => decide (y ≠ x))

theorem mem_firstDedup {α : Type} [DecidableEq α] (x : α) (xs : List α) :
    x ∈ firstDedup xs ↔ x ∈ xs := by
  induction xs with
  | nil => simp [firstDedup]
  | cons y ys ih =>
    simp only [firstDedup, List.mem_cons]
    constructor
    · intro h
      rcases h with h | h
      · exact Or.inl h
      · exact Or.inr (ih.mp (List.mem_filter.mp h).1)
    · intro h
      rcases h with h | h
      · exact Or.inl h
      · by_cases hxy : x = y
        · exact Or.inl hxy
        · exact Or.inr (List.mem_filter.mpr ⟨ih.mpr h, by simpa using hxy⟩)

theorem firstDedup_nodup {α : Type} [DecidableEq α] (xs : List α) :
    (firstDedup xs).Nodup := by
  induction xs with
  | nil => simp [firstDedup]
  | cons y ys ih =>
    simp only [firstDedup]
    refine List.Nodup.cons ?_ (List.Nodup.filter _ ih)
    intro hmem
    have := (List.mem_filter.mp hmem).2
    simp at this

theorem firstDedup_append_single {α : Type} [DecidableEq α] (xs : List α) (x : α) :
    firstDedup (xs ++ [x]) =
      if x ∈ xs then firstDedup xs else firstDedup xs ++ [x] := by
  induction xs with
  | nil => simp [firstDedup]
  | cons y ys ih =>
    by_cases hmem : x ∈ ys
    · rw [List.cons_append]
      simp only [firstDedup]
      rw [ih, if_pos hmem, if_pos (List.mem_cons_of_mem _ hmem)]
    · by_cases hxy : x = y
      · subst hxy
        rw [List.cons_append]
        simp only [firstDedup]
        rw [ih, if_neg hmem, if_pos (List.mem_cons_self _ _)]
        rw [List.filter_append]
        simp
      · rw [List.cons_append]
        simp only [firstDedup]
        rw [ih, if_neg hmem, if_neg (by simp [hxy, hmem])]
        rw [List.filter_append]
        simp [hxy]

theorem optMapPush_canonical (keys : List (Option String))
    (f : Option String → List HookDefinition) (hnd : keys.Nodup)
    (k : Option String) (v : HookDefinition) :
    optMapPush (keys.map (fun key => (key, f key))) k v =
      (if k ∈ keys then
        keys.map (fun key => (key, if key = k then f key ++ [v] else f key))
      else
        keys.map (fun key => (key, f key)) ++ [(k, [v])]) := by
  induction keys with
  | nil => simp [optMapPush]
  | cons key0 rest ih =>
    rcases List.nodup_cons.mp hnd with ⟨hk0, hrest⟩
    simp only [List.map_cons, optMapPush]
    by_cases heq : key0 = k
    · subst heq
      rw [if_pos rfl, if_pos (List.mem_cons_self _ _)]
      have htail : List.map (fun key => (key, if key = key0 then f key ++ [v] else f key)) rest =
          List.map (fun key => (key, f key)) rest := by
        apply List.map_congr_left
        intro a ha
        have hne : ¬ a = key0 := by
          intro hc
          exact hk0 (hc ▸ ha)
        simp [hne]
      rw [htail]
      simp
    · rw [if_neg heq, ih hrest]
      by_cases hmem : k ∈ rest
      · rw [if_pos hmem, if_pos (List.mem_cons_of_mem _ hmem)]
        simp [heq]
      · have hnotin : ¬ k ∈ key0 :: rest := by
          simp only [List.mem_cons]
          rintro (hc | hc)
          · exact heq hc.symm
          · exact hmem hc
        rw [if_neg hmem, if_neg hnotin]
        simp

/-- The grouping `Map` of `getEmulationTools`, characterised declaratively:
keys are the included hooks' events in first-occurrence order, and each key's
group is the sublist of included hooks carrying that event. -/
theorem buildEventGroups_eq (hooks : List HookDefinition) :
    buildEventGroups hooks =
      (firstDedup ((includedHooks hooks).map (·.event))).map
        (fun k => (k, (includedHooks hooks).filter (fun h => decide (h.event = k)))) := by
  induction hooks using List.reverseRecOn with
  | nil => rfl
  | append_singleton l h ih =>
    have hstep : buildEventGroups (l ++ [h]) =
        (if h.fallback.bind (·.strategy) = some "ignore" then buildEventGroups l
         else if h.fallback.bind (·.strategy) = some "skill-injection" then buildEventGroups l
         else optMapPush (buildEventGroups l) h.event h) := by
      simp only [buildEventGroups, List.foldl_append, List.foldl_cons, List.foldl_nil]
    by_cases hexcl : h.fallback.bind (·.strategy) = some "ignore" ∨
        h.fallback.bind (·.strategy) = some "skill-injection"
    · have hinc : includedHooks (l ++ [h]) = includedHooks l := by
        unfold includedHooks
        rw [List.filter_append]
        rcases hexcl with h1 | h1 <;> simp [h1]
      rcases hexcl with h1 | h1
      · rw [hstep, if_pos h1, ih, hinc]
      · have hni : ¬ h.fallback.bind (·.strategy) = some "ignore" := by
          intro hc
          rw [h1] at hc
          exact absurd hc (by decide)
        rw [hstep, if_neg hni, if_pos h1, ih, hinc]
    · push_neg at hexcl
      have hinc : includedHooks (l ++ [h]) = includedHooks l ++ [h] := by
        unfold includedHooks
        rw [List.filter_append]
        simp [hexcl.1, hexcl.2]
      rw [hstep, if_neg hexcl.1, if_neg hexcl.2, ih]
      rw [optMapPush_canonical _ _ (firstDedup_nodup _) h.event h]
      rw [hinc, List.map_append, List.map_cons, List.map_nil,
        firstDedup_append_single]
      by_cases hmem : h.event ∈ (includedHooks l).map (·.event)
      · rw [if_pos hmem,
          if_pos ((mem_firstDedup _ _).mpr hmem)]
        apply List.map_congr_left
        intro k hk
        simp only [List.filter_append]
        by_cases hke : k = h.event
        · subst hke
          simp
        · have hke' : ¬ (h.event = k) := by
            intro hc
            exact hke hc.symm
          simp only [List.filter_cons, List.filter_nil]
          simp [hke, hke']
      · have hmem' : ¬ h.event ∈ firstDedup ((includedHooks l).map (·.event)) := by
          intro hc
          exact hmem ((mem_firstDedup _ _).mp hc)
        rw [if_neg hmem, if_neg hmem']
        rw [List.map_append, List.map_cons, List.map_nil]
        congr 1
        · apply List.map_congr_left
          intro k hk
          have hkne : ¬ (h.event = k) := by
            intro hc
            exact hmem (hc ▸ (mem_firstDedup _ _).mp hk)
          simp only [List.filter_append, List.filter_cons, List.filter_nil]
          simp [hkne]
        · simp only [List.filter_append, List.filter_cons, List.filter_nil]
          simp
          intro x hx hex
          exact absurd (hex ▸ List.mem_map_of_mem (·.event) hx) hmem

/-- Tool synthesis over a canonical group list whose keys are all present. -/
theorem emitGroupTools_canonical (keys : List (Option String))
    (f : Option String → List HookDefinition)
    (hkeys : ∀ k ∈ keys, k.isSome) :
    emitGroupTools (keys.map (fun k => (k, f k))) =
      .ok (keys.map (fun k =>
        { name := "ai-ext_hook_" ++ eventSlug (k.getD ""),
          description := buildToolDescription (k.getD "") (f k),
          inputSchema := buildToolSchema (k.getD "") })) := by
  induction keys with
  | nil => rfl
  | cons k rest ih =>
    rcases k with _ | ev
    · exact absurd (hkeys none (List.mem_cons_self _ _)) (by simp)
    · simp only [List.map_cons, emitGroupTools,
        ih (fun k' hk' => hkeys k' (List.mem_cons_of_mem _ hk')), Option.getD_some]

/-- The canonical-taxonomy tool-lifecycle events, as grouped in the
`HookEvent` union of packages/schema/src/types.ts. -/
def toolLifecycleEvents : List String :=
  ["PreToolUse", "PostToolUse", "PostToolUseFailure", "PermissionRequest"]

/-- C6 counterexample: `PermissionRequest` belongs to the canonical
tool-lifecycle event group, yet its probe schema is the opaque-context shape
and does not require a subject name, contradicting the claim that
tool-lifecycle events require one. -/
theorem c6_counterexample :
    "PermissionRequest" ∈ toolLifecycleEvents ∧
    buildToolSchema "PermissionRequest" =
      { otype := "object",
        properties := [("context", ⟨some "string", some "Contextual information for the hook"⟩)],
        required := none } ∧
    (buildToolSchema "PermissionRequest").required = none ∧
    mapGet (buildToolSchema "PermissionRequest").properties "toolName" = none := by
  refine ⟨by decide, by decide, by decide, by decide⟩

/-- C6 (amended): surface generation excludes hooks whose fallback strategy is
`ignore` or `skill-injection`, groups the rest by event in first-occurrence
order, and synthesizes exactly one probe operation per event group, named
`ai-ext_hook_` plus the PascalCase-to-kebab-case event slug, with the
description assembled by `buildToolDescription` and the input schema chosen by
event: `PreToolUse`, `PostToolUse` and `PostToolUseFailure` require a subject
name, `UserPromptSubmit` accepts free text, and every other event — including
the fourth canonical tool-lifecycle event `PermissionRequest` — accepts an
opaque context string. -/
theorem c6_surface_generation (hooks : List HookDefinition)
    (hev : ∀ h ∈ hooks, h.event.isSome) :
    getEmulationTools hooks =
      .ok ((firstDedup ((includedHooks hooks).map (·.event))).map
        (fun k =>
          { name := "ai-ext_hook_" ++ eventSlug (k.getD ""),
            description := buildToolDescription (k.getD "")
              ((includedHooks hooks).filter (fun h => decide (h.event = k))),
            inputSchema := buildToolSchema (k.getD "") })) ∧
    (∀ ev : String, ev = "PreToolUse" ∨ ev = "PostToolUse" ∨ ev = "PostToolUseFailure" →
      buildToolSchema ev =
        { otype := "object",
          properties :=
            [("toolName", ⟨some "string", some "Name of the tool being called"⟩),
             ("toolInput", ⟨none, some "Input arguments to the tool"⟩)],
          required := some ["toolName"] }) ∧
    (buildToolSchema "UserPromptSubmit" =
      { otype := "object",
        properties := [("prompt", ⟨some "string", some "The user prompt being submitted"⟩)],
        required := none }) ∧
    (∀ ev : String,
      ev ≠ "PreToolUse" → ev ≠ "PostToolUse" → ev ≠ "PostToolUseFailure" →
      ev ≠ "UserPromptSubmit" →
      buildToolSchema ev =
        { otype := "object",
          properties := [("context", ⟨some "string", some "Contextual information for the hook"⟩)],
          required := none }) := by
  refine ⟨?_, ?_, by decide, ?_⟩
  · unfold getEmulationTools
    rw [buildEventGroups_eq]
    apply emitGroupTools_canonical
    intro k hk
    have : k ∈ (includedHooks hooks).map (·.event) := (mem_firstDedup _ _).mp hk
    rcases List.mem_map.mp this with ⟨h, hmem, hkeq⟩
    have : h ∈ hooks := (List.mem_filter.mp hmem).1
    exact hkeq ▸ hev h this
  · intro ev hev'
    rcases hev' with h | h | h <;> subst h <;> simp [buildToolSchema]
  · intro ev h1 h2 h3 h4
    simp [buildToolSchema, h1, h2, h3, h4]

/-- Witness for C6 at a concrete hook list: one `mcp-tool` hook and one
`ignore` hook on PreToolUse plus a `SessionStart` hook produce exactly two
probe operations, named from the kebab-cased events. -/
theorem c6_surface_generation_witness :
    (getEmulationTools [c7wMatchHook, c10wIgnoreHook,
        { metadata := { name := some "s-hook", description := none, license := none,
                        compatibility := none, metadata := none, tags := none },
          event := some "SessionStart", matcher := none, handlers := [],
          fallback := none, instructions := none }]).toOption.map
        (fun ts => ts.map (fun t => t.name)) =
      some ["ai-ext_hook_pre-tool-use", "ai-ext_hook_session-start"] := by
  rw [(c6_surface_generation [c7wMatchHook, c10wIgnoreHook,
    { metadata := { name := some "s-hook", description := none, license := none,
                    compatibility := none, metadata := none, tags := none },
      event := some "SessionStart", matcher := none, handlers := [],
      fallback := none, instructions := none }] (by decide)).1]
  decide

/-! ## Claim C4: dual-convention tool-access parsing -/

/-- C4 counterexample: a block declaring the empty tool list through the
space-delimited convention (`allowed-tools: ""`) parses to no `ToolAccess` at
all (the empty string is falsy, so the branch is skipped), while the same
empty allow-list in the structured convention yields an empty canonical
allow-list — the two conventions disagree on this input even though the
string lists exactly the same (zero) tool names as the array. -/
theorem c4_counterexample :
    splitWs "" = ([] : List String) ∧
    extractToolAccess { allowedToolsKebab := some "" } = none ∧
    extractToolAccess { tools := some ⟨some [], none⟩ } = some ⟨some [], none⟩ ∧
    extractToolAccess { allowedToolsKebab := some "" } ≠
      extractToolAccess { tools := some ⟨some [], none⟩ } := by
  refine ⟨by decide, by decide, by decide, by decide⟩

/-- C4 (amended): for any non-empty space-delimited `allowed-tools` string and
any structured `tools` object whose `allowed` array lists the same tool names
in the same order, the parser produces equal canonical `ToolAccess` values
(both the allow-list from splitting the string, with no deny-list); the empty
string is the one exception, as it is falsy and yields no `ToolAccess`. -/
theorem c4_dual_convention_tool_access (fmA fmB : RawFM) (s : String) (names : List String)
    (hA1 : fmA.allowedToolsKebab = some s) (hA2 : fmA.allowedToolsCamel = none)
    (hA3 : fmA.tools = none)
    (hB1 : fmB.allowedToolsKebab = none) (hB2 : fmB.allowedToolsCamel = none)
    (hB3 : fmB.tools = some ⟨some names, none⟩)
    (hsplit : splitWs s = names) (hne : s ≠ "") :
    extractToolAccess fmA = extractToolAccess fmB ∧
    extractToolAccess fmA = some ⟨some names, none⟩ := by
  have htr : truthyStr (jsOrStr fmA.allowedToolsKebab fmA.allowedToolsCamel) = true := by
    rw [hA1, hA2]
    simp [jsOrStr, truthyStr, hne]
  have hA : extractToolAccess fmA = some ⟨some names, none⟩ := by
    unfold extractToolAccess
    rw [if_pos htr, hA1, hA2]
    simp [jsOrStr, truthyStr, hne, hsplit]
  have hBtr : truthyStr (jsOrStr fmB.allowedToolsKebab fmB.allowedToolsCamel) = false := by
    rw [hB1, hB2]
    simp [jsOrStr, truthyStr]
  have hB : extractToolAccess fmB = some ⟨some names, none⟩ := by
    simp [extractToolAccess, hB1, hB2, hB3, jsOrStr, truthyStr]
  exact ⟨hA.trans hB.symm, hA⟩

/-- Witness for C4 at the concrete pair from the spec example: the string
`"Read Write"` and the array `["Read", "Write"]`. -/
theorem c4_dual_convention_tool_access_witness :
    extractToolAccess { allowedToolsKebab := some "Read Write" } =
      extractToolAccess { tools := some ⟨some ["Read", "Write"], none⟩ } ∧
    extractToolAccess { allowedToolsKebab := some "Read Write" } =
      some ⟨some ["Read", "Write"], none⟩ := by
  exact c4_dual_convention_tool_access
    { allowedToolsKebab := some "Read Write" }
    { tools := some ⟨some ["Read", "Write"], none⟩ }
    "Read Write" ["Read", "Write"] rfl rfl rfl rfl rfl rfl (by decide) (by decide)

/-! ## Claim C5: KiloCode hook compensation -/

/-- C5: compiling any IR with at least one `mcp-tool`-fallback hook for
KiloCode (which has no native hook support) yields a non-empty runtime-
requirement list containing the hook-engine entry whose stated quantity is
the hook count, and emits no host-native hook artifact: the emitted file set
is exactly the file set of the same IR with its hooks removed. -/
theorem c5_kilocode_hook_compensation (ir : ExtensionIR)
    (hne : ir.hooks ≠ [])
    (hmcp : ∃ h ∈ ir.hooks, h.fallback.bind (·.strategy) = some "mcp-tool")
    (out : TargetOutput) (hout : kilocodeCompile ir = .ok out) :
    out.runtimeRequirements ≠ [] ∧
    (∃ req ∈ out.runtimeRequirements, req.feature = "hook-engine" ∧
      req.component = "hooks" ∧
      req.reason = toString ir.hooks.length ++
        " hook(s) require runtime emulation (KiloCode has no native hook support)") ∧
    (∃ out0, kilocodeCompile { ir with hooks := [] } = .ok out0 ∧ out0.files = out.files) := by
  have hlen : ir.hooks.length > 0 := List.length_pos.mpr hne
  rcases hag : kiloAgentsStep ir.agents with e | ares
  · rw [kilocodeCompile, hag] at hout
    cases hout
  · rw [kilocodeCompile, hag] at hout
    have hout' := Except.ok.inj hout
    have hreq : out.runtimeRequirements =
        kiloHookRequirement ir.hooks.length :: (emitTools ir.tools).2 := by
      rw [← hout']
      simp [hlen]
    refine ⟨?_, ?_, ?_⟩
    · rw [hreq]; simp
    · refine ⟨kiloHookRequirement ir.hooks.length, ?_, rfl, rfl, rfl⟩
      rw [hreq]
      exact List.mem_cons_self _ _
    · have hag0 : kiloAgentsStep ({ ir with hooks := [] } : ExtensionIR).agents = .ok ares := hag
      refine ⟨{ files := kiloAllFiles { ir with hooks := [] } ares.1,
                warnings := ares.2 ++ [] ++ (kiloPolicyStep { ir with hooks := [] } ares.1).2,
                runtimeRequirements :=
                  [] ++ (emitTools ({ ir with hooks := [] } : ExtensionIR).tools).2 }, ?_, ?_⟩
      · rw [kilocodeCompile, hag0]
        simp
      · rw [← hout']
        rfl

def c5wManifest : ExtensionManifest :=
  { name := some "ext", version := some "1.0.0", description := some "d",
    author := none, license := none,
    skills := none, agents := none, hooks := some "hooks", tools := none,
    policies := none, rules := none }

def c5wIR : ExtensionIR :=
  { manifest := c5wManifest, skills := [], agents := [], hooks := [c7wMatchHook],
    tools := [], policies := [], rules := [] }

def c5wOut : TargetOutput := ⟨[], [kiloHookWarning], [kiloHookRequirement 1]⟩

/-- Witness for C5 at a concrete one-hook IR. -/
theorem c5_kilocode_hook_compensation_witness :
    c5wOut.runtimeRequirements ≠ [] ∧
    (∃ req ∈ c5wOut.runtimeRequirements, req.feature = "hook-engine" ∧
      req.component = "hooks" ∧
      req.reason = toString c5wIR.hooks.length ++
        " hook(s) require runtime emulation (KiloCode has no native hook support)") ∧
    (∃ out0, kilocodeCompile { c5wIR with hooks := [] } = .ok out0 ∧
      out0.files = c5wOut.files) :=
  c5_kilocode_hook_compensation c5wIR (by decide) (by decide) c5wOut (by decide)

/-! ## Shared concrete fixtures: a valid and an invalid extension source -/

def fxGoodSkillFM : RawFM := { name := some "good-skill", description := some "A skill" }

def fxGoodSkillNode : FileNode :=
  { raw := "",
    parsed := .ok (fxGoodSkillFM, "Body"),
    parsedFixed := .ok (fxGoodSkillFM, "Body") }

def fxBadNode : FileNode :=
  { raw := "",
    parsed := .error "YAMLException: bad",
    parsedFixed := .error "YAMLException: bad" }

/-- A skill file that parses but fails validation (the name violates the
lowercase-hyphen pattern). -/
def fxInvalidNameNode : FileNode :=
  { raw := "",
    parsed := .ok (({ name := some "Bad Name", description := some "A skill" } : RawFM), "Body"),
    parsedFixed := .ok (({ name := some "Bad Name", description := some "A skill" } : RawFM), "Body") }

def fxManifest : ExtensionManifest :=
  { name := some "ext", version := some "1.0.0", description := some "d",
    author := none, license := none,
    skills := some "skills", agents := none, hooks := none, tools := none,
    policies := none, rules := none }

/-- One syntactically invalid skill file beside one valid sibling. -/
def fxTreeBad : FsTree :=
  .dir (entriesOf [("skills", .dir (entriesOf
    [("good-skill", .dir (entriesOf [("SKILL.md", .file fxGoodSkillNode)])),
     ("bad", .dir (entriesOf [("SKILL.md", .file fxBadNode)]))]))])

def fxSrcBad : ExtSource := { manifestLoad := .parsed fxManifest, root := fxTreeBad }

/-- A skill file that parses but carries an invalid name. -/
def fxTreeInvalid : FsTree :=
  .dir (entriesOf [("skills", .dir (entriesOf
    [("inv", .dir (entriesOf [("SKILL.md", .file fxInvalidNameNode)]))]))])

def fxSrcInvalid : ExtSource := { manifestLoad := .parsed fxManifest, root := fxTreeInvalid }

/-- A fully valid source. -/
def fxTreeOk : FsTree :=
  .dir (entriesOf [("skills", .dir (entriesOf
    [("good-skill", .dir (entriesOf [("SKILL.md", .file fxGoodSkillNode)]))]))])

def fxSrcOk : ExtSource := { manifestLoad := .parsed fxManifest, root := fxTreeOk }

def fxDummyTarget : ExtensionIR → Except String TargetOutput := fun _ => .ok ⟨[], [], []⟩

/-! ## Claim C3: compile fails fast and writes nothing on error -/

/-- C3: the compiler orchestrator fails fast — a target name the registry
lookup does not resolve at all yields an error naming the supported targets
with nothing written (a name that resolves to an inherited
`Object.prototype` member also always errors with nothing written); any
error-severity resolution finding yields an error whose message lists every
such finding, with nothing written, and that outcome is the same for every
pair of adapters (validity is decided once, before any adapter runs); every
thrown path writes nothing; and under `dryRun` nothing is written even on
success. -/
theorem c3_compile_fail_fast (claudeC opencodeC : ExtensionIR → Except String TargetOutput)
    (targetName sourceDir : String) (outDir : Option String) (dryRun fixYaml : Bool)
    (src : ExtSource) :
    (targetsRegistry claudeC opencodeC targetName = .absent →
      compile claudeC opencodeC targetName sourceDir outDir dryRun fixYaml src =
        (.error ("Unknown target \"" ++ targetName ++
          "\". Supported targets: claude, kilocode, opencode"), [])) ∧
    ((targetName = "claude" ∨ targetName = "kilocode" ∨ targetName = "opencode") →
      ∀ res, resolveExtension sourceDir src fixYaml = .ok res → res.valid = false →
        compile claudeC opencodeC targetName sourceDir outDir dryRun fixYaml src =
          (.error ("Extension validation failed:\n" ++ joinSep "\n"
            ((res.errors.filter (fun e => e.severity = "error")).map
              (fun e => "  " ++ e.component ++ " (" ++ e.file ++ "): " ++ e.message))), [])) ∧
    (targetsRegistry claudeC opencodeC targetName = .protoMember →
      ∃ e, compile claudeC opencodeC targetName sourceDir outDir dryRun fixYaml src =
        (.error e, [])) ∧
    (∀ e, (compile claudeC opencodeC targetName sourceDir outDir dryRun fixYaml src).1 =
        .error e →
      (compile claudeC opencodeC targetName sourceDir outDir dryRun fixYaml src).2 = []) ∧
    (dryRun = true →
      (compile claudeC opencodeC targetName sourceDir outDir dryRun fixYaml src).2 = []) := by
  refine ⟨?_, ?_, ?_, ?_, ?_⟩
  · intro hreg
    unfold compile
    rw [hreg]
    dsimp only
    have hcat : ("\". Supported targets: " ++ joinSep ", " getSupportedTargets) =
        "\". Supported targets: claude, kilocode, opencode" := by decide
    rw [String.append_assoc, hcat]
  · intro hreg res hres hval
    have hsome : ∃ t, targetsRegistry claudeC opencodeC targetName = .adapter t := by
      unfold targetsRegistry
      rcases hreg with h | h | h <;> simp [h]
    rcases hsome with ⟨t, ht⟩
    unfold compile
    rw [ht, hres]
    simp [hval]
  · intro hreg
    unfold compile
    rw [hreg]
    cases hres : resolveExtension sourceDir src fixYaml with
    | error e => exact ⟨e, rfl⟩
    | ok res =>
      by_cases hval : res.valid
      · exact ⟨"target.compile is not a function", by simp [hval]⟩
      · simp only [Bool.not_eq_true] at hval
        exact ⟨"Extension validation failed:\n" ++ joinSep "\n"
          ((res.errors.filter (fun e => e.severity = "error")).map
            (fun e => "  " ++ e.component ++ " (" ++ e.file ++ "): " ++ e.message)),
          by simp [hval]⟩
  · intro e he
    unfold compile at he ⊢
    cases hreg : targetsRegistry claudeC opencodeC targetName with
    | absent => rfl
    | protoMember =>
      cases hres : resolveExtension sourceDir src fixYaml with
      | error e2 => rfl
      | ok res =>
        by_cases hval : res.valid
        · simp [hres, hval]
        · simp [hres, hval]
    | adapter t =>
      rw [hreg] at he
      cases hres : resolveExtension sourceDir src fixYaml with
      | error e2 => rfl
      | ok res =>
        rw [hres] at he
        by_cases hval : res.valid
        · simp only [hval] at he ⊢
          cases hout : t res.ir with
          | error e3 => simp [hres]
          | ok out =>
            rw [hout] at he
            simp at he
        · simp [hres, hval]
  · intro hdry
    unfold compile
    cases hreg : targetsRegistry claudeC opencodeC targetName with
    | absent => rfl
    | protoMember =>
      cases hres : resolveExtension sourceDir src fixYaml with
      | error e2 => rfl
      | ok res =>
        by_cases hval : res.valid
        · simp [hres, hval]
        · simp [hres, hval]
    | adapter t =>
      cases hres : resolveExtension sourceDir src fixYaml with
      | error e2 => rfl
      | ok res =>
        by_cases hval : res.valid
        · simp only [hval]
          cases hout : t res.ir with
          | error e3 => simp [hres]
          | ok out => simp [hres, hout, hdry]
        · simp [hres, hval]

/-- Witness for C3: the unknown target `nope` and an invalid source both fail
with nothing written, and the invalid-source failure message lists the
parse finding. -/
theorem c3_compile_fail_fast_witness :
    compile fxDummyTarget fxDummyTarget "nope" "ext" none false false fxSrcBad =
      (.error "Unknown target \"nope\". Supported targets: claude, kilocode, opencode", []) ∧
    compile fxDummyTarget fxDummyTarget "kilocode" "ext" none false false fxSrcBad =
      (.error ("Extension validation failed:\n" ++
        "  skill (ext/skills/bad/SKILL.md): Failed to parse: YAMLException: bad"), []) := by
  constructor
  · exact (c3_compile_fail_fast fxDummyTarget fxDummyTarget "nope" "ext" none false false
      fxSrcBad).1 rfl
  · have hres : resolveExtension "ext" fxSrcBad false =
        .ok ((resolveExtension "ext" fxSrcBad false).toOption.getD
          ⟨⟨fxManifest, [], [], [], [], [], []⟩, [], true⟩) := by decide
    have h := (c3_compile_fail_fast fxDummyTarget fxDummyTarget "kilocode" "ext" none false
      false fxSrcBad).2.1 (Or.inr (Or.inl rfl)) _ hres (by decide)
    rw [h]
    decide

/-! ## Claim C8: which exceptions escape resolveExtension and compile -/

/-- The first exception thrown by the six discovery scans of
`resolveExtension`, if any (they run in source order, outside the per-file
`try`/`catch`). -/
def discoverThrow (dir : String) (root : FsTree) (m : ExtensionManifest) : Option String :=
  match discoverComponents dir m.skills "SKILL.md" root with
  | .error e => some e
  | .ok _ =>
  match discoverComponents dir m.agents "AGENT.md" root with
  | .error e => some e
  | .ok _ =>
  match discoverComponents dir m.hooks "HOOK.md" root with
  | .error e => some e
  | .ok _ =>
  match discoverComponents dir m.tools "TOOL.md" root with
  | .error e => some e
  | .ok _ =>
  match discoverComponents dir m.policies "POLICY.md" root with
  | .error e => some e
  | .ok _ =>
  match discoverRules dir m.rules root with
  | .error e => some e
  | .ok _ => none

/-- With a parsed manifest, `resolveExtension` throws exactly the first
discovery exception. -/
theorem resolveExtension_parsed_error_iff (dir : String) (src : ExtSource)
    (fixYaml : Bool) (m : ExtensionManifest) (e : String)
    (hm : src.manifestLoad = .parsed m) :
    resolveExtension dir src fixYaml = .error e ↔
      discoverThrow dir src.root m = some e := by
  unfold resolveExtension discoverThrow
  rw [hm]
  simp only [loadManifest]
  cases hsf : discoverComponents dir m.skills "SKILL.md" src.root with
  | error e2 => simp
  | ok sf =>
  cases haf : discoverComponents dir m.agents "AGENT.md" src.root with
  | error e2 => simp
  | ok af =>
  cases hhf : discoverComponents dir m.hooks "HOOK.md" src.root with
  | error e2 => simp
  | ok hf =>
  cases htf : discoverComponents dir m.tools "TOOL.md" src.root with
  | error e2 => simp
  | ok tf =>
  cases hpf : discoverComponents dir m.policies "POLICY.md" src.root with
  | error e2 => simp
  | ok pf =>
  cases hrl : discoverRules dir m.rules src.root with
  | error e2 => simp
  | ok rl => simp

/-- General error characterisation of `resolveExtension`: exactly the
manifest-loading exceptions and the discovery `ENOTDIR` exceptions escape. -/
theorem resolveExtension_error_iff (dir : String) (src : ExtSource) (fixYaml : Bool)
    (e : String) :
    resolveExtension dir src fixYaml = .error e ↔
      (loadManifest dir src.manifestLoad = .error e ∨
       ∃ m, src.manifestLoad = .parsed m ∧ discoverThrow dir src.root m = some e) := by
  cases hml : src.manifestLoad with
  | missing =>
    unfold resolveExtension
    rw [hml]
    simp [loadManifest]
  | parseError msg =>
    unfold resolveExtension
    rw [hml]
    simp [loadManifest]
  | notObject path =>
    unfold resolveExtension
    rw [hml]
    simp [loadManifest]
  | parsed m =>
    rw [resolveExtension_parsed_error_iff dir src fixYaml m e hml]
    simp [loadManifest]

/-- A source whose manifest points the skills path at a plain file. -/
def fxTreeFileSkills : FsTree := .dir (.cons "skills" (.file fxGoodSkillNode) .nil)

def fxSrcFileSkills : ExtSource :=
  { manifestLoad := .parsed fxManifest, root := fxTreeFileSkills }

/-- C8 counterexample: beyond the two exceptions the claim allows, `compile`
propagates `Extension validation failed: ...`; `resolveExtension` propagates
`Invalid extension manifest at ...` for a non-object manifest and an uncaught
`ENOTDIR` when the skills path names a plain file; and `compile` with the
target name `toString` (an inherited `Object.prototype` member) does not
throw `Unknown target` at all but a `TypeError` after resolution. -/
theorem c8_counterexample :
    (compile fxDummyTarget fxDummyTarget "kilocode" "ext" none false false fxSrcBad).1 =
      .error ("Extension validation failed:\n" ++
        "  skill (ext/skills/bad/SKILL.md): Failed to parse: YAMLException: bad") ∧
    ("Extension validation failed:\n" ++
        "  skill (ext/skills/bad/SKILL.md): Failed to parse: YAMLException: bad") ≠
      ("No extension.yaml found in ext. Run \x27ai-ext init\x27 to create one.") ∧
    ("Extension validation failed:\n" ++
        "  skill (ext/skills/bad/SKILL.md): Failed to parse: YAMLException: bad") ≠
      ("Unknown target \"kilocode\". Supported targets: claude, kilocode, opencode") ∧
    resolveExtension "ext" { manifestLoad := .notObject "ext/extension.yaml", root := fxTreeOk }
        false =
      .error "Invalid extension manifest at ext/extension.yaml" ∧
    resolveExtension "ext" fxSrcFileSkills false =
      .error "ENOTDIR: not a directory, scandir \x27ext/skills\x27" ∧
    (compile fxDummyTarget fxDummyTarget "toString" "ext" none false false fxSrcOk).1 =
      .error "target.compile is not a function" := by
  refine ⟨by decide, by decide, by decide, by decide, by decide, by decide⟩

/-- C8 (amended): `resolveExtension` throws exactly the manifest-loading
failures (missing manifest, YAML parse error, non-object manifest) and the
`ENOTDIR` exceptions of the six discovery scans (a component or rules path
naming a plain file), which run outside the per-file `try` — every
per-component parse or validation problem becomes a finding, never an
exception.  `compile` throws `Unknown target` only for names its lookup does
not resolve at all (inherited `Object.prototype` names resolve to truthy
non-adapters instead), and otherwise propagates the resolution exceptions,
the fail-fast validation-error, the `TypeError` of calling `compile` on a
non-adapter lookup, or whatever the adapter throws. -/
theorem c8_exception_characterization :
    (∀ (dir : String) (src : ExtSource) (fixYaml : Bool) (e : String),
      resolveExtension dir src fixYaml = .error e ↔
        (loadManifest dir src.manifestLoad = .error e ∨
         ∃ m, src.manifestLoad = .parsed m ∧ discoverThrow dir src.root m = some e)) ∧
    (∀ (claudeC opencodeC : ExtensionIR → Except String TargetOutput)
        (targetName sourceDir : String) (outDir : Option String) (dryRun fixYaml : Bool)
        (src : ExtSource) (e : String),
      (compile claudeC opencodeC targetName sourceDir outDir dryRun fixYaml src).1 =
          .error e ↔
        ((targetsRegistry claudeC opencodeC targetName = .absent ∧
            e = "Unknown target \"" ++ targetName ++
              "\". Supported targets: " ++ joinSep ", " getSupportedTargets) ∨
         (targetsRegistry claudeC opencodeC targetName ≠ .absent ∧
            resolveExtension sourceDir src fixYaml = .error e) ∨
         (targetsRegistry claudeC opencodeC targetName ≠ .absent ∧
            ∃ res, resolveExtension sourceDir src fixYaml = .ok res ∧ res.valid = false ∧
              e = "Extension validation failed:\n" ++ joinSep "\n"
                ((res.errors.filter (fun er => er.severity = "error")).map
                  (fun er => "  " ++ er.component ++ " (" ++ er.file ++ "): " ++
                    er.message))) ∨
         (targetsRegistry claudeC opencodeC targetName = .protoMember ∧
            ∃ res, resolveExtension sourceDir src fixYaml = .ok res ∧ res.valid = true ∧
              e = "target.compile is not a function") ∨
         (∃ t res, targetsRegistry claudeC opencodeC targetName = .adapter t ∧
            resolveExtension sourceDir src fixYaml = .ok res ∧ res.valid = true ∧
            t res.ir = .error e))) := by
  refine ⟨resolveExtension_error_iff, ?_⟩
  intro claudeC opencodeC targetName sourceDir outDir dryRun fixYaml src e
  constructor
  · intro he
    unfold compile at he
    cases hreg : targetsRegistry claudeC opencodeC targetName with
    | absent =>
      rw [hreg] at he
      simp at he
      exact Or.inl ⟨rfl, he.symm⟩
    | protoMember =>
      rw [hreg] at he
      cases hrx : resolveExtension sourceDir src fixYaml with
      | error e2 =>
        rw [hrx] at he
        simp at he
        refine Or.inr (Or.inl ⟨fun h => TargetLookup.noConfusion h, ?_⟩)
        rw [he]
      | ok res =>
        rw [hrx] at he
        by_cases hval : res.valid
        · simp only [hval] at he
          simp at he
          exact Or.inr (Or.inr (Or.inr (Or.inl ⟨rfl, res, rfl, hval, he.symm⟩)))
        · simp only [Bool.not_eq_true] at hval
          simp only [hval] at he
          simp at he
          exact Or.inr (Or.inr (Or.inl
            ⟨fun h => TargetLookup.noConfusion h, res, rfl, hval, he.symm⟩))
    | adapter t =>
      rw [hreg] at he
      cases hrx : resolveExtension sourceDir src fixYaml with
      | error e2 =>
        rw [hrx] at he
        simp at he
        refine Or.inr (Or.inl ⟨fun h => TargetLookup.noConfusion h, ?_⟩)
        rw [he]
      | ok res =>
        rw [hrx] at he
        by_cases hval : res.valid
        · simp only [hval] at he
          cases hout : t res.ir with
          | error e3 =>
            rw [hout] at he
            simp at he
            exact Or.inr (Or.inr (Or.inr (Or.inr ⟨t, res, rfl, rfl, hval, he ▸ hout⟩)))
          | ok out =>
            rw [hout] at he
            simp at he
        · simp only [Bool.not_eq_true] at hval
          simp only [hval] at he
          simp at he
          exact Or.inr (Or.inr (Or.inl
            ⟨fun h => TargetLookup.noConfusion h, res, rfl, hval, he.symm⟩))
  · intro hcase
    rcases hcase with ⟨hreg, hmsg⟩ | ⟨hne, hrx⟩ | ⟨hne, res, hrx, hval, hmsg⟩ |
        ⟨hreg, res, hrx, hval, hmsg⟩ | ⟨t, res, hreg, hrx, hval, hout⟩
    · unfold compile
      rw [hreg, hmsg]
    · unfold compile
      cases hreg : targetsRegistry claudeC opencodeC targetName with
      | absent => exact absurd hreg hne
      | protoMember => rw [hrx]
      | adapter t => rw [hrx]
    · unfold compile
      cases hreg : targetsRegistry claudeC opencodeC targetName with
      | absent => exact absurd hreg hne
      | protoMember =>
        rw [hrx]
        simp [hval, hmsg]
      | adapter t =>
        rw [hrx]
        simp [hval, hmsg]
    · unfold compile
      rw [hreg, hrx]
      simp [hval, hmsg]
    · unfold compile
      rw [hreg, hrx]
      simp only [hval]
      rw [hout]
      simp

/-- Witness for C8 at a concrete source: a per-component parse failure becomes
a finding and the resolver returns normally rather than throwing. -/
theorem c8_exception_characterization_witness :
    ¬ (resolveExtension "ext" fxSrcBad false =
        .error "Failed to parse: YAMLException: bad") := by
  intro hc
  have h := (c8_exception_characterization.1 "ext" fxSrcBad false
    "Failed to parse: YAMLException: bad").mp hc
  rcases h with h | ⟨m, hm, hthrow⟩
  · exact absurd h (by decide)
  · have hm2 : ManifestLoad.parsed fxManifest = .parsed m := hm
    injection hm2 with hmm
    rw [← hmm] at hthrow
    exact absurd hthrow (by decide)

/-! ## Claim C1: per-component error isolation in resolveExtension -/

/-- The per-file reader the resolver closes over. -/
def resolveRead (dir : String) (src : ExtSource) (fixYaml : Bool) :
    String → Except String ParsedComponent :=
  fun p => parseMarkdownFile fixYaml (readFileAt dir src.root p) p

/-- The findings one file of a kind loop contributes. -/
def kindFileErrs {C : Type} (read : String → Except String ParsedComponent)
    (kp : KindProc C) (f : String) : List ResolveError :=
  match read f with
  | .error e => [⟨kp.tag, f, "Failed to parse: " ++ e, "error"⟩]
  | .ok parsed =>
    kp.extraErrs f (kp.parseF parsed) ++
    collectErrors (kp.errLabel (kp.parseF parsed)) f (kp.validateF (kp.parseF parsed))

/-- The component list of a successful resolution, per kind. -/
def kindComponents {C : Type} (read : String → Except String ParsedComponent)
    (kp : KindProc C) (files : List String) : List C :=
  (processFiles read kp files).1

/-- All findings of a successful resolution, in recording order, as a
function of the per-kind discovered file lists. -/
def resolveErrsL (dir : String) (src : ExtSource) (fixYaml : Bool)
    (m : ExtensionManifest) (sf af hf tf pf : List String) : List ResolveError :=
  collectErrors "manifest" "extension.yaml" (validateManifest m) ++
  (processFiles (resolveRead dir src fixYaml) skillKP sf).2 ++
  (processFiles (resolveRead dir src fixYaml) agentKP af).2 ++
  (processFiles (resolveRead dir src fixYaml) hookKP hf).2 ++
  (processFiles (resolveRead dir src fixYaml) toolKP tf).2 ++
  (processFiles (resolveRead dir src fixYaml) policyKP pf).2

/-- Characterisation of a successful resolution (manifest parsed and every
discovery scan returning normally). -/
theorem resolveExtension_parsed (dir : String) (src : ExtSource) (fixYaml : Bool)
    (m : ExtensionManifest) (sf af hf tf pf : List String) (rl : List (String × String))
    (hm : src.manifestLoad = .parsed m)
    (hsf : discoverComponents dir m.skills "SKILL.md" src.root = .ok sf)
    (haf : discoverComponents dir m.agents "AGENT.md" src.root = .ok af)
    (hhf : discoverComponents dir m.hooks "HOOK.md" src.root = .ok hf)
    (htf : discoverComponents dir m.tools "TOOL.md" src.root = .ok tf)
    (hpf : discoverComponents dir m.policies "POLICY.md" src.root = .ok pf)
    (hrl : discoverRules dir m.rules src.root = .ok rl) :
    resolveExtension dir src fixYaml =
      .ok { ir :=
              { manifest := m,
                skills := kindComponents (resolveRead dir src fixYaml) skillKP sf,
                agents := kindComponents (resolveRead dir src fixYaml) agentKP af,
                hooks := kindComponents (resolveRead dir src fixYaml) hookKP hf,
                tools := kindComponents (resolveRead dir src fixYaml) toolKP tf,
                policies := kindComponents (resolveRead dir src fixYaml) policyKP pf,
                rules := rl },
            errors := resolveErrsL dir src fixYaml m sf af hf tf pf,
            valid := !(resolveErrsL dir src fixYaml m sf af hf tf pf).any
              (fun e => e.severity = "error") } := by
  unfold resolveExtension
  rw [hm]
  simp only [loadManifest]
  rw [hsf, haf, hhf, htf, hpf, hrl]
  rfl

/-- Inversion of a successful resolution: every discovery scan returned
normally and the result is the canonical record. -/
theorem resolveExtension_ok_inv (dir : String) (src : ExtSource) (fixYaml : Bool)
    (m : ExtensionManifest) (res : ResolveResult)
    (hm : src.manifestLoad = .parsed m)
    (hres : resolveExtension dir src fixYaml = .ok res) :
    ∃ sf af hf tf pf rl,
      discoverComponents dir m.skills "SKILL.md" src.root = .ok sf ∧
      discoverComponents dir m.agents "AGENT.md" src.root = .ok af ∧
      discoverComponents dir m.hooks "HOOK.md" src.root = .ok hf ∧
      discoverComponents dir m.tools "TOOL.md" src.root = .ok tf ∧
      discoverComponents dir m.policies "POLICY.md" src.root = .ok pf ∧
      discoverRules dir m.rules src.root = .ok rl ∧
      res = { ir :=
                { manifest := m,
                  skills := kindComponents (resolveRead dir src fixYaml) skillKP sf,
                  agents := kindComponents (resolveRead dir src fixYaml) agentKP af,
                  hooks := kindComponents (resolveRead dir src fixYaml) hookKP hf,
                  tools := kindComponents (resolveRead dir src fixYaml) toolKP tf,
                  policies := kindComponents (resolveRead dir src fixYaml) policyKP pf,
                  rules := rl },
              errors := resolveErrsL dir src fixYaml m sf af hf tf pf,
              valid := !(resolveErrsL dir src fixYaml m sf af hf tf pf).any
                (fun e => e.severity = "error") } := by
  unfold resolveExtension at hres
  rw [hm] at hres
  simp only [loadManifest] at hres
  cases hsf : discoverComponents dir m.skills "SKILL.md" src.root with
  | error e => rw [hsf] at hres; simp at hres
  | ok sf =>
  rw [hsf] at hres
  cases haf : discoverComponents dir m.agents "AGENT.md" src.root with
  | error e => rw [haf] at hres; simp at hres
  | ok af =>
  rw [haf] at hres
  cases hhf : discoverComponents dir m.hooks "HOOK.md" src.root with
  | error e => rw [hhf] at hres; simp at hres
  | ok hf =>
  rw [hhf] at hres
  cases htf : discoverComponents dir m.tools "TOOL.md" src.root with
  | error e => rw [htf] at hres; simp at hres
  | ok tf =>
  rw [htf] at hres
  cases hpf : discoverComponents dir m.policies "POLICY.md" src.root with
  | error e => rw [hpf] at hres; simp at hres
  | ok pf =>
  rw [hpf] at hres
  cases hrl : discoverRules dir m.rules src.root with
  | error e => rw [hrl] at hres; simp at hres
  | ok rl =>
  rw [hrl] at hres
  exact ⟨sf, af, hf, tf, pf, rl, rfl, rfl, rfl, rfl, rfl, rfl, (Except.ok.inj hres).symm⟩

/-- The components a kind loop keeps are exactly those of the files that
parse, in order — validation never excludes a component. -/
theorem processFiles_components {C : Type} (read : String → Except String ParsedComponent)
    (kp : KindProc C) (files : List String) :
    (processFiles read kp files).1 =
      files.filterMap (fun f => ((read f).map kp.parseF).toOption) := by
  induction files with
  | nil => rfl
  | cons f rest ih =>
    cases hr : read f with
    | error e =>
      simp [processFiles, hr, ih, List.filterMap_cons, Except.map, Except.toOption]
    | ok pc =>
      simp [processFiles, hr, ih, List.filterMap_cons, Except.map, Except.toOption]

/-- The findings a kind loop records, file by file. -/
theorem processFiles_errors {C : Type} (read : String → Except String ParsedComponent)
    (kp : KindProc C) (files : List String) :
    (processFiles read kp files).2 = files.flatMap (kindFileErrs read kp) := by
  induction files with
  | nil => rfl
  | cons f rest ih =>
    cases hr : read f with
    | error e => simp [processFiles, hr, ih, kindFileErrs, List.flatMap_cons]
    | ok pc => simp [processFiles, hr, ih, kindFileErrs, List.flatMap_cons]

theorem filter_flatMap {α β : Type} (p : β → Bool) (g : α → List β) (l : List α) :
    (l.flatMap g).filter p = l.flatMap (fun x => (g x).filter p) := by
  induction l with
  | nil => rfl
  | cons x rest ih => simp [List.flatMap_cons, List.filter_append, ih]

theorem flatMap_eq_nil_of_forall {α β : Type} (g : α → List β) (l : List α)
    (h : ∀ x ∈ l, g x = []) : l.flatMap g = [] := by
  induction l with
  | nil => rfl
  | cons x rest ih =>
    rw [List.flatMap_cons, h x (List.mem_cons_self _ _),
      ih (fun y hy => h y (List.mem_cons_of_mem _ hy))]
    rfl

theorem filterMap_length_of_forall_some {α β : Type} (g : α → Option β) (l : List α)
    (h : ∀ x ∈ l, ∃ v, g x = some v) : (l.filterMap g).length = l.length := by
  induction l with
  | nil => rfl
  | cons x rest ih =>
    rcases h x (List.mem_cons_self _ _) with ⟨v, hv⟩
    rw [List.filterMap_cons, hv]
    simp [ih (fun y hy => h y (List.mem_cons_of_mem _ hy))]

/-- Error-severity entries contributed by one validation result. -/
theorem collectErrors_filter_error (lbl f : String) (v : ValidationResult) :
    (collectErrors lbl f v).filter (fun e => e.severity = "error") =
      v.errors.map (fun err =>
        (⟨lbl, f, err.path ++ ": " ++ err.message, "error"⟩ : ResolveError)) := by
  unfold collectErrors
  rw [List.filter_append]
  have h1 : (v.errors.map (fun err =>
      (⟨lbl, f, err.path ++ ": " ++ err.message, "error"⟩ : ResolveError))).filter
        (fun e => e.severity = "error") =
      v.errors.map (fun err =>
        (⟨lbl, f, err.path ++ ": " ++ err.message, "error"⟩ : ResolveError)) := by
    apply List.filter_eq_self.mpr
    intro a ha
    rcases List.mem_map.mp ha with ⟨err, _, heq⟩
    rw [← heq]
    simp
  have h2 : (v.warnings.map (fun w =>
      (⟨lbl, f, w.path ++ ": " ++ w.message, "warning"⟩ : ResolveError))).filter
        (fun e => e.severity = "error") = [] := by
    apply List.filter_eq_nil_iff.mpr
    intro a ha
    rcases List.mem_map.mp ha with ⟨w, _, heq⟩
    rw [← heq]
    simp
  rw [h1, h2, List.append_nil]

theorem skillDirWarning_filter_error (f : String) (sk : SkillDefinition) :
    (skillDirWarning f sk).filter (fun e => e.severity = "error") = [] := by
  unfold skillDirWarning
  by_cases hc : sk.metadata.name ≠ some ((splitOnC '/'
      ((fun p =>
        let segs := splitOnC '/' p
        if segs.length ≤ 1 then "." else joinSep "/" segs.dropLast) f)).getLast?.getD "")
  · simp only [if_pos hc]
    rfl
  · simp only [if_neg hc]
    rfl

/-- A skill file that parses and validates without error severity contributes
no error finding (possibly warnings). -/
theorem skill_good_file_no_errors (read : String → Except String ParsedComponent)
    (f : String) (pc : ParsedComponent) (hok : read f = .ok pc)
    (hverr : (skillKP.validateF (parseSkill pc)).errors = []) :
    (kindFileErrs read skillKP f).filter (fun e => e.severity = "error") = [] := by
  unfold kindFileErrs
  rw [hok]
  rw [List.filter_append]
  have hex : skillKP.extraErrs f (skillKP.parseF pc) = skillDirWarning f (skillKP.parseF pc) :=
    rfl
  rw [hex, skillDirWarning_filter_error f (skillKP.parseF pc), collectErrors_filter_error]
  have hpf : skillKP.parseF pc = parseSkill pc := rfl
  rw [hpf, hverr]
  rfl

/-- A skill file whose parse throws contributes exactly one error finding. -/
theorem skill_bad_file_one_error (read : String → Except String ParsedComponent)
    (f msg : String) (hbad : read f = .error msg) :
    (kindFileErrs read skillKP f).filter (fun e => e.severity = "error") =
      ([⟨"skill", f, "Failed to parse: " ++ msg, "error"⟩] : List ResolveError) := by
  unfold kindFileErrs
  rw [hbad]
  rfl

/-- C1 counterexample: a skill file that parses but fails validation with
error severity (an invalid name) yields an error-severity finding, makes the
extension invalid, and yet the component is still present in the IR — the
claim requires it to be excluded. -/
theorem c1_counterexample :
    (resolveExtension "ext" fxSrcInvalid false).toOption.map
        (fun res => (res.ir.skills.length, res.valid,
          (res.errors.filter (fun e => e.severity = "error")).length)) =
      some (1, false, 1) := by
  decide

set_option maxHeartbeats 1000000 in
/-- C1 (amended): each discovered component file is processed independently;
a file that fails to parse records one error-severity finding and is excluded
from the IR, while a file that parses but fails validation records its
findings and is still included; sibling files are unaffected, so a directory
with one syntactically invalid file and N clean siblings of the same kind
resolves with exactly one error finding, N components of that kind in the IR,
and overall valid = false.  The inclusion rule (components = exactly the
files that parse) is stated for all five kinds. -/
theorem c1_per_component_isolation (dir : String) (src : ExtSource) (fixYaml : Bool)
    (m : ExtensionManifest) (res : ResolveResult) (sf : List String)
    (hm : src.manifestLoad = .parsed m)
    (hsf : discoverComponents dir m.skills "SKILL.md" src.root = .ok sf)
    (hres : resolveExtension dir src fixYaml = .ok res) :
    (res.ir.skills = sf.filterMap
      (fun f => ((resolveRead dir src fixYaml f).map parseSkill).toOption)) ∧
    (∀ af, discoverComponents dir m.agents "AGENT.md" src.root = .ok af →
      res.ir.agents = af.filterMap
        (fun f => ((resolveRead dir src fixYaml f).map parseAgent).toOption)) ∧
    (∀ hf, discoverComponents dir m.hooks "HOOK.md" src.root = .ok hf →
      res.ir.hooks = hf.filterMap
        (fun f => ((resolveRead dir src fixYaml f).map parseHook).toOption)) ∧
    (∀ tf, discoverComponents dir m.tools "TOOL.md" src.root = .ok tf →
      res.ir.tools = tf.filterMap
        (fun f => ((resolveRead dir src fixYaml f).map parseTool).toOption)) ∧
    (∀ pf, discoverComponents dir m.policies "POLICY.md" src.root = .ok pf →
      res.ir.policies = pf.filterMap
        (fun f => ((resolveRead dir src fixYaml f).map parsePolicy).toOption)) ∧
    (∀ pre post bad msg,
      sf = pre ++ bad :: post →
      resolveRead dir src fixYaml bad = .error msg →
      (∀ f ∈ pre ++ post, ∃ pc, resolveRead dir src fixYaml f = .ok pc ∧
        (skillKP.validateF (parseSkill pc)).errors = []) →
      validateManifest m = vok →
      discoverComponents dir m.agents "AGENT.md" src.root = .ok [] →
      discoverComponents dir m.hooks "HOOK.md" src.root = .ok [] →
      discoverComponents dir m.tools "TOOL.md" src.root = .ok [] →
      discoverComponents dir m.policies "POLICY.md" src.root = .ok [] →
      res.ir.skills.length = pre.length + post.length ∧
      (res.errors.filter (fun e => e.severity = "error")).length = 1 ∧
      res.valid = false) := by
  obtain ⟨sf2, af, hf, tf, pf, rl, hsf2, haf2, hhf2, htf2, hpf2, hrl2, hresrec⟩ :=
    resolveExtension_ok_inv dir src fixYaml m res hm hres
  have hsfeq : sf2 = sf := by
    rw [hsf] at hsf2
    exact (Except.ok.inj hsf2).symm
  subst hsfeq
  subst hresrec
  refine ⟨?_, ?_, ?_, ?_, ?_, ?_⟩
  · exact processFiles_components _ skillKP _
  · intro af0 haf0
    have : af = af0 := by
      rw [haf0] at haf2
      exact (Except.ok.inj haf2).symm
    subst this
    exact processFiles_components _ agentKP _
  · intro hf0 hhf0
    have : hf = hf0 := by
      rw [hhf0] at hhf2
      exact (Except.ok.inj hhf2).symm
    subst this
    exact processFiles_components _ hookKP _
  · intro tf0 htf0
    have : tf = tf0 := by
      rw [htf0] at htf2
      exact (Except.ok.inj htf2).symm
    subst this
    exact processFiles_components _ toolKP _
  · intro pf0 hpf0
    have : pf = pf0 := by
      rw [hpf0] at hpf2
      exact (Except.ok.inj hpf2).symm
    subst this
    exact processFiles_components _ policyKP _
  intro pre post bad msg hdisc hbad hgood hman hag hhk htl hpl
  have hafe : af = [] := by
    rw [hag] at haf2
    exact (Except.ok.inj haf2).symm
  have hhfe : hf = [] := by
    rw [hhk] at hhf2
    exact (Except.ok.inj hhf2).symm
  have htfe : tf = [] := by
    rw [htl] at htf2
    exact (Except.ok.inj htf2).symm
  have hpfe : pf = [] := by
    rw [hpl] at hpf2
    exact (Except.ok.inj hpf2).symm
  subst hafe
  subst hhfe
  subst htfe
  subst hpfe
  subst hdisc
  have herrfun : ∀ f ∈ pre ++ post,
      (fun x => (kindFileErrs (resolveRead dir src fixYaml) skillKP x).filter
        (fun e => e.severity = "error")) f = [] := by
    intro f hf
    rcases hgood f hf with ⟨pc, hok, hverr⟩
    exact skill_good_file_no_errors (resolveRead dir src fixYaml) f pc hok hverr
  have hskerr : ((processFiles (resolveRead dir src fixYaml) skillKP
      (pre ++ bad :: post)).2).filter
        (fun e => e.severity = "error") =
      ([⟨"skill", bad, "Failed to parse: " ++ msg, "error"⟩] : List ResolveError) := by
    rw [processFiles_errors, filter_flatMap, List.flatMap_append, List.flatMap_cons]
    rw [flatMap_eq_nil_of_forall _ pre
      (fun f hf => herrfun f (List.mem_append.mpr (Or.inl hf)))]
    rw [flatMap_eq_nil_of_forall _ post
      (fun f hf => herrfun f (List.mem_append.mpr (Or.inr hf)))]
    rw [skill_bad_file_one_error (resolveRead dir src fixYaml) bad msg hbad]
    rfl
  have herrs : (resolveErrsL dir src fixYaml m (pre ++ bad :: post) [] [] [] []).filter
      (fun e => e.severity = "error") =
      ([⟨"skill", bad, "Failed to parse: " ++ msg, "error"⟩] : List ResolveError) := by
    unfold resolveErrsL
    rw [hman]
    simp only [List.filter_append]
    rw [hskerr]
    rfl
  refine ⟨?_, ?_, ?_⟩
  · show (kindComponents (resolveRead dir src fixYaml) skillKP
      (pre ++ bad :: post)).length = pre.length + post.length
    unfold kindComponents
    rw [processFiles_components, List.filterMap_append, List.filterMap_cons, hbad]
    have hpk : skillKP.parseF = parseSkill := rfl
    rw [hpk]
    have hsc : (Except.map parseSkill
        (Except.error msg : Except String ParsedComponent)).toOption = none := rfl
    rw [hsc]
    have h1 : (pre.filterMap
        (fun f => ((resolveRead dir src fixYaml f).map parseSkill).toOption)).length =
        pre.length := by
      apply filterMap_length_of_forall_some
      intro f hf
      rcases hgood f (List.mem_append.mpr (Or.inl hf)) with ⟨pc, hok, _⟩
      exact ⟨parseSkill pc, by rw [hok]; rfl⟩
    have h2 : (post.filterMap
        (fun f => ((resolveRead dir src fixYaml f).map parseSkill).toOption)).length =
        post.length := by
      apply filterMap_length_of_forall_some
      intro f hf
      rcases hgood f (List.mem_append.mpr (Or.inr hf)) with ⟨pc, hok, _⟩
      exact ⟨parseSkill pc, by rw [hok]; rfl⟩
    simp only [List.length_append, h1, h2]
  · rw [herrs]
    rfl
  · show (!(resolveErrsL dir src fixYaml m (pre ++ bad :: post) [] [] [] []).any
      (fun e => e.severity = "error")) = false
    have hmem : (⟨"skill", bad, "Failed to parse: " ++ msg, "error"⟩ : ResolveError) ∈
        resolveErrsL dir src fixYaml m (pre ++ bad :: post) [] [] [] [] := by
      have : (⟨"skill", bad, "Failed to parse: " ++ msg, "error"⟩ : ResolveError) ∈
          (resolveErrsL dir src fixYaml m (pre ++ bad :: post) [] [] [] []).filter
            (fun e => e.severity = "error") := by
        rw [herrs]
        exact List.mem_cons_self _ _
      exact (List.mem_filter.mp this).1
    have hany : (resolveErrsL dir src fixYaml m (pre ++ bad :: post) [] [] [] []).any
        (fun e => e.severity = "error") = true := by
      rw [List.any_eq_true]
      exact ⟨_, hmem, by simp⟩
    rw [hany]
    rfl

/-- Witness for C1 at the concrete one-bad-one-good source: one error
finding, one surviving sibling skill, valid = false. -/
theorem c1_per_component_isolation_witness :
    ∃ res, resolveExtension "ext" fxSrcBad false = .ok res ∧
      res.ir.skills.length = 1 ∧
      (res.errors.filter (fun e => e.severity = "error")).length = 1 ∧
      res.valid = false := by
  have hres : resolveExtension "ext" fxSrcBad false =
      .ok ((resolveExtension "ext" fxSrcBad false).toOption.getD
        ⟨⟨fxManifest, [], [], [], [], [], []⟩, [], true⟩) := by decide
  refine ⟨_, hres, ?_⟩
  have h := c1_per_component_isolation "ext" fxSrcBad false fxManifest _
    ["ext/skills/bad/SKILL.md", "ext/skills/good-skill/SKILL.md"] rfl (by decide) hres
  have h6 := h.2.2.2.2.2 [] ["ext/skills/good-skill/SKILL.md"] "ext/skills/bad/SKILL.md"
    "YAMLException: bad" (by decide) (by decide) ?_ (by decide) (by decide) (by decide)
    (by decide) (by decide)
  · exact ⟨by simpa using h6.1, h6.2.1, h6.2.2⟩
  · intro f hf
    have hf2 : f = "ext/skills/good-skill/SKILL.md" := by
      simpa using hf
    subst hf2
    exact ⟨⟨fxGoodSkillFM, "Body", "ext/skills/good-skill/SKILL.md"⟩, by decide, by decide⟩

/-! ## Claim C9: sorted discovery and order stability

`discoverComponents` ends in `results.sort()` (loader.ts), so the path list
it returns is ordered by the code-unit string order and is independent of
the `readdirSync` enumeration order.  The development below proves the
order-theoretic facts about the sort model and then the stability of the
whole resolution under re-enumeration of directory listings. -/

/-- The string order as a relation (JS default sort comparator). -/
def SLe (a b : String) : Prop := strLe a b = true

theorem chLe_total : ∀ xs ys : List Char, chLe xs ys = true ∨ chLe ys xs = true
  | [], _ => Or.inl rfl
  | _ :: _, [] => Or.inr rfl
  | x :: xs, y :: ys => by
    unfold chLe
    rcases Nat.lt_trichotomy x.toNat y.toNat with h | h | h
    · left; simp [h]
    · have h1 : ¬ x.toNat < y.toNat := by omega
      have h2 : ¬ y.toNat < x.toNat := by omega
      simp only [h1, h2, if_false]
      exact chLe_total xs ys
    · have h1 : ¬ x.toNat < y.toNat := by omega
      right
      simp [h1, h]

theorem chLe_trans : ∀ xs ys zs : List Char,
    chLe xs ys = true → chLe ys zs = true → chLe xs zs = true
  | [], _, _, _, _ => rfl
  | _ :: _, [], _, hxy, _ => by simp [chLe] at hxy
  | _ :: _, _ :: _, [], _, hyz => by simp [chLe] at hyz
  | x :: xs, y :: ys, z :: zs, hxy, hyz => by
    unfold chLe at hxy hyz ⊢
    rcases Nat.lt_trichotomy x.toNat y.toNat with h1 | h1 | h1
    · rcases Nat.lt_trichotomy y.toNat z.toNat with h2 | h2 | h2
      · simp [Nat.lt_trans h1 h2]
      · have : x.toNat < z.toNat := by omega
        simp [this]
      · have hn1 : ¬ y.toNat < z.toNat := by omega
        simp [hn1, h2] at hyz
    · have hn1 : ¬ x.toNat < y.toNat := by omega
      have hn2 : ¬ y.toNat < x.toNat := by omega
      simp only [hn1, hn2, if_false] at hxy
      rcases Nat.lt_trichotomy y.toNat z.toNat with h2 | h2 | h2
      · have : x.toNat < z.toNat := by omega
        simp [this]
      · have hn3 : ¬ y.toNat < z.toNat := by omega
        have hn4 : ¬ z.toNat < y.toNat := by omega
        simp only [hn3, hn4, if_false] at hyz
        have hn5 : ¬ x.toNat < z.toNat := by omega
        have hn6 : ¬ z.toNat < x.toNat := by omega
        simp only [hn5, hn6, if_false]
        exact chLe_trans xs ys zs hxy hyz
      · have hn3 : ¬ y.toNat < z.toNat := by omega
        simp [hn3, h2] at hyz
    · have hn1 : ¬ x.toNat < y.toNat := by omega
      simp [hn1, h1] at hxy

theorem chLe_antisymm : ∀ xs ys : List Char,
    chLe xs ys = true → chLe ys xs = true → xs = ys
  | [], [], _, _ => rfl
  | [], _ :: _, _, hyx => by simp [chLe] at hyx
  | _ :: _, [], hxy, _ => by simp [chLe] at hxy
  | x :: xs, y :: ys, hxy, hyx => by
    unfold chLe at hxy hyx
    rcases Nat.lt_trichotomy x.toNat y.toNat with h | h | h
    · have hn : ¬ y.toNat < x.toNat := by omega
      simp [hn, h] at hyx
    · have hn1 : ¬ x.toNat < y.toNat := by omega
      have hn2 : ¬ y.toNat < x.toNat := by omega
      simp only [hn1, hn2, if_false] at hxy hyx
      have hc : x = y := Char.eq_of_val_eq (UInt32.ext h)
      rw [hc, chLe_antisymm xs ys hxy hyx]
    · have hn : ¬ x.toNat < y.toNat := by omega
      simp [hn, h] at hxy

theorem strLe_antisymm {a b : String} (h1 : strLe a b = true) (h2 : strLe b a = true) :
    a = b := by
  have hd := chLe_antisymm a.data b.data h1 h2
  cases a; cases b
  exact congrArg String.mk hd

instance : IsTrans String SLe := ⟨fun a b c => chLe_trans a.data b.data c.data⟩

instance : IsAntisymm String SLe := ⟨fun _ _ h1 h2 => strLe_antisymm h1 h2⟩

instance : IsTotal String SLe := ⟨fun a b => chLe_total a.data b.data⟩

theorem sortInsert_perm (x : String) : ∀ l : List String, (sortInsert x l).Perm (x :: l)
  | [] => List.Perm.refl _
  | y :: ys => by
    unfold sortInsert
    by_cases h : strLe x y = true
    · rw [if_pos h]
    · rw [if_neg h]
      exact ((sortInsert_perm x ys).cons y).trans (List.Perm.swap x y ys)

theorem sortInsert_sorted (x : String) : ∀ l : List String,
    l.Pairwise SLe → (sortInsert x l).Pairwise SLe
  | [], _ => by simp [sortInsert]
  | y :: ys, hs => by
    unfold sortInsert
    rcases List.pairwise_cons.mp hs with ⟨hy, hys⟩
    by_cases h : strLe x y = true
    · rw [if_pos h]
      refine List.pairwise_cons.mpr ⟨?_, hs⟩
      intro z hz
      rcases List.mem_cons.mp hz with rfl | hz
      · exact h
      · exact chLe_trans _ _ _ h (hy z hz)
    · rw [if_neg h]
      refine List.pairwise_cons.mpr ⟨?_, sortInsert_sorted x ys hys⟩
      intro z hz
      have hz2 : z ∈ x :: ys := (sortInsert_perm x ys).mem_iff.mp hz
      rcases List.mem_cons.mp hz2 with rfl | hz2
      · rcases chLe_total y.data z.data with hyx | hxy2
        · exact hyx
        · exact absurd hxy2 h
      · exact hy z hz2

theorem jsSort_perm : ∀ l : List String, (jsSort l).Perm l
  | [] => List.Perm.refl _
  | x :: xs => (sortInsert_perm x (jsSort xs)).trans ((jsSort_perm xs).cons x)

theorem jsSort_sorted : ∀ l : List String, (jsSort l).Pairwise SLe
  | [] => List.Pairwise.nil
  | x :: xs => sortInsert_sorted x (jsSort xs) (jsSort_sorted xs)

/-- Sorting canonicalizes: any two enumerations of the same path set sort to
the same list. -/
theorem jsSort_eq_of_perm {l1 l2 : List String} (h : l1.Perm l2) : jsSort l1 = jsSort l2 :=
  List.eq_of_perm_of_sorted ((jsSort_perm l1).trans (h.trans (jsSort_perm l2).symm))
    (jsSort_sorted l1) (jsSort_sorted l2)

/-- Entry names of a directory listing, in enumeration order. -/
def entryNames : FsEntries → List String
  | .nil => []
  | .cons nm _ rest => nm :: entryNames rest

/-- A legal filesystem entry name: nonempty and free of the path separator. -/
def fsNameOk (nm : String) : Bool :=
  (!(nm = "" : Bool)) && !(nm.data.contains '/')

mutual
/-- Well-formedness of a modelled file tree: every directory listing has
pairwise-distinct, legal entry names (what a real filesystem guarantees). -/
def treeWF : FsTree → Bool
  | .file _ => true
  | .dir es => entriesWF es
def entriesWF : FsEntries → Bool
  | .nil => true
  | .cons nm t rest =>
    fsNameOk nm && !((entryNames rest).contains nm) && treeWF t && entriesWF rest
end

/-- Two trees holding the same files with the same contents, whose directory
listings may enumerate in different orders: the `readdirSync` order is not
part of the data a filesystem stores, so two runs (or two machines) may
observe `TPerm`-related views of the same extension directory. -/
inductive TPerm : FsTree → FsTree → Prop where
  | file (n : FileNode) : TPerm (.file n) (.file n)
  | nil : TPerm (.dir .nil) (.dir .nil)
  | cons (nm : String) {t t2 : FsTree} {r r2 : FsEntries} :
      TPerm t t2 → TPerm (.dir r) (.dir r2) →
      TPerm (.dir (.cons nm t r)) (.dir (.cons nm t2 r2))
  | swap (a b : String) (ta tb : FsTree) {r r2 : FsEntries} :
      TPerm (.dir r) (.dir r2) →
      TPerm (.dir (.cons a ta (.cons b tb r))) (.dir (.cons b tb (.cons a ta r2)))
  | trans {t1 t2 t3 : FsTree} : TPerm t1 t2 → TPerm t2 t3 → TPerm t1 t3

mutual
theorem tpermRefl : (t : FsTree) → TPerm t t
  | .file n => .file n
  | .dir es => epermRefl es
theorem epermRefl : (es : FsEntries) → TPerm (.dir es) (.dir es)
  | .nil => .nil
  | .cons nm t rest => .cons nm (tpermRefl t) (epermRefl rest)
end

/-- `TPerm` relates files to the same file and directories to directories. -/
theorem tperm_shape {t t2 : FsTree} (h : TPerm t t2) :
    (∃ n, t = .file n ∧ t2 = .file n) ∨ (∃ es es2, t = .dir es ∧ t2 = .dir es2) := by
  induction h with
  | file n => exact Or.inl ⟨n, rfl, rfl⟩
  | nil => exact Or.inr ⟨.nil, .nil, rfl, rfl⟩
  | cons nm h1 h2 ih1 ih2 => exact Or.inr ⟨_, _, rfl, rfl⟩
  | swap a b ta tb h ih => exact Or.inr ⟨_, _, rfl, rfl⟩
  | trans h1 h2 ih1 ih2 =>
    rcases ih1 with ⟨n, rfl, h12⟩ | ⟨es, es2, rfl, h12⟩ <;>
      rcases ih2 with ⟨n2, h23, rfl⟩ | ⟨esb, esb2, h23, rfl⟩
    · rw [h12] at h23
      injection h23 with hh
      exact Or.inl ⟨n, rfl, by rw [hh]⟩
    · rw [h12] at h23
      exact absurd h23 (by simp)
    · rw [h12] at h23
      exact absurd h23 (by simp)
    · exact Or.inr ⟨es, esb2, rfl, rfl⟩

/-- Re-enumeration permutes the names of a directory listing. -/
theorem tperm_names {t t2 : FsTree} (h : TPerm t t2) :
    ∀ es es2, t = .dir es → t2 = .dir es2 → (entryNames es).Perm (entryNames es2) := by
  induction h with
  | file n => intro es es2 he; exact absurd he (by simp)
  | nil =>
    intro es es2 he he2
    injection he with h1
    injection he2 with h2
    rw [← h1, ← h2]
  | cons nm h1 h2 ih1 ih2 =>
    intro es es2 he he2
    injection he with hh1
    injection he2 with hh2
    rw [← hh1, ← hh2]
    exact (ih2 _ _ rfl rfl).cons nm
  | swap a b ta tb h ih =>
    intro es es2 he he2
    injection he with hh1
    injection he2 with hh2
    rw [← hh1, ← hh2]
    exact (List.Perm.swap b a _).trans (((ih _ _ rfl rfl).cons a).cons b)
  | trans h1 h2 ih1 ih2 =>
    intro es es2 he he2
    subst he; subst he2
    rcases tperm_shape h1 with ⟨n, hne, _⟩ | ⟨esa, esm, hea, hem⟩
    · exact absurd hne (by simp)
    · injection hea with hh1
      subst hh1
      subst hem
      exact (ih1 _ _ rfl rfl).trans (ih2 _ _ rfl rfl)

theorem contains_eq_false_iff (l : List String) (a : String) :
    l.contains a = false ↔ a ∉ l := by simp

/-- Re-enumeration preserves well-formedness. -/
theorem tperm_wf {t t2 : FsTree} (h : TPerm t t2) :
    treeWF t = true → treeWF t2 = true := by
  induction h with
  | file n => exact id
  | nil => exact id
  | cons nm h1 h2 ih1 ih2 =>
    intro hwf
    simp only [treeWF, entriesWF, Bool.and_eq_true] at hwf ⊢
    obtain ⟨⟨⟨hok, hnot⟩, ht⟩, hr⟩ := hwf
    have hperm := tperm_names h2 _ _ rfl rfl
    simp only [Bool.not_eq_true', contains_eq_false_iff] at hnot ⊢
    refine ⟨⟨⟨hok, ?_⟩, ih1 ht⟩, ih2 hr⟩
    intro hc
    exact hnot (hperm.mem_iff.mpr hc)
  | swap a b ta tb h ih =>
    intro hwf
    simp only [treeWF, entriesWF, entryNames, Bool.and_eq_true] at hwf ⊢
    obtain ⟨⟨⟨hoka, hnota⟩, hta⟩, ⟨⟨hokb, hnotb⟩, htb⟩, hr⟩ := hwf
    have hperm := tperm_names h _ _ rfl rfl
    simp only [Bool.not_eq_true', contains_eq_false_iff] at hnota hnotb ⊢
    have hab : a ≠ b := fun hc => hnota (by rw [hc]; exact List.mem_cons_self _ _)
    refine ⟨⟨⟨hokb, ?_⟩, htb⟩, ⟨⟨hoka, ?_⟩, hta⟩, ih hr⟩
    · intro hc
      rcases List.mem_cons.mp hc with hc | hc
      · exact hab hc.symm
      · exact hnotb (hperm.mem_iff.mpr hc)
    · intro hc
      exact hnota (List.mem_cons_of_mem _ (hperm.mem_iff.mpr hc))
  | trans h1 h2 ih1 ih2 => exact fun hwf => ih2 (ih1 hwf)

/-- Option-level view of `TPerm`. -/
inductive OptPerm : Option FsTree → Option FsTree → Prop where
  | none : OptPerm none none
  | some {t t2 : FsTree} : TPerm t t2 → OptPerm (some t) (some t2)

theorem optPerm_none {o o2 : Option FsTree} (h : OptPerm o o2) (he : o = none) :
    o2 = none := by
  cases h with
  | none => rfl
  | some ht => exact absurd he (by simp)

theorem optPerm_some {o o2 : Option FsTree} {t : FsTree} (h : OptPerm o o2)
    (he : o = some t) : ∃ t2, o2 = some t2 ∧ TPerm t t2 := by
  cases h with
  | none => exact absurd he (by simp)
  | some ht =>
    injection he with hh
    exact ⟨_, rfl, hh ▸ ht⟩

theorem optPerm_trans {o1 o2 o3 : Option FsTree} (h1 : OptPerm o1 o2)
    (h2 : OptPerm o2 o3) : OptPerm o1 o3 := by
  cases h1 with
  | none => exact h2
  | some ht1 =>
    cases h2 with
    | some ht2 => exact .some (ht1.trans ht2)

/-- The child found by name in a well-formed listing is well-formed. -/
theorem findEntry_wf : ∀ (es : FsEntries) (seg : String) (t : FsTree),
    findEntry es seg = some t → entriesWF es = true → treeWF t = true
  | .nil, _, _, hf, _ => by simp [findEntry] at hf
  | .cons nm tc rest, seg, t, hf, hwf => by
    simp only [findEntry] at hf
    simp only [entriesWF, Bool.and_eq_true] at hwf
    by_cases hnm : nm = seg
    · rw [if_pos hnm] at hf
      injection hf with hh
      rw [← hh]
      exact hwf.1.2
    · rw [if_neg hnm] at hf
      exact findEntry_wf rest seg t hf hwf.2

/-- Name lookup is stable under re-enumeration of a well-formed listing: the
same name finds the same subtree (up to further re-enumeration inside). -/
theorem findEntry_perm {t t2 : FsTree} (h : TPerm t t2) :
    ∀ es es2, t = .dir es → t2 = .dir es2 → entriesWF es = true →
      ∀ seg, OptPerm (findEntry es seg) (findEntry es2 seg) := by
  induction h with
  | file n => intro es es2 he; exact absurd he (by simp)
  | nil =>
    intro es es2 he he2 hwf seg
    injection he with h1
    injection he2 with h2
    rw [← h1, ← h2]
    exact .none
  | cons nm h1 h2 ih1 ih2 =>
    intro es es2 he he2 hwf seg
    injection he with hh1
    injection he2 with hh2
    subst hh1
    subst hh2
    simp only [entriesWF, Bool.and_eq_true] at hwf
    simp only [findEntry]
    by_cases hnm : nm = seg
    · rw [if_pos hnm, if_pos hnm]
      exact .some h1
    · rw [if_neg hnm, if_neg hnm]
      exact ih2 _ _ rfl rfl hwf.2 seg
  | swap a b ta tb h ih =>
    intro es es2 he he2 hwf seg
    injection he with hh1
    injection he2 with hh2
    subst hh1
    subst hh2
    simp only [entriesWF, entryNames, Bool.and_eq_true] at hwf
    obtain ⟨⟨⟨hoka, hnota⟩, hta⟩, ⟨⟨hokb, hnotb⟩, htb⟩, hr⟩ := hwf
    have hab : a ≠ b := by
      simp only [Bool.not_eq_true', contains_eq_false_iff] at hnota
      exact fun hc => hnota (by rw [hc]; exact List.mem_cons_self _ _)
    simp only [findEntry]
    by_cases ha : a = seg
    · rw [if_pos ha, if_neg (fun hb => hab (ha.trans hb.symm)), if_pos ha]
      exact .some (tpermRefl ta)
    · rw [if_neg ha]
      by_cases hb : b = seg
      · rw [if_pos hb, if_pos hb]
        exact .some (tpermRefl tb)
      · rw [if_neg hb, if_neg hb, if_neg ha]
        exact ih _ _ rfl rfl hr seg
  | trans h1 h2 ih1 ih2 =>
    intro es es2 he he2 hwf seg
    subst he
    subst he2
    rcases tperm_shape h1 with ⟨n, hne, _⟩ | ⟨esa, esm, hea, hem⟩
    · exact absurd hne (by simp)
    · injection hea with hh
      subst hh
      subst hem
      have hwfm : entriesWF esm = true := by
        have := tperm_wf h1 (by simpa [treeWF] using hwf)
        simpa [treeWF] using this
      exact optPerm_trans (ih1 _ _ rfl rfl hwf seg) (ih2 _ _ rfl rfl hwfm seg)

/-- Path walking is stable under re-enumeration of a well-formed tree. -/
theorem subtreeAt_perm : ∀ (segs : List String) (t t2 : FsTree),
    TPerm t t2 → treeWF t = true → OptPerm (subtreeAt t segs) (subtreeAt t2 segs)
  | [], _, _, h, _ => .some h
  | seg :: rest, t, t2, h, hwf => by
    rcases tperm_shape h with ⟨n, rfl, rfl⟩ | ⟨es, es2, rfl, rfl⟩
    · exact .none
    · have hwfe : entriesWF es = true := by simpa [treeWF] using hwf
      have hfe := findEntry_perm h es es2 rfl rfl hwfe seg
      simp only [subtreeAt]
      cases hfes : findEntry es seg with
      | none =>
        rw [optPerm_none hfe hfes]
        exact .none
      | some tc =>
        rcases optPerm_some hfe hfes with ⟨tc2, hfes2, htc⟩
        rw [hfes2]
        exact subtreeAt_perm rest tc tc2 htc (findEntry_wf es seg tc hfes hwfe)

/-- File reading by path is stable under re-enumeration. -/
theorem readByPath_perm {root root2 : FsTree} (h : TPerm root root2)
    (hwf : treeWF root = true) (segs : List String) :
    readByPath root segs = readByPath root2 segs := by
  have hsp := subtreeAt_perm segs root root2 h hwf
  unfold readByPath
  cases hsub : subtreeAt root segs with
  | none => rw [optPerm_none hsp hsub]
  | some tc =>
    rcases optPerm_some hsp hsub with ⟨tc2, hsub2, htc⟩
    rw [hsub2]
    rcases tperm_shape htc with ⟨n, rfl, rfl⟩ | ⟨es, es2, rfl, rfl⟩ <;> rfl

theorem readFileAt_perm {root root2 : FsTree} (h : TPerm root root2)
    (hwf : treeWF root = true) (dir path : String) :
    readFileAt dir root path = readFileAt dir root2 path := by
  unfold readFileAt
  cases relSegs dir path with
  | none => rfl
  | some segs => exact readByPath_perm h hwf segs

/-- One step of `scanDirectory`: the contribution of a single entry. -/
def scanEntryOne (filename dirPath nm : String) : FsTree → List String
  | .dir es => scanDirEntries filename (dirPath ++ "/" ++ nm) es
  | .file _ =>
    if nm = filename ∨ asciiUpper nm = asciiUpper filename then [dirPath ++ "/" ++ nm]
    else []

theorem scanDirEntries_cons (filename dirPath nm : String) (t : FsTree) (rest : FsEntries) :
    scanDirEntries filename dirPath (.cons nm t rest) =
      scanEntryOne filename dirPath nm t ++ scanDirEntries filename dirPath rest := by
  cases t <;> rfl

/-- The component scan collects the same path multiset regardless of the
enumeration order of directory listings. -/
theorem scanEntryOne_perm {t t2 : FsTree} (h : TPerm t t2) :
    ∀ filename dirPath nm,
      (scanEntryOne filename dirPath nm t).Perm (scanEntryOne filename dirPath nm t2) := by
  induction h with
  | file n => intro fn dp nm; exact List.Perm.refl _
  | nil => intro fn dp nm; exact List.Perm.refl _
  | @cons nm2 t t2 r r2 h1 h2 ih1 ih2 =>
    intro fn dp nm
    simp only [scanEntryOne, scanDirEntries_cons]
    have hS : (scanDirEntries fn (dp ++ "/" ++ nm) r).Perm
        (scanDirEntries fn (dp ++ "/" ++ nm) r2) := ih2 fn dp nm
    exact List.Perm.append (ih1 fn (dp ++ "/" ++ nm) nm2) hS
  | @swap a b ta tb r r2 h ih =>
    intro fn dp nm
    simp only [scanEntryOne, scanDirEntries_cons]
    have hS : (scanDirEntries fn (dp ++ "/" ++ nm) r).Perm
        (scanDirEntries fn (dp ++ "/" ++ nm) r2) := ih fn dp nm
    exact (List.perm_append_comm_assoc _ _ _).trans ((hS.append_left _).append_left _)
  | trans h1 h2 ih1 ih2 =>
    intro fn dp nm
    exact (ih1 fn dp nm).trans (ih2 fn dp nm)

theorem discoverComponents_eq (baseDir : String) (cd : Option String) (fn : String)
    (root : FsTree) :
    discoverComponents baseDir cd fn root =
      if ¬ truthyStr cd then .ok []
      else
        match subtreeAt root (splitOnC '/' (cd.getD "")) with
        | none => .ok []
        | some (.file _) =>
          .error ("ENOTDIR: not a directory, scandir \x27" ++
            (baseDir ++ "/" ++ cd.getD "") ++ "\x27")
        | some (.dir es) =>
          .ok (jsSort (scanDirEntries fn (baseDir ++ "/" ++ cd.getD "") es)) :=
  rfl

/-- Discovered component paths are sorted in the code-unit string order
(`results.sort()` in loader.ts). -/
theorem discoverComponents_sorted (baseDir : String) (cd : Option String) (fn : String)
    (root : FsTree) :
    ∀ files, discoverComponents baseDir cd fn root = .ok files → files.Pairwise SLe := by
  intro files hfl
  rw [discoverComponents_eq] at hfl
  by_cases ht : truthyStr cd = true
  · rw [if_neg (by simp [ht])] at hfl
    cases hsub : subtreeAt root (splitOnC '/' (cd.getD "")) with
    | none =>
      rw [hsub] at hfl
      injection hfl with hh
      rw [← hh]
      exact List.Pairwise.nil
    | some tc =>
      cases tc with
      | file n =>
        rw [hsub] at hfl
        simp at hfl
      | dir es =>
        rw [hsub] at hfl
        injection hfl with hh
        rw [← hh]
        exact jsSort_sorted _
  · rw [if_pos (by simp [ht])] at hfl
    injection hfl with hh
    rw [← hh]
    exact List.Pairwise.nil

/-- Because of the sort, component discovery is the identical computation
(outcome included) for any re-enumeration of a well-formed source tree. -/
theorem discoverComponents_perm_eq {root root2 : FsTree} (h : TPerm root root2)
    (hwf : treeWF root = true) (baseDir : String) (cd : Option String) (fn : String) :
    discoverComponents baseDir cd fn root = discoverComponents baseDir cd fn root2 := by
  rw [discoverComponents_eq, discoverComponents_eq]
  by_cases ht : truthyStr cd = true
  · rw [if_neg (by simp [ht]), if_neg (by simp [ht])]
    have hsp := subtreeAt_perm (splitOnC '/' (cd.getD "")) root root2 h hwf
    cases hsub : subtreeAt root (splitOnC '/' (cd.getD "")) with
    | none => rw [optPerm_none hsp hsub]
    | some tc =>
      rcases optPerm_some hsp hsub with ⟨tc2, hsub2, htc⟩
      rw [hsub2]
      rcases tperm_shape htc with ⟨n, rfl, rfl⟩ | ⟨es, es2, rfl, rfl⟩
      · rfl
      · have hscan : (scanDirEntries fn (baseDir ++ "/" ++ cd.getD "") es).Perm
            (scanDirEntries fn (baseDir ++ "/" ++ cd.getD "") es2) :=
          scanEntryOne_perm htc fn baseDir (cd.getD "")
        show Except.ok (jsSort _) = Except.ok (jsSort _)
        rw [jsSort_eq_of_perm hscan]
  · rw [if_pos (by simp [ht]), if_pos (by simp [ht])]

/-- One step of `scanRules`: the contribution of a single entry. -/
def scanRulesOne (rel nm : String) : FsTree → List (String × String)
  | .dir es => scanRulesEntries (if rel = "" then nm else rel ++ "/" ++ nm) es
  | .file n =>
    if endsWithStr nm ".md" then [(if rel = "" then nm else rel ++ "/" ++ nm, n.raw)]
    else []

theorem scanRulesEntries_cons (rel nm : String) (t : FsTree) (rest : FsEntries) :
    scanRulesEntries rel (.cons nm t rest) =
      scanRulesOne rel nm t ++ scanRulesEntries rel rest := by
  cases t <;> rfl

/-- The rules scan collects the same relative-path/content pairs regardless
of enumeration order (as a multiset: the Map insertion order does follow the
enumeration). -/
theorem scanRulesOne_perm {t t2 : FsTree} (h : TPerm t t2) :
    ∀ rel nm, (scanRulesOne rel nm t).Perm (scanRulesOne rel nm t2) := by
  induction h with
  | file n => intro rel nm; exact List.Perm.refl _
  | nil => intro rel nm; exact List.Perm.refl _
  | @cons nm2 t t2 r r2 h1 h2 ih1 ih2 =>
    intro rel nm
    simp only [scanRulesOne, scanRulesEntries_cons]
    have hS : (scanRulesEntries (if rel = "" then nm else rel ++ "/" ++ nm) r).Perm
        (scanRulesEntries (if rel = "" then nm else rel ++ "/" ++ nm) r2) := ih2 rel nm
    exact List.Perm.append (ih1 _ nm2) hS
  | @swap a b ta tb r r2 h ih =>
    intro rel nm
    simp only [scanRulesOne, scanRulesEntries_cons]
    have hS : (scanRulesEntries (if rel = "" then nm else rel ++ "/" ++ nm) r).Perm
        (scanRulesEntries (if rel = "" then nm else rel ++ "/" ++ nm) r2) := ih rel nm
    exact (List.perm_append_comm_assoc _ _ _).trans ((hS.append_left _).append_left _)
  | trans h1 h2 ih1 ih2 =>
    intro rel nm
    exact (ih1 rel nm).trans (ih2 rel nm)

theorem slash_data : ("/" : String).data = ['/'] := rfl

theorem append_slash_ne_empty (a b : String) : a ++ "/" ++ b ≠ "" := by
  intro hc
  have hl := congrArg String.length hc
  have h1 : ("/" : String).length = 1 := rfl
  have h0 : ("" : String).length = 0 := rfl
  simp only [String.length_append, h1, h0] at hl
  omega

theorem fsNameOk_ne_empty {nm : String} (h : fsNameOk nm = true) : nm ≠ "" := by
  simp [fsNameOk] at h
  exact h.1

theorem fsNameOk_no_slash {nm : String} (h : fsNameOk nm = true) :
    '/' ∉ nm.data := by
  simp [fsNameOk] at h
  exact h.2

theorem str_append_cancel_left {p a b : String} (h : p ++ "/" ++ a = p ++ "/" ++ b) :
    a = b := by
  have hd := congrArg String.data h
  simp only [String.data_append] at hd
  have hd2 := List.append_cancel_left hd
  cases a; cases b
  exact congrArg String.mk hd2

theorem pref_injective (p : String) : Function.Injective (fun k => p ++ "/" ++ k) :=
  fun _ _ h => str_append_cancel_left h

theorem list_sep_split {α : Type} [DecidableEq α] (c : α) :
    ∀ (as bs xs ys : List α), c ∉ as → c ∉ bs →
      as ++ c :: xs = bs ++ c :: ys → as = bs ∧ xs = ys
  | [], [], xs, ys, _, _, h => by
    injection h with _ h2
    exact ⟨rfl, h2⟩
  | [], b :: bs, xs, ys, _, hb, h => by
    injection h with h1 _
    exact absurd (h1 ▸ List.mem_cons_self b bs) hb
  | a :: as, [], xs, ys, ha, _, h => by
    injection h with h1 _
    exact absurd (h1.symm ▸ List.mem_cons_self a as) ha
  | a :: as, b :: bs, xs, ys, ha, hb, h => by
    injection h with h1 h2
    have hrec := list_sep_split c as bs xs ys
      (fun hc => ha (List.mem_cons_of_mem _ hc))
      (fun hc => hb (List.mem_cons_of_mem _ hc)) h2
    exact ⟨by rw [h1, hrec.1], hrec.2⟩

/-- Legal names make the separator position unambiguous. -/
theorem slash_split {a b x y : String} (ha : '/' ∉ a.data) (hb : '/' ∉ b.data)
    (h : a ++ "/" ++ x = b ++ "/" ++ y) : a = b ∧ x = y := by
  have hd := congrArg String.data h
  simp only [String.data_append, slash_data, List.append_assoc, List.cons_append,
    List.nil_append] at hd
  rcases list_sep_split '/' a.data b.data x.data y.data ha hb (by simpa using hd) with
    ⟨h1, h2⟩
  constructor
  · cases a; cases b; exact congrArg String.mk h1
  · cases x; cases y; exact congrArg String.mk h2

theorem entriesWF_names_ok : ∀ (es : FsEntries), entriesWF es = true →
    ∀ nm ∈ entryNames es, fsNameOk nm = true
  | .nil, _, nm, h => by simp [entryNames] at h
  | .cons nm2 t rest, hwf, nm, h => by
    simp only [entriesWF, Bool.and_eq_true] at hwf
    simp only [entryNames] at h
    rcases List.mem_cons.mp h with rfl | h
    · exact hwf.1.1.1
    · exact entriesWF_names_ok rest hwf.2 nm h

/-- The inner scan relative to a nonempty prefix is the bare scan with the
prefix glued on. -/
theorem scanRules_shift : ∀ (es : FsEntries), entriesWF es = true →
    ∀ (rel : String), rel ≠ "" →
      scanRulesEntries rel es =
        (scanRulesEntries "" es).map (fun p => (rel ++ "/" ++ p.1, p.2))
  | .nil, _, rel, hrel => rfl
  | .cons nm (.file n) rest, hwf, rel, hrel => by
    simp only [entriesWF, Bool.and_eq_true] at hwf
    rw [scanRulesEntries_cons, scanRulesEntries_cons, List.map_append]
    rw [scanRules_shift rest hwf.2 rel hrel]
    congr 1
    simp only [scanRulesOne]
    by_cases hmd : endsWithStr nm ".md" = true
    · rw [if_pos hmd, if_pos hmd, if_neg hrel]
      simp
    · rw [if_neg hmd, if_neg hmd]
      rfl
  | .cons nm (.dir es) rest, hwf, rel, hrel => by
    simp only [entriesWF, Bool.and_eq_true] at hwf
    rw [scanRulesEntries_cons, scanRulesEntries_cons, List.map_append]
    rw [scanRules_shift rest hwf.2 rel hrel]
    congr 1
    simp only [scanRulesOne]
    rw [if_neg hrel]
    simp only [if_true]
    have hne : nm ≠ "" := fsNameOk_ne_empty hwf.1.1.1
    have hwfes : entriesWF es = true := by
      have := hwf.1.2
      simpa [treeWF] using this
    rw [scanRules_shift es hwfes nm hne,
      scanRules_shift es hwfes (rel ++ "/" ++ nm) (append_slash_ne_empty rel nm)]
    rw [List.map_map]
    apply List.map_congr_left
    intro p _
    simp [String.append_assoc]

/-- Every relative rule path starts with the name of a top-level entry. -/
theorem scanRules_key_shape : ∀ (es : FsEntries), entriesWF es = true →
    ∀ k ∈ (scanRulesEntries "" es).map Prod.fst,
      ∃ nm ∈ entryNames es, k = nm ∨ ∃ sfx, k = nm ++ "/" ++ sfx
  | .nil, _, k, hk => by simp [scanRulesEntries] at hk
  | .cons nm (.file n) rest, hwf, k, hk => by
    simp only [entriesWF, Bool.and_eq_true] at hwf
    rw [scanRulesEntries_cons] at hk
    simp only [List.map_append, List.mem_append] at hk
    rcases hk with hk | hk
    · simp only [scanRulesOne] at hk
      by_cases hmd : endsWithStr nm ".md" = true
      · rw [if_pos hmd] at hk
        simp at hk
        exact ⟨nm, by simp [entryNames], Or.inl hk⟩
      · rw [if_neg hmd] at hk
        simp at hk
    · rcases scanRules_key_shape rest hwf.2 k hk with ⟨nm2, hmem, hsh⟩
      exact ⟨nm2, by simp [entryNames]; exact Or.inr hmem, hsh⟩
  | .cons nm (.dir es) rest, hwf, k, hk => by
    simp only [entriesWF, Bool.and_eq_true] at hwf
    rw [scanRulesEntries_cons] at hk
    simp only [List.map_append, List.mem_append] at hk
    rcases hk with hk | hk
    · simp only [scanRulesOne, if_true] at hk
      have hne : nm ≠ "" := fsNameOk_ne_empty hwf.1.1.1
      have hwfes : entriesWF es = true := by
        have := hwf.1.2
        simpa [treeWF] using this
      rw [scanRules_shift es hwfes nm hne] at hk
      simp only [List.map_map, List.mem_map] at hk
      rcases hk with ⟨p, _, hp⟩
      exact ⟨nm, by simp [entryNames], Or.inr ⟨p.1, hp.symm⟩⟩
    · rcases scanRules_key_shape rest hwf.2 k hk with ⟨nm2, hmem, hsh⟩
      exact ⟨nm2, by simp [entryNames]; exact Or.inr hmem, hsh⟩

/-- A key of the given shapes rooted at a name outside the listing cannot be
produced by that listing. -/
theorem key_clash {nm nm2 : String} (hok : fsNameOk nm = true)
    (hok2 : fsNameOk nm2 = true) (hne : nm ≠ nm2) :
    ∀ k, (k = nm ∨ ∃ s, k = nm ++ "/" ++ s) → (k = nm2 ∨ ∃ s, k = nm2 ++ "/" ++ s) →
      False := by
  intro k h1 h2
  rcases h1 with rfl | ⟨s1, rfl⟩
  · rcases h2 with rfl | ⟨s2, he⟩
    · exact hne rfl
    · have hsl := fsNameOk_no_slash hok
      apply hsl
      rw [he]
      simp [String.data_append, slash_data]
  · rcases h2 with he | ⟨s2, he⟩
    · have hsl := fsNameOk_no_slash hok2
      apply hsl
      rw [← he]
      simp [String.data_append, slash_data]
    · exact hne (slash_split (fsNameOk_no_slash hok) (fsNameOk_no_slash hok2) he).1

/-- Under well-formedness the relative rule paths are pairwise distinct. -/
theorem scanRules_keys_nodup : ∀ (es : FsEntries), entriesWF es = true →
    ((scanRulesEntries "" es).map Prod.fst).Nodup
  | .nil, _ => by simp [scanRulesEntries]
  | .cons nm (.file n) rest, hwf => by
    simp only [entriesWF, Bool.and_eq_true] at hwf
    rw [scanRulesEntries_cons]
    simp only [List.map_append]
    refine List.nodup_append.mpr ⟨?_, scanRules_keys_nodup rest hwf.2, ?_⟩
    · simp only [scanRulesOne]
      by_cases hmd : endsWithStr nm ".md" = true
      · rw [if_pos hmd]
        simp
      · rw [if_neg hmd]
        simp
    · intro a ha hb
      simp only [scanRulesOne] at ha
      by_cases hmd : endsWithStr nm ".md" = true
      · rw [if_pos hmd] at ha
        simp at ha
        subst ha
        rcases scanRules_key_shape rest hwf.2 a hb with ⟨nm2, hmem, hsh⟩
        by_cases hne : a = nm2
        · subst hne
          have := (contains_eq_false_iff _ _).mp (by simpa using hwf.1.1.2)
          exact this hmem
        · exact key_clash hwf.1.1.1 (entriesWF_names_ok rest hwf.2 nm2 hmem) hne a
            (Or.inl rfl) hsh
      · rw [if_neg hmd] at ha
        simp at ha
  | .cons nm (.dir es) rest, hwf => by
    simp only [entriesWF, Bool.and_eq_true] at hwf
    rw [scanRulesEntries_cons]
    simp only [List.map_append]
    have hne : nm ≠ "" := fsNameOk_ne_empty hwf.1.1.1
    have hwfes : entriesWF es = true := by
      have := hwf.1.2
      simpa [treeWF] using this
    refine List.nodup_append.mpr ⟨?_, scanRules_keys_nodup rest hwf.2, ?_⟩
    · simp only [scanRulesOne, if_true]
      rw [scanRules_shift es hwfes nm hne]
      have hcomp : (List.map Prod.fst
            ((scanRulesEntries "" es).map (fun p => (nm ++ "/" ++ p.1, p.2)))) =
          ((scanRulesEntries "" es).map Prod.fst).map (fun k => nm ++ "/" ++ k) := by
        simp only [List.map_map]
        rfl
      rw [hcomp]
      exact List.Nodup.map (pref_injective nm) (scanRules_keys_nodup es hwfes)
    · intro a ha hb
      simp only [scanRulesOne, if_true] at ha
      rw [scanRules_shift es hwfes nm hne] at ha
      simp only [List.map_map, List.mem_map] at ha
      rcases ha with ⟨p, _, hp⟩
      rcases scanRules_key_shape rest hwf.2 a hb with ⟨nm2, hmem, hsh⟩
      by_cases hnm2 : nm = nm2
      · subst hnm2
        have := (contains_eq_false_iff _ _).mp (by simpa using hwf.1.1.2)
        exact this hmem
      · exact key_clash hwf.1.1.1 (entriesWF_names_ok rest hwf.2 nm2 hmem) hnm2 a
          (Or.inr ⟨p.1, hp.symm⟩) hsh

/-- `Map.set` with a fresh key appends. -/
theorem mapSet_fresh {α : Type} : ∀ (m : List (String × α)) (k : String) (v : α),
    k ∉ m.map Prod.fst → mapSet m k v = m ++ [(k, v)]
  | [], _, _, _ => rfl
  | (k2, w) :: rest, k, v, h => by
    simp only [List.map_cons, List.mem_cons] at h
    rw [mapSet]
    rw [if_neg (fun hc => h (Or.inl hc.symm))]
    rw [mapSet_fresh rest k v (fun hc => h (Or.inr hc))]
    rfl

/-- Folding `Map.set` over pairwise-distinct keys just lists the pairs in
insertion order. -/
theorem foldl_mapSet_nodup {α : Type} : ∀ (l acc : List (String × α)),
    (((acc ++ l).map Prod.fst).Nodup) →
    l.foldl (fun m p => mapSet m p.1 p.2) acc = acc ++ l
  | [], acc, _ => by simp
  | p :: rest, acc, hnd => by
    simp only [List.foldl_cons]
    have hfresh : p.1 ∉ acc.map Prod.fst := by
      simp only [List.map_append, List.nodup_append, List.map_cons] at hnd
      intro hc
      exact hnd.2.2 hc (List.mem_cons_self _ _)
    rw [mapSet_fresh acc p.1 p.2 hfresh]
    have hnd2 : (((acc ++ [p]) ++ rest).map Prod.fst).Nodup := by
      rw [List.append_assoc]
      simpa using hnd
    rw [foldl_mapSet_nodup rest (acc ++ [p]) hnd2]
    simp

/-- Subtrees of a well-formed tree are well-formed. -/
theorem subtreeAt_wf : ∀ (segs : List String) (t t2 : FsTree), treeWF t = true →
    subtreeAt t segs = some t2 → treeWF t2 = true
  | [], t, t2, hwf, h => by
    injection h with hh
    rw [← hh]
    exact hwf
  | seg :: rest, t, t2, hwf, h => by
    cases t with
    | file n => simp [subtreeAt] at h
    | dir es =>
      simp only [subtreeAt] at h
      cases hfe : findEntry es seg with
      | none => rw [hfe] at h; simp at h
      | some tc =>
        rw [hfe] at h
        exact subtreeAt_wf rest tc t2
          (findEntry_wf es seg tc hfe (by simpa [treeWF] using hwf)) h

/-- The rules scan behaves identically up to Map insertion order for any
re-enumeration of a well-formed source tree: the same `ENOTDIR` throw, or a
map holding the same path/content pairs (`scanRules` does not sort, so only
the multiset is stable). -/
theorem discoverRules_rel {root root2 : FsTree} (h : TPerm root root2)
    (hwf : treeWF root = true) (baseDir : String) (rd : Option String) :
    (∀ e, discoverRules baseDir rd root = .error e →
      discoverRules baseDir rd root2 = .error e) ∧
    (∀ rl, discoverRules baseDir rd root = .ok rl →
      ∃ rl2, discoverRules baseDir rd root2 = .ok rl2 ∧ rl.Perm rl2) := by
  cases rd with
  | none => exact ⟨fun e he => by simp [discoverRules] at he, fun rl hrl => by
      refine ⟨rl, ?_, List.Perm.refl rl⟩
      simp [discoverRules] at hrl ⊢
      exact hrl⟩
  | some sub =>
    simp only [discoverRules]
    have hsp := subtreeAt_perm (splitOnC '/' sub) root root2 h hwf
    cases hsub : subtreeAt root (splitOnC '/' sub) with
    | none =>
      rw [optPerm_none hsp hsub]
      exact ⟨fun e he => he, fun rl hrl => ⟨rl, hrl, List.Perm.refl rl⟩⟩
    | some tc =>
      rcases optPerm_some hsp hsub with ⟨tc2, hsub2, htc⟩
      rw [hsub2]
      rcases tperm_shape htc with ⟨n, rfl, rfl⟩ | ⟨es, es2, rfl, rfl⟩
      · exact ⟨fun e he => he, fun rl hrl => ⟨rl, hrl, List.Perm.refl rl⟩⟩
      · have hwfes : entriesWF es = true := by
          have := subtreeAt_wf (splitOnC '/' sub) root _ hwf hsub
          simpa [treeWF] using this
        have hwfes2 : entriesWF es2 = true := by
          have := tperm_wf htc (by simpa [treeWF] using hwfes)
          simpa [treeWF] using this
        have hperm : (scanRulesEntries "" es).Perm (scanRulesEntries "" es2) := by
          have := scanRulesOne_perm htc "" ""
          simpa [scanRulesOne] using this
        have hl : (scanRulesEntries "" es).foldl (fun m p => mapSet m p.1 p.2) [] =
            scanRulesEntries "" es := by
          have := foldl_mapSet_nodup (scanRulesEntries "" es) []
            (by simpa using scanRules_keys_nodup es hwfes)
          simpa using this
        have hl2 : (scanRulesEntries "" es2).foldl (fun m p => mapSet m p.1 p.2) [] =
            scanRulesEntries "" es2 := by
          have := foldl_mapSet_nodup (scanRulesEntries "" es2) []
            (by simpa using scanRules_keys_nodup es2 hwfes2)
          simpa using this
        refine ⟨fun e he => by simp at he, fun rl hrl => ?_⟩
        have hrlred : Except.ok ((scanRulesEntries "" es).foldl
            (fun m p => mapSet m p.1 p.2) []) = Except.ok rl := hrl
        refine ⟨(scanRulesEntries "" es2).foldl (fun m p => mapSet m p.1 p.2) [], rfl, ?_⟩
        rw [← Except.ok.inj hrlred, hl, hl2]
        exact hperm

/-- The first discovery exception (if any) is the same for any re-enumeration
of a well-formed source tree. -/
theorem discoverThrow_eq {root root2 : FsTree} (h : TPerm root root2)
    (hwf : treeWF root = true) (dir : String) (m : ExtensionManifest) :
    discoverThrow dir root m = discoverThrow dir root2 m := by
  unfold discoverThrow
  rw [← discoverComponents_perm_eq h hwf dir m.skills "SKILL.md",
    ← discoverComponents_perm_eq h hwf dir m.agents "AGENT.md",
    ← discoverComponents_perm_eq h hwf dir m.hooks "HOOK.md",
    ← discoverComponents_perm_eq h hwf dir m.tools "TOOL.md",
    ← discoverComponents_perm_eq h hwf dir m.policies "POLICY.md"]
  cases hrl : discoverRules dir m.rules root with
  | error e =>
    rw [(discoverRules_rel h hwf dir m.rules).1 e hrl]
  | ok rl =>
    rcases (discoverRules_rel h hwf dir m.rules).2 rl hrl with ⟨rl2, hrl2, -⟩
    rw [hrl2]

set_option maxHeartbeats 1000000 in
/-- C9: resolving the same extension directory twice with no filesystem
changes yields structurally identical IRs - in this embedding the frozen
source makes re-running `resolveExtension` literally the same computation, so
the theorem proves the substantive half: component files within each kind are
discovered in sorted path order (`results.sort()`), and therefore the whole
resolution is stable even across re-enumerations of the directory listings
(`TPerm`-related well-formed views of the same tree): a throwing resolution
throws identically, and a successful one yields identical per-kind component
lists, error lists and validity, and a rules map holding the same
path/content pairs (as a permutation - its insertion order is the only part
that follows the enumeration). -/
theorem c9_order_stability (dir : String) (src src2 : ExtSource) (fixYaml : Bool)
    (m : ExtensionManifest)
    (hm : src.manifestLoad = .parsed m) (hm2 : src2.manifestLoad = .parsed m)
    (hperm : TPerm src.root src2.root) (hwf : treeWF src.root = true) :
    (∀ cd fn files, discoverComponents dir cd fn src.root = .ok files →
      files.Pairwise SLe) ∧
    (∀ e, resolveExtension dir src fixYaml = .error e →
      resolveExtension dir src2 fixYaml = .error e) ∧
    (∀ res, resolveExtension dir src fixYaml = .ok res →
      ∃ res2, resolveExtension dir src2 fixYaml = .ok res2 ∧
        res.ir.skills = res2.ir.skills ∧ res.ir.agents = res2.ir.agents ∧
        res.ir.hooks = res2.ir.hooks ∧ res.ir.tools = res2.ir.tools ∧
        res.ir.policies = res2.ir.policies ∧ res.ir.manifest = res2.ir.manifest ∧
        res.ir.rules.Perm res2.ir.rules ∧
        res.errors = res2.errors ∧ res.valid = res2.valid) := by
  have hread : resolveRead dir src fixYaml = resolveRead dir src2 fixYaml := by
    funext p
    unfold resolveRead
    rw [readFileAt_perm hperm hwf dir p]
  have hdisc : ∀ cd fn, discoverComponents dir cd fn src.root =
      discoverComponents dir cd fn src2.root :=
    fun cd fn => discoverComponents_perm_eq hperm hwf dir cd fn
  refine ⟨fun cd fn => discoverComponents_sorted dir cd fn src.root, ?_, ?_⟩
  · intro e he
    rw [resolveExtension_parsed_error_iff dir src fixYaml m e hm] at he
    rw [resolveExtension_parsed_error_iff dir src2 fixYaml m e hm2]
    rw [← discoverThrow_eq hperm hwf dir m]
    exact he
  · intro res hres
    obtain ⟨sf, af, hf, tf, pf, rl, hsf, haf, hhf, htf, hpf, hrl, hresrec⟩ :=
      resolveExtension_ok_inv dir src fixYaml m res hm hres
    rcases (discoverRules_rel hperm hwf dir m.rules).2 rl hrl with ⟨rl2, hrl2, hrlperm⟩
    have herrL : resolveErrsL dir src fixYaml m sf af hf tf pf =
        resolveErrsL dir src2 fixYaml m sf af hf tf pf := by
      unfold resolveErrsL
      rw [hread]
    refine ⟨_, resolveExtension_parsed dir src2 fixYaml m sf af hf tf pf rl2 hm2
      (by rw [← hdisc m.skills "SKILL.md"]; exact hsf)
      (by rw [← hdisc m.agents "AGENT.md"]; exact haf)
      (by rw [← hdisc m.hooks "HOOK.md"]; exact hhf)
      (by rw [← hdisc m.tools "TOOL.md"]; exact htf)
      (by rw [← hdisc m.policies "POLICY.md"]; exact hpf)
      hrl2, ?_⟩
    subst hresrec
    refine ⟨?_, ?_, ?_, ?_, ?_, rfl, hrlperm, herrL, ?_⟩
    · show kindComponents (resolveRead dir src fixYaml) skillKP sf =
        kindComponents (resolveRead dir src2 fixYaml) skillKP sf
      rw [hread]
    · show kindComponents (resolveRead dir src fixYaml) agentKP af =
        kindComponents (resolveRead dir src2 fixYaml) agentKP af
      rw [hread]
    · show kindComponents (resolveRead dir src fixYaml) hookKP hf =
        kindComponents (resolveRead dir src2 fixYaml) hookKP hf
      rw [hread]
    · show kindComponents (resolveRead dir src fixYaml) toolKP tf =
        kindComponents (resolveRead dir src2 fixYaml) toolKP tf
      rw [hread]
    · show kindComponents (resolveRead dir src fixYaml) policyKP pf =
        kindComponents (resolveRead dir src2 fixYaml) policyKP pf
      rw [hread]
    · show (!(resolveErrsL dir src fixYaml m sf af hf tf pf).any
          (fun e => e.severity = "error")) =
        (!(resolveErrsL dir src2 fixYaml m sf af hf tf pf).any
          (fun e => e.severity = "error"))
      rw [herrL]

/-- A source tree whose skills directory lists the two skills in one order. -/
def c9wTree1 : FsTree :=
  .dir (.cons "skills"
    (.dir (.cons "alpha" (.dir (.cons "SKILL.md" (.file fxGoodSkillNode) .nil))
      (.cons "beta" (.dir (.cons "SKILL.md" (.file fxGoodSkillNode) .nil)) .nil))) .nil)

/-- The same tree with the skills directory enumerated in the other order. -/
def c9wTree2 : FsTree :=
  .dir (.cons "skills"
    (.dir (.cons "beta" (.dir (.cons "SKILL.md" (.file fxGoodSkillNode) .nil))
      (.cons "alpha" (.dir (.cons "SKILL.md" (.file fxGoodSkillNode) .nil)) .nil))) .nil)

def c9wSrc1 : ExtSource := { manifestLoad := .parsed fxManifest, root := c9wTree1 }

def c9wSrc2 : ExtSource := { manifestLoad := .parsed fxManifest, root := c9wTree2 }

/-- Witness for C9: the two enumeration orders of the same well-formed source
resolve to results with identical skill lists and validity. -/
theorem c9_order_stability_witness :
    treeWF c9wSrc1.root = true ∧
    ∃ res res2, resolveExtension "ext" c9wSrc1 false = .ok res ∧
      resolveExtension "ext" c9wSrc2 false = .ok res2 ∧
      res.ir.skills = res2.ir.skills ∧ res.ir.rules.Perm res2.ir.rules ∧
      res.valid = res2.valid := by
  refine ⟨by decide, ?_⟩
  have hres : resolveExtension "ext" c9wSrc1 false =
      .ok ((resolveExtension "ext" c9wSrc1 false).toOption.getD
        ⟨⟨fxManifest, [], [], [], [], [], []⟩, [], true⟩) := by decide
  obtain ⟨res2, h2, hsk, -, -, -, -, -, hr, -, hv⟩ :=
    (c9_order_stability "ext" c9wSrc1 c9wSrc2 false fxManifest rfl rfl
      (TPerm.cons "skills" (TPerm.swap "alpha" "beta" _ _ TPerm.nil) TPerm.nil)
      (by decide)).2.2 _ hres
  exact ⟨_, res2, hres, h2, hsk, hr, hv⟩

end AiExt
